import Mathlib

/-!
# mob: branch naming engine and session state resolver

A shallow embedding of `branch.go` (the `Branch` value, the wip naming
operations and `determineBranches`) together with the properties of the
naming engine.

Go strings are modelled as lists of Unicode code points (`Str`): the
repository only handles branch names and configuration values, which are
valid UTF-8 text, and on such text substring search (`strings.Index`,
`strings.LastIndex`, `strings.HasPrefix`, `strings.HasSuffix`) and slicing
at an index returned by a search agree between the byte view and the code
point view. Indices are `Int`, with `-1` for "not found" as in Go.
A Go run-time panic is modelled by the `Except.error` result.
-/

namespace Mob

/-- Text: a Go string seen as its sequence of code points. -/
abbrev Str := List Char

/-- Ways in which the Go code can panic. -/
inductive Panic where
  /-- A slice expression whose bound is negative or beyond the length. -/
  | sliceBounds
  /-- The explicit panic of determineBranches: neither on base nor on wip branch. -/
  | assertionFailed
  /-- The loop model ran out of fuel (shown never to happen). -/
  | fuelExhausted
  /-- The panic of hasUnpushedCommits when `strconv.Atoi` returns an error. -/
  | atoi
  deriving DecidableEq, Repr

deriving instance DecidableEq for Except

/-! ## The Go standard library functions used by `branch.go` -/

/-- The predicate `unicode.IsSpace`, the Unicode property White_Space: in
Latin-1 the characters `\t \n \v \f \r`, space, U+0085 and U+00A0; beyond it
U+1680, U+2000 to U+200A, U+2028, U+2029, U+202F, U+205F and U+3000. -/
def isSpace (c : Char) : Bool :=
  let n := c.toNat
  (9 ≤ n && n ≤ 13) || n == 32 || n == 133 || n == 160 || n == 5760 ||
  (8192 ≤ n && n ≤ 8202) || n == 8232 || n == 8233 || n == 8239 || n == 8287 ||
  n == 12288

/-- The function `strings.TrimSpace`: leading, then trailing white space removed. -/
def trimSpace (s : Str) : Str :=
  (s.dropWhile isSpace).rdropWhile isSpace

/-- The function `strings.HasPrefix`. -/
def hasPrefix (s pre : Str) : Bool := pre.isPrefixOf s

/-- The function `strings.HasSuffix`. -/
def hasSuffix (s suf : Str) : Bool := suf.isSuffixOf s

/-- The function `strings.Index`: index of the first instance of `sub` in `s`,
or `-1` when there is none. -/
def index : Str → Str → Int
  | [], sub => if sub.isPrefixOf [] then 0 else -1
  | c :: t, sub =>
    if sub.isPrefixOf (c :: t) then 0
    else
      let r := index t sub
      if r < 0 then -1 else r + 1

/-- The function `strings.LastIndex`: index of the last instance of `sub` in
`s` (the length of `s` for the empty `sub`), or `-1` when there is none. -/
def lastIndex : Str → Str → Int
  | [], sub => if sub.isPrefixOf [] then 0 else -1
  | c :: t, sub =>
    let r := lastIndex t sub
    if 0 ≤ r then r + 1
    else if sub.isPrefixOf (c :: t) then 0 else -1

/-- The function `strings.Contains`, which is `Index(s, sub) >= 0`. -/
def contains (s sub : Str) : Bool := decide (0 ≤ index s sub)

/-- The slice expression `s[:hi]`; it panics when `hi` is out of range. -/
def sliceTo (s : Str) (hi : Int) : Except Panic Str :=
  if 0 ≤ hi ∧ hi ≤ (s.length : Int) then .ok (s.take hi.toNat) else .error .sliceBounds

/-! ## Configuration -/

/-- The configuration value object. The type is declared outside `branch.go`;
the fields are those the naming engine and the lifecycle read. -/
structure Configuration where
  RemoteName : Str
  WipBranchPrefix : Str
  WipBranchQualifier : Str
  WipBranchQualifierSeparator : Str
  FixedBaseBranch : Str
  RequireCommitMessage : Bool
  NextStay : Bool
  DoneSquash : Str
  StartIncludeUncommittedChanges : Bool
  GitHooksEnabled : Bool
  StashName : Str
  WipCommitMessage : Str
  Timer : Str
  deriving DecidableEq, Repr

/-- Modelled from the spec: the method `customWipBranchQualifierConfigured` of
the configuration (declared outside `branch.go`): the qualifier is non-empty. -/
def Configuration.customWipBranchQualifierConfigured (c : Configuration) : Bool :=
  c.WipBranchQualifier != []

/-- Modelled from the spec: the method `customFixedBaseBranchConfigured` of
the configuration (declared outside `branch.go`): the fixed base branch is
non-empty. -/
def Configuration.customFixedBaseBranchConfigured (c : Configuration) : Bool :=
  c.FixedBaseBranch != []

/-- Modelled from the spec: the method `wipBranchQualifierSuffix` of the
configuration (declared outside `branch.go`): separator followed by
qualifier. -/
def Configuration.wipBranchQualifierSuffix (c : Configuration) : Str :=
  c.WipBranchQualifierSeparator ++ c.WipBranchQualifier

/-! ## Branch -/

/-- The struct `Branch`. -/
structure Branch where
  Name : Str
  deriving DecidableEq, Repr

/-- The constructor `newBranch`: the name is trimmed. -/
def newBranch (name : Str) : Branch := ⟨trimSpace name⟩

/-- The method `Branch.Is`. -/
def Branch.Is (branch : Branch) (branchName : Str) : Bool :=
  decide (branch.Name = branchName)

/-- The method `Branch.remote`. -/
def Branch.remote (branch : Branch) (configuration : Configuration) : Branch :=
  newBranch (configuration.RemoteName ++ "/".toList ++ branch.Name)

/-- The method `Branch.IsWipBranch`. -/
def Branch.IsWipBranch (branch : Branch) (configuration : Configuration) : Bool :=
  if branch.Name = "mob-session".toList then true
  else decide (index branch.Name configuration.WipBranchPrefix = 0)

/-- The method `Branch.addWipPrefix`. -/
def Branch.addWipPrefix (branch : Branch) (configuration : Configuration) : Branch :=
  newBranch (configuration.WipBranchPrefix ++ branch.Name)

/-- The function `addSuffix`. -/
def addSuffix (branch suffix : Str) : Str := branch ++ suffix

/-- The method `Branch.addWipQualifier`. -/
def Branch.addWipQualifier (branch : Branch) (configuration : Configuration) : Branch :=
  if configuration.customWipBranchQualifierConfigured then
    if branch.Name = configuration.WipBranchPrefix then
      newBranch (addSuffix branch.Name configuration.WipBranchQualifier)
    else
      newBranch (addSuffix branch.Name configuration.wipBranchQualifierSuffix)
  else branch

/-- The function `removePrefix`. The slice `branch[len(prefix):]` is taken
only under `HasPrefix`, where its bound is in range. -/
def removePrefix (branch pre : Str) : Str :=
  if !hasPrefix branch pre then branch else branch.drop pre.length

/-- The method `Branch.removeWipPrefix`. -/
def Branch.removeWipPrefix (branch : Branch) (configuration : Configuration) : Branch :=
  newBranch (removePrefix branch.Name configuration.WipBranchPrefix)

/-- The function `stringContains`. -/
def stringContains (list : List Str) (element : Str) : Bool :=
  list.foldl (fun found x => if x = element then true else found) false

/-- The method `Branch.exists`. -/
def Branch.exists (branch : Branch) (existingBranches : List Str) : Bool :=
  stringContains existingBranches branch.Name

/-- The method `Branch.hasWipBranchQualifierSeparator`. -/
def Branch.hasWipBranchQualifierSeparator (branch : Branch) (configuration : Configuration) :
    Bool :=
  contains branch.Name configuration.WipBranchQualifierSeparator

/-- The method `Branch.removeFromSeparator`. -/
def Branch.removeFromSeparator (branch : Branch) (separator : Str) : Except Panic Branch :=
  (sliceTo branch.Name (lastIndex branch.Name separator)).map newBranch

/-- The method `Branch.removeWipQualifierSuffix`. -/
def Branch.removeWipQualifierSuffix (branch : Branch) (configuration : Configuration) :
    Except Panic Branch :=
  if hasSuffix branch.Name configuration.wipBranchQualifierSuffix then
    (sliceTo branch.Name
      (lastIndex branch.Name configuration.wipBranchQualifierSuffix)).map newBranch
  else .ok branch

/-- The method `Branch.removeWipQualifierSuffixOrSeparator`. -/
def Branch.removeWipQualifierSuffixOrSeparator (branch : Branch)
    (configuration : Configuration) : Except Panic Branch :=
  if !configuration.customWipBranchQualifierConfigured then
    branch.removeFromSeparator configuration.WipBranchQualifierSeparator
  else
    branch.removeWipQualifierSuffix configuration

/-- The `for` loop of `Branch.removeWipQualifier`, with fuel: one unit per
evaluation of the loop condition. The result is `none` when the fuel runs
out, and otherwise the final branch together with the number of executions
of the loop body, or the panic raised in the body. -/
def removeWipQualifierLoop (localBranches : List Str) (configuration : Configuration) :
    Nat → Branch → Option (Except Panic (Branch × Nat))
  | 0, _ => none
  | fuel + 1, branch =>
    if !branch.exists localBranches && branch.hasWipBranchQualifierSeparator configuration then
      match branch.removeWipQualifierSuffixOrSeparator configuration with
      | .error e => some (.error e)
      | .ok afterRemoval =>
        if branch = afterRemoval then some (.ok (branch, 1))
        else
          match removeWipQualifierLoop localBranches configuration fuel afterRemoval with
          | some (.ok (result, n)) => some (.ok (result, n + 1))
          | other => other
    else some (.ok (branch, 0))

/-- The method `Branch.removeWipQualifier`. The loop is run with
`len(name) + 2` units of fuel, which always suffice (see
`removeWipQualifierLoop_total`). -/
def Branch.removeWipQualifier (branch : Branch) (localBranches : List Str)
    (configuration : Configuration) : Except Panic Branch :=
  match removeWipQualifierLoop localBranches configuration (branch.Name.length + 2) branch with
  | some r => r.map Prod.fst
  | none => .error .fuelExhausted

/-- The function `getWipBranch`. -/
def getWipBranch (currentBranch : Branch) (configuration : Configuration) : Branch :=
  if currentBranch.IsWipBranch configuration then currentBranch
  else
    let branch :=
      if configuration.customFixedBaseBranchConfigured &&
          configuration.customWipBranchQualifierConfigured then newBranch []
      else currentBranch
    (branch.addWipPrefix configuration).addWipQualifier configuration

/-- The function `getBaseBranch`. -/
def getBaseBranch (currentBranch : Branch) (localBranches : List Str)
    (configuration : Configuration) : Except Panic Branch :=
  if configuration.customFixedBaseBranchConfigured then
    .ok (newBranch configuration.FixedBaseBranch)
  else if currentBranch.IsWipBranch configuration then
    (currentBranch.removeWipPrefix configuration).removeWipQualifier localBranches configuration
  else .ok currentBranch

/-- The function `determineBranches`; the result is the pair
`(baseBranch, wipBranch)`, or the panic. -/
def determineBranches (currentBranch : Branch) (localBranches : List Str)
    (configuration : Configuration) : Except Panic (Branch × Branch) := do
  let (baseBranch, wipBranch) ←
    (if currentBranch.Is "mob-session".toList ||
        (currentBranch.Is "master".toList &&
          !configuration.customWipBranchQualifierConfigured) then
      pure (newBranch "master".toList, newBranch "mob-session".toList)
    else do
      let baseBranch ← getBaseBranch currentBranch localBranches configuration
      pure (baseBranch, getWipBranch currentBranch configuration)
      : Except Panic (Branch × Branch))
  if currentBranch ≠ baseBranch ∧ currentBranch ≠ wipBranch ∧
      !configuration.customFixedBaseBranchConfigured then
    throw Panic.assertionFailed
  else
    pure (baseBranch, wipBranch)

/-! ## More of the Go standard library -/

/-- The function `strings.Split(s, "\n")`: the pieces of `s` between line
feeds, one more than there are line feeds. -/
def splitLines : Str → List Str
  | [] => [[]]
  | c :: t =>
    if c = '\n' then [] :: splitLines t
    else
      match splitLines t with
      | [] => [[c]]
      | l :: ls => (c :: l) :: ls

/-- The function `strings.TrimPrefix`. -/
def trimPrefix (s pre : Str) : Str :=
  if hasPrefix s pre then s.drop pre.length else s

/-- The function `strings.TrimSuffix`. -/
def trimSuffix (s suf : Str) : Str :=
  if hasSuffix s suf then s.take (s.length - suf.length) else s

/-- The function `strconv.Atoi` on a 64 bit platform: an optional sign and
decimal digits, `none` for a syntax or range error. -/
def atoi (s : Str) : Option Int :=
  let signed : Bool × Str :=
    match s with
    | '+' :: r => (false, r)
    | '-' :: r => (true, r)
    | _ => (false, s)
  let digits := signed.2
  if digits = [] ∨ digits.all Char.isDigit = false then none
  else
    let n : Nat := digits.foldl (fun a c => 10 * a + (c.toNat - 48)) 0
    let v : Int := if signed.1 then -(n : Int) else (n : Int)
    if v < -(2 : Int) ^ 63 ∨ (2 : Int) ^ 63 ≤ v then none else some v

/-! ## The repository and the commands run on it -/

/-- One invocation of git: its arguments. -/
abbrev Cmd := List Str

/-- What `runCommand` gets back: the combined output and whether the command
returned an error. -/
structure Reply where
  output : Str
  failed : Bool
  deriving DecidableEq, Repr

/-- The repository as the program sees it: the reply to an invocation of git,
given the invocations made before it (oldest first). -/
abbrev Repo := List Cmd → Cmd → Reply

/-- How a run ends: a normal return, a call of `exit`, or a panic. -/
inductive Res (α : Type) where
  | ok (a : α)
  | exit (code : Nat)
  | panic (p : Panic)
  deriving DecidableEq, Repr

/-- A piece of the program that talks to the repository: from the repository
and the invocations made so far to the invocations made at its end and
its result. Console output is not part of the model. -/
def Prog (α : Type) : Type := Repo → List Cmd → List Cmd × Res α

/-- Return of a value, no invocation. -/
def Prog.pure {α : Type} (a : α) : Prog α := fun _ t => (t, .ok a)

/-- Sequencing: the second part runs when the first has returned. -/
def Prog.bind {α β : Type} (m : Prog α) (f : α → Prog β) : Prog β := fun repo t =>
  match m repo t with
  | (t1, .ok a) => f a repo t1
  | (t1, .exit code) => (t1, .exit code)
  | (t1, .panic p) => (t1, .panic p)

instance : Monad Prog where
  pure := Prog.pure
  bind := Prog.bind

/-- The variable `exit`, which is `os.Exit`. -/
def exit {α : Type} (code : Nat) : Prog α := fun _ t => (t, .exit code)

/-- A panic of the program. -/
def panicWith {α : Type} (p : Panic) : Prog α := fun _ t => (t, .panic p)

/-- A pure computation that may panic, inside a program. -/
def liftExcept {α : Type} : Except Panic α → Prog α
  | .ok a => Prog.pure a
  | .error p => panicWith p

/-! ## git.go -/

/-- The function `runCommand`, for the executable git: the invocation is
recorded and the repository replies. -/
def runCommand (args : Cmd) : Prog Reply := fun repo t => (t ++ [args], .ok (repo t args))

/-- The function `isGit`. -/
def isGit : Prog Bool := do
  let r ← runCommand ["rev-parse".toList]
  pure (!r.failed)

/-- The function `sayGitError`: of it only the call of `isGit` touches the
repository. -/
def sayGitError : Prog Unit := do
  let _ ← isGit
  pure ()

/-- The function `silentgit`. -/
def silentgit (args : Cmd) : Prog Str := do
  let r ← runCommand args
  if r.failed then
    sayGitError
    exit 1
  else
    pure (trimSpace r.output)

/-- The function `silentgitignorefailure`. -/
def silentgitignorefailure (args : Cmd) : Prog Str := do
  let r ← runCommand args
  if r.failed then pure [] else pure (trimSpace r.output)

/-- The function `git`. -/
def git (args : Cmd) : Prog Unit := do
  let r ← runCommand args
  if r.failed then
    sayGitError
    exit 1
  else
    pure ()

/-- The function `deleteEmptyStrings`. -/
def deleteEmptyStrings (s : List Str) : List Str :=
  s.filter (fun str => decide (str ≠ []))

/-- The function `gitWithoutEmptyStrings`. -/
def gitWithoutEmptyStrings (args : Cmd) : Prog Unit :=
  git (deleteEmptyStrings args)

/-- The function `gitignorefailure`; the result tells whether the command
returned an error. -/
def gitignorefailure (args : Cmd) : Prog Bool := do
  let r ← runCommand args
  pure r.failed

/-- The arguments of the query of `getCachedChanges`. -/
def cachedQuery : Cmd := ["diff".toList, "--cached".toList, "--stat".toList]

/-- The function `getCachedChanges`. -/
def getCachedChanges : Prog Str :=
  silentgit cachedQuery

/-- The function `fetch`. -/
def fetch (configuration : Configuration) : Prog Unit :=
  git ["fetch".toList, configuration.RemoteName, "--prune".toList]

/-- The arguments of the query of `gitDir`. -/
def gitDirQuery : Cmd := ["rev-parse".toList, "--absolute-git-dir".toList]

/-- The function `gitDir`. -/
def gitDir : Prog Str :=
  silentgit gitDirQuery

/-- The function `gitRootDir`. -/
def gitRootDir : Prog Str := do
  let dir ← gitDir
  pure (trimSuffix dir "/.git".toList)

/-- The arguments of the query of `gitUserName`. -/
def userNameQuery : Cmd := ["config".toList, "--get".toList, "user.name".toList]

/-- The function `gitUserName`. -/
def gitUserName : Prog Str :=
  silentgitignorefailure userNameQuery

/-- The arguments of the query of `isNothingToCommit`. -/
def statusQuery : Cmd := ["status".toList, "--short".toList]

/-- The function `isNothingToCommit`. -/
def isNothingToCommit : Prog Bool := do
  let output ← silentgit statusQuery
  pure (decide (output.length = 0))

/-! ## branch.go: the queries on the repository -/

/-- The loop `for i ...: if list[i] == element return true` followed by
`return false`, of hasRemoteBranch and hasLocalBranch. -/
def inList : List Str → Str → Bool
  | [], _ => false
  | x :: rest, element => if x = element then true else inList rest element

/-- The arguments of the query of `gitBranches`. -/
def branchesQuery : Cmd := ["branch".toList, "--format=%(refname:short)".toList]

/-- The function `gitBranches`. -/
def gitBranches : Prog (List Str) := do
  let out ← silentgit branchesQuery
  pure (splitLines out)

/-- The arguments of the query of `gitRemoteBranches`. -/
def remoteBranchesQuery : Cmd :=
  ["branch".toList, "--remotes".toList, "--format=%(refname:short)".toList]

/-- The function `gitRemoteBranches`. -/
def gitRemoteBranches : Prog (List Str) := do
  let out ← silentgit remoteBranchesQuery
  pure (splitLines out)

/-- The arguments of the query of `gitCurrentBranch`. -/
def currentBranchQuery : Cmd := ["rev-parse".toList, "--abbrev-ref".toList, "HEAD".toList]

/-- The function `gitCurrentBranch`. -/
def gitCurrentBranch : Prog Branch := do
  let out ← silentgit currentBranchQuery
  pure (newBranch out)

/-- The function `gitCommitHash`. -/
def gitCommitHash : Prog Str :=
  silentgitignorefailure ["rev-parse".toList, "HEAD".toList]

/-- The method `Branch.hasRemoteBranch`. -/
def Branch.hasRemoteBranch (branch : Branch) (configuration : Configuration) : Prog Bool := do
  let remoteBranches ← gitRemoteBranches
  let remoteBranch := (branch.remote configuration).Name
  pure (inList remoteBranches remoteBranch)

/-- The method `Branch.isOrphanWipBranch`; the remote branches are read only
when the branch is a wip branch, as `&&` evaluates its right operand only
then. -/
def Branch.isOrphanWipBranch (branch : Branch) (configuration : Configuration) : Prog Bool := do
  if branch.IsWipBranch configuration then
    let remote ← branch.hasRemoteBranch configuration
    pure (!remote)
  else
    pure false

/-- The arguments of the first query of `hasLocalCommits`, on the local ref. -/
def localRefQuery (branch : Branch) : Cmd :=
  ["for-each-ref".toList, "--format=%(objectname)".toList, "refs/heads/".toList ++ branch.Name]

/-- The arguments of the second query of `hasLocalCommits`, on the remote ref. -/
def remoteRefQuery (branch : Branch) (configuration : Configuration) : Cmd :=
  ["for-each-ref".toList, "--format=%(objectname)".toList,
    "refs/remotes/".toList ++ (branch.remote configuration).Name]

/-- The method `Branch.hasLocalCommits`. -/
def Branch.hasLocalCommits (branch : Branch) (configuration : Configuration) : Prog Bool := do
  let loc ← silentgit (localRefQuery branch)
  let remote ← silentgit (remoteRefQuery branch configuration)
  pure (decide (loc ≠ remote))

/-- The arguments of the query of `hasUnpushedCommits`. -/
def unpushedQuery (branch : Branch) (configuration : Configuration) : Cmd :=
  ["rev-list".toList, "--count".toList, "--left-only".toList,
    "refs/heads/".toList ++ branch.Name ++ "...".toList ++ "refs/remotes/".toList ++
      (branch.remote configuration).Name]

/-- The method `Branch.hasUnpushedCommits`. -/
def Branch.hasUnpushedCommits (branch : Branch) (configuration : Configuration) : Prog Bool := do
  let countOutput ← silentgit (unpushedQuery branch configuration)
  match atoi countOutput with
  | none => panicWith Panic.atoi
  | some unpushedCount => pure (decide (unpushedCount ≠ 0))

/-- The function `hasLocalBranch`. -/
def hasLocalBranch (localBranch : Str) : Prog Bool := do
  let localBranches ← gitBranches
  pure (inList localBranches localBranch)

/-- The function `isMobProgramming` of mob.go. -/
def isMobProgramming (configuration : Configuration) : Prog Bool := do
  let currentBranch ← gitCurrentBranch
  let localBranches ← gitBranches
  let (_, currentWipBranch) ← liftExcept (determineBranches currentBranch localBranches configuration)
  pure (decide (currentWipBranch = currentBranch))

/-- The function `getWipBranchesForBaseBranch`. -/
def getWipBranchesForBaseBranch (currentBaseBranch : Branch) (configuration : Configuration) :
    Prog (List Str) := do
  let remoteBranches ← gitRemoteBranches
  let remoteBranchWithQualifier :=
    (((currentBaseBranch.addWipPrefix configuration).addWipQualifier configuration).remote
      configuration).Name
  let remoteBranchNoQualifier :=
    if currentBaseBranch.Is "master".toList then "mob-session".toList
    else ((currentBaseBranch.addWipPrefix configuration).remote configuration).Name
  pure (remoteBranches.filter (fun remoteBranch =>
    contains remoteBranch remoteBranchWithQualifier ||
      contains remoteBranch remoteBranchNoQualifier))

/-- The function `warnForActiveWipBranches`; the warning itself is console
output. -/
def warnForActiveWipBranches (configuration : Configuration) (currentBaseBranch : Branch) :
    Prog Unit := do
  if ← isMobProgramming configuration then
    pure ()
  else
    let _ ← getWipBranchesForBaseBranch currentBaseBranch configuration
    pure ()

/-! ## commit.go -/

/-- The method `gitHooksOption` of the configuration. -/
def Configuration.gitHooksOption (c : Configuration) : Str :=
  if c.GitHooksEnabled then [] else "--no-verify".toList

/-- The constant `Squash`. -/
def Squash : Str := "squash".toList

/-- The constant `NoSquash`. -/
def NoSquash : Str := "no-squash".toList

/-- The constant `SquashWip`. -/
def SquashWip : Str := "squash-wip".toList

/-- The function `squashOrNoCommit`. -/
def squashOrNoCommit (configuration : Configuration) : Str :=
  if configuration.DoneSquash = Squash then "--squash".toList else "--no-commit".toList

/-- The function `hasUncommittedChanges`. -/
def hasUncommittedChanges : Prog Bool := do
  let nothing ← isNothingToCommit
  pure (!nothing)

/-- The arguments of the query of `getUntrackedFiles`. -/
def untrackedQuery : Cmd :=
  ["ls-files".toList, "--others".toList, "--exclude-standard".toList, "--full-name".toList]

/-- The function `getUntrackedFiles`. -/
def getUntrackedFiles : Prog Str :=
  silentgit untrackedQuery

/-- The arguments of the query of `getUnstagedChanges`. -/
def unstagedQuery : Cmd := ["diff".toList, "--stat".toList]

/-- The function `getUnstagedChanges`. -/
def getUnstagedChanges : Prog Str :=
  silentgit unstagedQuery

/-- The function `sayUntrackedFilesInfo`: the query, the rest is console output. -/
def sayUntrackedFilesInfo : Prog Unit := do
  let _ ← getUntrackedFiles
  pure ()

/-- The function `sayUnstagedChangesInfo`: the query, the rest is console output. -/
def sayUnstagedChangesInfo : Prog Unit := do
  let _ ← getUnstagedChanges
  pure ()

/-- The loop of `findStashByName` over the lines of the stash list. -/
def findStashByNameLoop (stash : Str) : List Str → Except Panic Str
  | [] => .ok "unknown".toList
  | line :: rest =>
    if contains line stash then sliceTo line (index line ":".toList)
    else findStashByNameLoop stash rest

/-- The function `findStashByName`. -/
def findStashByName (stashes stash : Str) : Except Panic Str :=
  findStashByNameLoop stash (splitLines stashes)

/-- The function `getChangesOfLastCommit`. -/
def getChangesOfLastCommit : Prog Str :=
  silentgit ["diff".toList, "HEAD^1".toList, "--stat".toList]

/-- The loop of `getModifiedFiles` over the lines of the short status. -/
def getModifiedFilesLoop : List Str → List Str
  | [] => []
  | line :: rest =>
    if hasPrefix line "M".toList then
      trimSpace (trimPrefix line "M".toList) :: getModifiedFilesLoop rest
    else if hasPrefix line "A".toList then
      trimSpace (trimPrefix line "A".toList) :: getModifiedFilesLoop rest
    else getModifiedFilesLoop rest

/-- The function `getModifiedFiles`. -/
def getModifiedFiles : Prog (List Str) := do
  let gitstatus ← silentgit ["status".toList, "--short".toList]
  pure (getModifiedFilesLoop (splitLines gitstatus))

/-- The function `sayLastCommitsList`: the query, the rest is console output. -/
def sayLastCommitsList (currentBaseBranch currentWipBranch : Str) : Prog Unit := do
  let _ ← silentgit ["--no-pager".toList, "log".toList,
    currentBaseBranch ++ "..".toList ++ currentWipBranch,
    "--pretty=format:%h %cr <%an>".toList, "--abbrev-commit".toList]
  pure ()

/-! ## The parts of the program outside the modelled files -/

/-- The functions that the modelled code calls and whose code lies outside
`branch.go`, `commit.go`, `git.go` and `mob.go`, or outside the repository
model (file system, clock, timer service), taken as parameters. -/
structure External where
  /-- The method `hasCustomCommitMessage` of the configuration. -/
  hasCustomCommitMessage : Configuration → Bool
  /-- The function `squashWip`, the rewriting of the wip commits. -/
  squashWip : Configuration → Prog Unit
  /-- The function `appendCoauthorsToSquashMsg`, on the git directory. -/
  appendCoauthorsToSquashMsg : Str → Prog Unit
  /-- The function `openLastModifiedFileIfPresent`, which reads the last commit
  through functions outside the modelled files and starts an editor. -/
  openLastModifiedFileIfPresent : Configuration → Prog Unit
  /-- The outcome of the loop of `getPathOfLastModifiedFile` over the
  modification times (`os.Stat`) of the files, given the root directory. -/
  lastModifiedAmong : Str → List Str → Str
  /-- The function `startTimer` of timer.go. -/
  startTimer : Str → Configuration → Prog Unit
  /-- The commands of `execute` other than start, branch, next, done, fetch,
  reset, clean and status: config, timer, break, moo, squash-wip, version and
  help, which run on the timer service, on background processes and on the
  console. -/
  otherCommand : Str → List Str → Configuration → Prog Unit

/-! ## commit.go: the wip commit -/

/-- The function `getPathOfLastModifiedFile`. -/
def getPathOfLastModifiedFile (ext : External) : Prog Str := do
  let files ← getModifiedFiles
  let rootDir ← gitRootDir
  match files with
  | [file] => pure file
  | _ => pure (ext.lastModifiedAmong rootDir files)

/-- The function `createWipCommitMessage`. -/
def createWipCommitMessage (ext : External) (configuration : Configuration) : Prog Str := do
  let commitMessage := configuration.WipCommitMessage
  let lastModifiedFilePath ← getPathOfLastModifiedFile ext
  if lastModifiedFilePath ≠ [] then
    pure (commitMessage ++ "\n\nlastFile:".toList ++ lastModifiedFilePath)
  else
    pure commitMessage

/-- The function `makeWipCommit`. -/
def makeWipCommit (ext : External) (configuration : Configuration) : Prog Unit := do
  git ["add".toList, "--all".toList]
  let commitMessage ← createWipCommitMessage ext configuration
  gitWithoutEmptyStrings ["commit".toList, "--message".toList, commitMessage,
    configuration.gitHooksOption]
  let _ ← getChangesOfLastCommit
  let _ ← gitCommitHash
  pure ()

/-! ## mob.go: the lifecycle -/

/-- The loop of `clean` over the local branches. -/
def cleanLoop (configuration : Configuration) : List Str → Prog Unit
  | [] => pure ()
  | branch :: rest => do
    let b := newBranch branch
    let orphan ← b.isOrphanWipBranch configuration
    (if orphan then git ["branch".toList, "-d".toList, b.Name] else pure ())
    cleanLoop configuration rest

/-- The body of the first `if` of `clean`: leaving an orphan current branch. -/
def cleanCheckout (configuration : Configuration) (currentBranch : Branch)
    (localBranches : List Str) : Prog Unit := do
  let (currentBaseBranch, _) ←
    liftExcept (determineBranches currentBranch localBranches configuration)
  if currentBaseBranch.exists localBranches then
    git ["checkout".toList, currentBaseBranch.Name]
  else if (newBranch "main".toList).exists localBranches then
    git ["checkout".toList, "main".toList]
  else
    git ["checkout".toList, "master".toList]

/-- The function `clean`. -/
def clean (configuration : Configuration) : Prog Unit := do
  git ["fetch".toList, configuration.RemoteName]
  let currentBranch ← gitCurrentBranch
  let localBranches ← gitBranches
  let orphan ← currentBranch.isOrphanWipBranch configuration
  (if orphan then cleanCheckout configuration currentBranch localBranches else pure ())
  cleanLoop configuration localBranches

/-- The function `reset`. -/
def reset (configuration : Configuration) : Prog Unit := do
  git ["fetch".toList, configuration.RemoteName]
  let currentBranch ← gitCurrentBranch
  let localBranches ← gitBranches
  let (currentBaseBranch, currentWipBranch) ←
    liftExcept (determineBranches currentBranch localBranches configuration)
  git ["checkout".toList, currentBaseBranch.Name]
  let isLocal ← hasLocalBranch currentWipBranch.Name
  (if isLocal then
    git ["branch".toList, "--delete".toList, "--force".toList, currentWipBranch.Name]
  else pure ())
  let isRemote ← currentWipBranch.hasRemoteBranch configuration
  (if isRemote then
    gitWithoutEmptyStrings ["push".toList, configuration.gitHooksOption,
      configuration.RemoteName, "--delete".toList, currentWipBranch.Name]
  else pure ())

/-- The function `startJoinMobSession`. -/
def startJoinMobSession (configuration : Configuration) : Prog Unit := do
  let currentBranch ← gitCurrentBranch
  let localBranches ← gitBranches
  let (_, currentWipBranch) ←
    liftExcept (determineBranches currentBranch localBranches configuration)
  git ["checkout".toList, "-B".toList, currentWipBranch.Name,
    (currentWipBranch.remote configuration).Name]
  git ["branch".toList,
    "--set-upstream-to=".toList ++ (currentWipBranch.remote configuration).Name,
    currentWipBranch.Name]

/-- The function `startNewMobSession`. -/
def startNewMobSession (configuration : Configuration) : Prog Unit := do
  let currentBranch ← gitCurrentBranch
  let localBranches ← gitBranches
  let (currentBaseBranch, currentWipBranch) ←
    liftExcept (determineBranches currentBranch localBranches configuration)
  git ["checkout".toList, "-B".toList, currentWipBranch.Name,
    (currentBaseBranch.remote configuration).Name]
  gitWithoutEmptyStrings ["push".toList, configuration.gitHooksOption,
    "--set-upstream".toList, configuration.RemoteName, currentWipBranch.Name]

/-- The arguments of the query of the tree of the working directory in
`start`. -/
def lsTreeQuery : Cmd :=
  ["ls-tree".toList, "-r".toList, "HEAD".toList, "--full-name".toList, "--name-only".toList,
    ".".toList]

/-- The condition `uncommittedChanges && silentgit("ls-tree", ...) == ""` of
`start`; the tree is listed only when there are uncommitted changes. -/
def uncommittedSubdir (uncommittedChanges : Bool) : Prog Bool :=
  if uncommittedChanges then do
    let tree ← silentgit lsTreeQuery
    pure (decide (tree = []))
  else
    pure false

/-- The part of `start` after its four precondition checks: stash, fast
forward, join or create the session, pop the stash, show the commits. -/
def startSession (ext : External) (configuration : Configuration) (uncommittedChanges : Bool)
    (currentBaseBranch currentWipBranch : Branch) : Prog (Option Str) := do
  (if uncommittedChanges then
    git ["stash".toList, "push".toList, "--include-untracked".toList, "--message".toList,
      configuration.StashName]
  else pure ())
  let mob ← isMobProgramming configuration
  (if !mob then git ["merge".toList, "FETCH_HEAD".toList, "--ff-only".toList] else pure ())
  let isRemote ← currentWipBranch.hasRemoteBranch configuration
  (if isRemote then
    startJoinMobSession configuration
  else do
    warnForActiveWipBranches configuration currentBaseBranch
    startNewMobSession configuration)
  (if uncommittedChanges && configuration.StartIncludeUncommittedChanges then do
    let stashes ← silentgit ["stash".toList, "list".toList]
    let stash ← liftExcept (findStashByName stashes configuration.StashName)
    git ["stash".toList, "pop".toList, stash]
  else pure ())
  sayLastCommitsList currentBaseBranch.Name currentWipBranch.Name
  ext.openLastModifiedFileIfPresent configuration
  pure none

/-- The part of `start` after the check of the working tree: fetch, resolve
the branches, check the remote base branch, its unpushed commits and the
working directory, then start the session. -/
def startFetched (ext : External) (configuration : Configuration) (uncommittedChanges : Bool) :
    Prog (Option Str) := do
  git ["fetch".toList, configuration.RemoteName, "--prune".toList]
  let currentBranch ← gitCurrentBranch
  let localBranches ← gitBranches
  let (currentBaseBranch, currentWipBranch) ←
    liftExcept (determineBranches currentBranch localBranches configuration)
  let baseIsRemote ← currentBaseBranch.hasRemoteBranch configuration
  if !baseIsRemote then
    pure (some "remote branch is missing".toList)
  else do
    let unpushed ← currentBaseBranch.hasUnpushedCommits configuration
    if unpushed then
      pure (some
        "cannot start; unpushed changes on base branch must be pushed upstream".toList)
    else do
      let subdir ← uncommittedSubdir uncommittedChanges
      if subdir then
        pure (some "cannot start; current working dir is an uncommitted subdir".toList)
      else
        startSession ext configuration uncommittedChanges currentBaseBranch currentWipBranch

/-- The function `start`; the result is the error it returns, `none` for
`nil`. -/
def start (ext : External) (configuration : Configuration) : Prog (Option Str) := do
  let uncommittedChanges ← hasUncommittedChanges
  if uncommittedChanges && !configuration.StartIncludeUncommittedChanges then do
    sayUnstagedChangesInfo
    sayUntrackedFilesInfo
    pure (some "cannot start; clean working tree required".toList)
  else
    startFetched ext configuration uncommittedChanges

/-- The function `showNext`: its queries; who is next is console output. -/
def showNext (configuration : Configuration) : Prog Unit := do
  let gitUserName ← gitUserName
  if gitUserName = [] then
    pure ()
  else do
    let currentBranch ← gitCurrentBranch
    let localBranches ← gitBranches
    let (currentBaseBranch, currentWipBranch) ←
      liftExcept (determineBranches currentBranch localBranches configuration)
    let _ ← silentgit ["--no-pager".toList, "log".toList,
      currentBaseBranch.Name ++ "..".toList ++ currentWipBranch.Name,
      "--pretty=format:%an".toList, "--abbrev-commit".toList]
    pure ()

/-- The condition `!configuration.hasCustomCommitMessage() &&
configuration.RequireCommitMessage && hasUncommittedChanges()` of `next`; the
status is read only when the first two operands hold. -/
def commitMessageRequired (ext : External) (configuration : Configuration) : Prog Bool :=
  if !ext.hasCustomCommitMessage configuration && configuration.RequireCommitMessage then
    hasUncommittedChanges
  else
    pure false

/-- The `if isNothingToCommit()` statement of `next`: push the local commits,
or commit and push. -/
def nextCommitAndPush (ext : External) (configuration : Configuration)
    (currentWipBranch : Branch) : Prog Unit := do
  let nothing ← isNothingToCommit
  if nothing then do
    let localCommits ← currentWipBranch.hasLocalCommits configuration
    if localCommits then
      gitWithoutEmptyStrings ["push".toList, configuration.gitHooksOption,
        configuration.RemoteName, currentWipBranch.Name]
    else pure ()
  else do
    makeWipCommit ext configuration
    gitWithoutEmptyStrings ["push".toList, configuration.gitHooksOption,
      configuration.RemoteName, currentWipBranch.Name]

/-- The part of `next` after its two early returns. -/
def nextInSession (ext : External) (configuration : Configuration) : Prog Unit := do
  let currentBranch ← gitCurrentBranch
  let localBranches ← gitBranches
  let (currentBaseBranch, currentWipBranch) ←
    liftExcept (determineBranches currentBranch localBranches configuration)
  nextCommitAndPush ext configuration currentWipBranch
  showNext configuration
  if !configuration.NextStay then
    git ["checkout".toList, currentBaseBranch.Name]
  else pure ()

/-- The function `next`. -/
def next (ext : External) (configuration : Configuration) : Prog Unit := do
  let mob ← isMobProgramming configuration
  if !mob then
    pure ()
  else do
    let required ← commitMessageRequired ext configuration
    if required then
      pure ()
    else
      nextInSession ext configuration

/-- The part of `done` after a successful merge: delete the local wip branch,
undo the last commit when there were uncommitted changes and the mode is not
`squash`, delete the remote wip branch, then show what is staged. -/
def doneMerged (ext : External) (configuration : Configuration) (uncommittedChanges : Bool)
    (wipBranch : Branch) : Prog Unit := do
  git ["branch".toList, "-D".toList, wipBranch.Name]
  (if uncommittedChanges && decide (configuration.DoneSquash ≠ Squash) then
    git ["reset".toList, "--soft".toList, "HEAD^".toList]
  else pure ())
  gitWithoutEmptyStrings ["push".toList, configuration.gitHooksOption,
    configuration.RemoteName, "--delete".toList, wipBranch.Name]
  let _ ← getCachedChanges
  let dir ← gitDir
  ext.appendCoauthorsToSquashMsg dir
  let _ ← hasUncommittedChanges
  pure ()

/-- The branch of `done` for a wip branch that has a remote counterpart:
commit, push, check out the base branch, fast forward it and merge the wip
branch. -/
def doneMerge (ext : External) (configuration : Configuration)
    (baseBranch wipBranch : Branch) : Prog Unit := do
  let uncommittedChanges ← hasUncommittedChanges
  (if uncommittedChanges then makeWipCommit ext configuration else pure ())
  gitWithoutEmptyStrings ["push".toList, configuration.gitHooksOption,
    configuration.RemoteName, wipBranch.Name]
  git ["checkout".toList, baseBranch.Name]
  git ["merge".toList, (baseBranch.remote configuration).Name, "--ff-only".toList]
  let mergeFailed ← gitignorefailure ["merge".toList, squashOrNoCommit configuration,
    "--ff".toList, wipBranch.Name]
  if mergeFailed then
    pure ()
  else
    doneMerged ext configuration uncommittedChanges wipBranch

/-- The part of `done` after the optional `squashWip`: fetch, resolve the
branches, then merge, or leave a session that someone else has ended. -/
def doneFetched (ext : External) (configuration : Configuration) : Prog Unit := do
  git ["fetch".toList, configuration.RemoteName, "--prune".toList]
  let currentBranch ← gitCurrentBranch
  let localBranches ← gitBranches
  let (baseBranch, wipBranch) ←
    liftExcept (determineBranches currentBranch localBranches configuration)
  let isRemote ← wipBranch.hasRemoteBranch configuration
  if isRemote then
    doneMerge ext configuration baseBranch wipBranch
  else do
    git ["checkout".toList, baseBranch.Name]
    git ["branch".toList, "-D".toList, wipBranch.Name]

/-- The statement `if configuration.DoneSquash == SquashWip { squashWip(configuration) }`
of `done`. -/
def squashStep (ext : External) (configuration : Configuration) : Prog Unit :=
  if configuration.DoneSquash = SquashWip then ext.squashWip configuration else pure ()

/-- The function `done`. -/
def done (ext : External) (configuration : Configuration) : Prog Unit := do
  let mob ← isMobProgramming configuration
  if !mob then
    pure ()
  else do
    squashStep ext configuration
    doneFetched ext configuration

/-- The function `branch` of branch.go: the two listings of the remote wip
branches; printing them is console output. -/
def branch (configuration : Configuration) : Prog Unit := do
  let _ ← silentgit ["branch".toList, "--list".toList, "--remote".toList,
    (((newBranch "*".toList).addWipPrefix configuration).remote configuration).Name]
  let _ ← silentgit ["branch".toList, "--list".toList, "--remote".toList,
    ((newBranch "mob-session".toList).remote configuration).Name]
  pure ()

/-- The function `showActiveMobSessions`: the query, the rest is console
output. -/
def showActiveMobSessions (configuration : Configuration) (currentBaseBranch : Branch) :
    Prog Unit := do
  let _ ← getWipBranchesForBaseBranch currentBaseBranch configuration
  pure ()

/-- The function `status` of mob.go. -/
def status (configuration : Configuration) : Prog Unit := do
  let mob ← isMobProgramming configuration
  if mob then do
    let currentBranch ← gitCurrentBranch
    let localBranches ← gitBranches
    let (currentBaseBranch, currentWipBranch) ←
      liftExcept (determineBranches currentBranch localBranches configuration)
    sayLastCommitsList currentBaseBranch.Name currentWipBranch.Name
  else do
    let currentBranch ← gitCurrentBranch
    let localBranches ← gitBranches
    let (currentBaseBranch, _) ←
      liftExcept (determineBranches currentBranch localBranches configuration)
    showActiveMobSessions configuration currentBaseBranch

/-- The function `execute`: the commands whose code is in the modelled files;
the others are outside the model. -/
def execute (ext : External) (command : Str) (parameter : List Str)
    (configuration : Configuration) : Prog Unit :=
  if command = "s".toList ∨ command = "start".toList then do
    let err ← start ext configuration
    let mob ← isMobProgramming configuration
    if !mob || err.isSome then
      pure ()
    else
      match parameter with
      | timer :: _ => ext.startTimer timer configuration
      | [] =>
        if configuration.Timer ≠ [] then ext.startTimer configuration.Timer configuration
        else pure ()
  else if command = "b".toList ∨ command = "branch".toList then
    branch configuration
  else if command = "n".toList ∨ command = "next".toList then
    next ext configuration
  else if command = "d".toList ∨ command = "done".toList then
    done ext configuration
  else if command = "fetch".toList then
    fetch configuration
  else if command = "reset".toList then
    reset configuration
  else if command = "clean".toList then
    clean configuration
  else if command = "status".toList then
    status configuration
  else
    ext.otherCommand command parameter configuration

/-! ## Assumptions on the repository -/

/-- Every repository command succeeds. -/
def Repo.Succeeds (repo : Repo) : Prop := ∀ t args, (repo t args).failed = false

/-- Whenever asked, the repository gives `c` as the current branch. -/
def Repo.OnBranch (repo : Repo) (c : Branch) : Prop :=
  ∀ t, gitCurrentBranch repo t = (t ++ [currentBranchQuery], .ok c)

/-- Whenever asked, the repository gives `L` as the list of local branches. -/
def Repo.LocalBranches (repo : Repo) (L : List Str) : Prop :=
  ∀ t, gitBranches repo t = (t ++ [branchesQuery], .ok L)

/-- Whenever asked, the repository gives `R` as the list of remote branches:
the remote branch snapshot. -/
def Repo.RemoteBranches (repo : Repo) (R : List Str) : Prop :=
  ∀ t, gitRemoteBranches repo t = (t ++ [remoteBranchesQuery], .ok R)

/-- Whenever asked, the working tree has uncommitted changes (`u` true) or
has none (`u` false). -/
def Repo.Uncommitted (repo : Repo) (u : Bool) : Prop :=
  ∀ t, hasUncommittedChanges repo t = (t ++ [statusQuery], .ok u)

/-- The value of `isOrphanWipBranch` when the remote branches read are `R`. -/
def Branch.isOrphanAgainst (branch : Branch) (configuration : Configuration)
    (R : List Str) : Bool :=
  branch.IsWipBranch configuration && !inList R (branch.remote configuration).Name

/-- Whether a command deletes a local branch: `branch` with `-d`, `-D` or
`--delete` as its first option. -/
def isBranchDelete (args : Cmd) : Bool :=
  decide (args.head? = some "branch".toList) &&
    (decide (args.tail.head? = some "-d".toList) ||
      decide (args.tail.head? = some "-D".toList) ||
      decide (args.tail.head? = some "--delete".toList))

/-- Whether the first argument of a command is one of the given words. -/
def headIn (words : List Str) (args : Cmd) : Bool :=
  match args.head? with
  | some h => decide (h ∈ words)
  | none => false

/-- Whether a command changes the work of the session: a checkout, stash,
merge, commit, push or reset, or the deletion of a local branch. -/
def isMutating (args : Cmd) : Bool :=
  headIn ["checkout".toList, "stash".toList, "merge".toList, "commit".toList, "push".toList,
    "reset".toList] args || isBranchDelete args

/-- Whether a command is the merge of the wip branch of `done`: `merge` with
`--ff` as its third argument. -/
def isWipMerge (args : Cmd) : Bool :=
  decide (args.head? = some "merge".toList) && decide (args.tail.tail.head? = some "--ff".toList)

/-- The program returns normally on the repository, whatever was issued
before, and every command it issues satisfies `S`. -/
def Runs {α : Type} (repo : Repo) (S : Cmd → Prop) (m : Prog α) : Prop :=
  ∀ t, ∃ new a, m repo t = (t ++ new, .ok a) ∧ ∀ x ∈ new, S x

/-- The first words of the commands of `makeWipCommit`. -/
def wipCommitWords : List Str :=
  ["add".toList, "status".toList, "rev-parse".toList, "commit".toList, "diff".toList]

/-- The merge of the wip branch in `done`. -/
def wipMergeCommand (configuration : Configuration) (wipBranch : Branch) : Cmd :=
  ["merge".toList, squashOrNoCommit configuration, "--ff".toList, wipBranch.Name]

/-- The command of `done` that deletes the wip branch on the remote. -/
def remoteDeleteCommand (configuration : Configuration) (wipBranch : Branch) : Cmd :=
  deleteEmptyStrings ["push".toList, configuration.gitHooksOption, configuration.RemoteName,
    "--delete".toList, wipBranch.Name]

/-- Whether a command is one of the cleanup steps of `done`: the deletion of a
local branch, a reset, or the deletion of the wip branch on the remote. -/
def isDoneCleanup (configuration : Configuration) (wipBranch : Branch) (args : Cmd) : Bool :=
  isBranchDelete args || headIn ["reset".toList] args ||
    decide (args = remoteDeleteCommand configuration wipBranch)

/-! ## Qualifier stripping in the words of the specification -/

/-- The cuts of `b` taken just before an occurrence of the character `s`, in
the words of the specification: the prefixes `b[:i]` with `b[i] = s`. -/
def cutsBefore (b : Str) (s : Char) : List Str :=
  ((List.range b.length).filter (fun i => decide (b[i]? = some s))).map (fun i => b.take i)

/-- The strings the specification lets qualifier stripping choose from: `b`
itself and the cuts of `b` before an occurrence of `s`. -/
def strippingCandidates (b : Str) (s : Char) : List Str := b :: cutsBefore b s

/-- The part of `b` before the first occurrence of `s`, in the words of the
specification; `b` itself when `s` does not occur. -/
def beforeFirstSeparator (b : Str) (s : Char) : Str := b.takeWhile (fun c => decide (c ≠ s))

/-! ## Concrete configurations -/

/-- The configuration of the scenarios of the specification: remote `origin`,
prefix `mob/`, separator `-`, no qualifier and no fixed base branch. -/
def scenarioConfiguration : Configuration :=
  { RemoteName := "origin".toList, WipBranchPrefix := "mob/".toList, WipBranchQualifier := [],
    WipBranchQualifierSeparator := "-".toList, FixedBaseBranch := [],
    RequireCommitMessage := false, NextStay := true, DoneSquash := "squash".toList,
    StartIncludeUncommittedChanges := false, GitHooksEnabled := false,
    StashName := "mob-stash-name".toList, WipCommitMessage := "mob next [ci-skip]".toList,
    Timer := [] }

/-! ## Concrete repositories -/

/-- A repository whose replies do not depend on the invocations made before. -/
def constRepo (answers : Cmd → Str) (fails : Cmd → Bool) : Repo :=
  fun _ args => ⟨answers args, fails args⟩

/-- The answers of a repository with the given current branch, lists of local
and remote branches (one a line) and short status; the count of unpushed
commits is `0`, every other query answers with the empty output. -/
def snapshotAnswers (current locals remotes status : Str) : Cmd → Str := fun args =>
  if args = currentBranchQuery then current
  else if args = branchesQuery then locals
  else if args = remoteBranchesQuery then remotes
  else if args = statusQuery then status
  else if args.head? = some "rev-list".toList then "0".toList
  else []

/-- External parts that do nothing. -/
def idleExternal : External :=
  { hasCustomCommitMessage := fun _ => false
    squashWip := fun _ => pure ()
    appendCoauthorsToSquashMsg := fun _ => pure ()
    openLastModifiedFileIfPresent := fun _ => pure ()
    lastModifiedAmong := fun _ _ => []
    startTimer := fun _ _ => pure ()
    otherCommand := fun _ _ _ => pure () }

/-- The repository of scenario E: on `main`, with the local branches `main`,
`mob/main-alice` and `mob/main-bob`, of which `main` and `mob/main-alice` have
a remote counterpart; every command succeeds. -/
def scenarioERepo : Repo :=
  constRepo
    (snapshotAnswers "main".toList "main\nmob/main-alice\nmob/main-bob".toList
      "origin/main\norigin/mob/main-alice".toList [])
    (fun _ => false)

/-- A repository in an active session: on the wip branch `mob/main`, with the
local branches `main` and `mob/main`, both with a remote counterpart, and the
given short status; `fails` tells which commands fail. -/
def sessionRepo (status : Str) (fails : Cmd → Bool) : Repo :=
  constRepo
    (snapshotAnswers "mob/main".toList "main\nmob/main".toList
      "origin/main\norigin/mob/main".toList status)
    fails

/-- A repository on the base branch `main`, the only local and remote branch,
with the given short status; every command succeeds. -/
def baseRepo (status : Str) : Repo :=
  constRepo (snapshotAnswers "main".toList "main".toList "origin/main".toList status)
    (fun _ => false)

/-- The answers of a repository in an active session on `mob/main` whose local
wip branch is behind its remote counterpart: the two refs differ, and no
commit of the local branch is missing from the remote one. -/
def behindAnswers : Cmd → Str := fun args =>
  if args = localRefQuery ⟨"mob/main".toList⟩ then "1111111".toList
  else if args = remoteRefQuery ⟨"mob/main".toList⟩ scenarioConfiguration then
    "2222222".toList
  else
    snapshotAnswers "mob/main".toList "main\nmob/main".toList
      "origin/main\norigin/mob/main".toList [] args

/-- A repository in an active session with a clean working tree whose local
wip branch is behind its remote counterpart; a push is rejected. -/
def behindRepo : Repo :=
  constRepo behindAnswers (fun args => decide (args.head? = some "push".toList))

/-- A repository in an active session on `mob/main`, every command
succeeding, whose short status follows the commands issued so far: `initial`
before any commit, clean after a commit, and `merged` once the wip branch has
been merged into the base branch. -/
def followingRepo (initial merged : Str) : Repo := fun t args =>
  if args = statusQuery then
    ⟨if t.any isWipMerge then merged
      else if t.any (headIn ["commit".toList]) then [] else initial, false⟩
  else sessionRepo [] (fun _ => false) t args

/-! ## Lemmas

### Searching -/

theorem stringContains_iff (l : List Str) (e : Str) : stringContains l e = true ↔ e ∈ l := by
  unfold stringContains
  have h : ∀ (l : List Str) (b : Bool),
      l.foldl (fun found x => if x = e then true else found) b = true ↔ (b = true ∨ e ∈ l) := by
    intro l
    induction l with
    | nil => intro b; simp
    | cons x t ih =>
      intro b
      rw [List.foldl_cons, ih]
      by_cases hx : x = e
      · simp [hx]
      · have hx2 : ¬ e = x := fun h => hx h.symm
        simp [hx, hx2]
  simpa using h l false

theorem index_ge (s sub : Str) : -1 ≤ index s sub := by
  induction s with
  | nil => unfold index; split <;> omega
  | cons c t ih => unfold index; simp only; split <;> [omega; (split <;> omega)]

theorem index_eq_zero_iff (s sub : Str) : index s sub = 0 ↔ sub <+: s := by
  cases s with
  | nil =>
    unfold index
    by_cases h : sub.isPrefixOf [] = true
    · simp only [h, if_true, true_iff]; exact List.isPrefixOf_iff_prefix.mp h
    · simp only [h]; constructor
      · intro h0; simp at h0
      · intro hp; exact absurd (List.isPrefixOf_iff_prefix.mpr hp) h
  | cons c t =>
    unfold index
    by_cases h : sub.isPrefixOf (c :: t) = true
    · simp only [h, if_true, true_iff]; exact List.isPrefixOf_iff_prefix.mp h
    · simp only [h]; constructor
      · intro h0
        have := index_ge t sub
        simp only [Bool.false_eq_true, if_false] at h0
        split at h0 <;> omega
      · intro hp; exact absurd (List.isPrefixOf_iff_prefix.mpr hp) h

theorem index_nonneg_iff (s sub : Str) : 0 ≤ index s sub ↔ sub <:+: s := by
  induction s with
  | nil =>
    unfold index
    by_cases h : sub.isPrefixOf [] = true
    · simp only [h, if_true]
      have := List.isPrefixOf_iff_prefix.mp h
      simp [this.isInfix]
    · simp only [h]
      constructor
      · intro h0; simp at h0
      · intro hi
        have : sub = [] := List.eq_nil_of_infix_nil hi
        subst this; simp at h
  | cons c t ih =>
    unfold index
    rw [List.infix_cons_iff]
    by_cases h : sub.isPrefixOf (c :: t) = true
    · simp only [h, if_true]
      simp [List.isPrefixOf_iff_prefix.mp h]
    · have hn : ¬ sub <+: c :: t := fun hp => h (List.isPrefixOf_iff_prefix.mpr hp)
      simp only [h, hn, false_or]
      rw [← ih]
      simp only [Bool.false_eq_true, if_false]
      constructor
      · intro h0; split at h0 <;> omega
      · intro h0; split <;> omega

theorem lastIndex_le (s sub : Str) : lastIndex s sub ≤ (s.length : Int) := by
  induction s with
  | nil => unfold lastIndex; split <;> simp
  | cons c t ih =>
    unfold lastIndex
    simp only [List.length_cons, Nat.cast_add, Nat.cast_one]
    split
    · omega
    · split <;> omega

theorem lastIndex_nonneg_iff (s sub : Str) : 0 ≤ lastIndex s sub ↔ sub <:+: s := by
  induction s with
  | nil =>
    unfold lastIndex
    by_cases h : sub.isPrefixOf [] = true
    · simp only [h, if_true]
      have := List.isPrefixOf_iff_prefix.mp h
      simp [this.isInfix]
    · simp only [h]
      constructor
      · intro h0; simp at h0
      · intro hi
        have : sub = [] := List.eq_nil_of_infix_nil hi
        subst this; simp at h
  | cons c t ih =>
    unfold lastIndex
    rw [List.infix_cons_iff]
    simp only
    by_cases h0 : 0 ≤ lastIndex t sub
    · simp only [h0, if_true]
      have := ih.mp h0
      constructor
      · intro _; exact Or.inr this
      · intro _; omega
    · have hn : ¬ sub <:+: t := fun hi => h0 (ih.mpr hi)
      simp only [h0, if_false, hn, or_false]
      by_cases h : sub.isPrefixOf (c :: t) = true
      · simp [h, List.isPrefixOf_iff_prefix.mp h]
      · have hn : ¬ sub <+: c :: t := fun hp => h (List.isPrefixOf_iff_prefix.mpr hp)
        simp [h, hn]

/-! ### Trimming -/

theorem rdropWhile_append_of_ne_nil (f : Char → Bool) (a b : Str)
    (h : b.rdropWhile f ≠ []) : (a ++ b).rdropWhile f = a ++ b.rdropWhile f := by
  induction b using List.reverseRecOn with
  | nil => simp at h
  | append_singleton b x ih =>
    rw [← List.append_assoc, List.rdropWhile_concat, List.rdropWhile_concat]
    by_cases hx : f x = true
    · rw [List.rdropWhile_concat, if_pos hx] at h
      simp only [hx, if_true]
      exact ih h
    · simp [hx]

theorem prefix_rdropWhile_append (f : Char → Bool) (x z : Str)
    (h : x.rdropWhile f = x) : x <+: (x ++ z).rdropWhile f := by
  induction z using List.reverseRecOn with
  | nil => simp [h]
  | append_singleton z c ih =>
    rw [← List.append_assoc, List.rdropWhile_concat]
    by_cases hc : f c = true
    · simpa [hc] using ih
    · simp only [hc]
      rw [List.append_assoc]
      exact List.prefix_append _ _

theorem dropWhile_append_of_ne_nil (f : Char → Bool) (a b : Str)
    (h : a.dropWhile f ≠ []) : (a ++ b).dropWhile f = a.dropWhile f ++ b := by
  rw [List.dropWhile_append]
  have : (a.dropWhile f).isEmpty = false := by
    cases hd : a.dropWhile f with
    | nil => exact absurd hd h
    | cons _ _ => rfl
  simp [this]

theorem dropWhile_rdropWhile_of_fixed (f : Char → Bool) (d : Str) (h : d.dropWhile f = d) :
    (d.rdropWhile f).dropWhile f = d.rdropWhile f := by
  cases d with
  | nil => simp
  | cons x t =>
    have hx : ¬ f x = true := by
      intro hx
      rw [List.dropWhile_cons_of_pos hx] at h
      have := (List.dropWhile_suffix f (l := t)).length_le
      rw [h] at this
      simp at this
    rcases List.prefix_cons_iff.mp ( List.rdropWhile_prefix f (x :: t)) with h0 | ⟨r, hr, _⟩
    · rw [h0]; rfl
    · rw [hr, List.dropWhile_cons_of_neg hx]

theorem trimSpace_sublist (s : Str) : (trimSpace s).Sublist s :=
  ( List.rdropWhile_prefix isSpace _).sublist.trans (List.dropWhile_suffix isSpace).sublist

theorem trimSpace_length_le (s : Str) : (trimSpace s).length ≤ s.length :=
  (trimSpace_sublist s).length_le

theorem trimSpace_nil : trimSpace [] = [] := rfl

theorem trimSpace_eq_self_iff (s : Str) :
    trimSpace s = s ↔ s.dropWhile isSpace = s ∧ s.rdropWhile isSpace = s := by
  constructor
  · intro h
    have h1 := ( List.rdropWhile_prefix isSpace (s.dropWhile isSpace)).length_le
    have h2 : (s.dropWhile isSpace) <:+ s := List.dropWhile_suffix isSpace
    have h3 : s.dropWhile isSpace = s := by
      apply h2.eq_of_length_le
      unfold trimSpace at h
      rw [h] at h1
      exact h1
    refine ⟨h3, ?_⟩
    unfold trimSpace at h
    rw [h3] at h
    exact h
  · rintro ⟨h1, h2⟩
    unfold trimSpace
    rw [h1, h2]

theorem trimSpace_idem (s : Str) : trimSpace (trimSpace s) = trimSpace s := by
  rw [trimSpace_eq_self_iff]
  unfold trimSpace
  exact ⟨dropWhile_rdropWhile_of_fixed isSpace _ (List.dropWhile_idempotent isSpace s),
    List.rdropWhile_idempotent isSpace _⟩

theorem trimSpace_of_noSpace (s : Str) (h : ∀ c ∈ s, isSpace c = false) : trimSpace s = s := by
  rw [trimSpace_eq_self_iff]
  constructor
  · cases s with
    | nil => rfl
    | cons x t =>
      have hx : ¬ isSpace x = true := by simp [h x (List.mem_cons_self x t)]
      exact List.dropWhile_cons_of_neg hx
  · induction s using List.reverseRecOn with
    | nil => rfl
    | append_singleton s x _ =>
      have hx : ¬ isSpace x = true := by simp [h x (by simp)]
      exact List.rdropWhile_concat_neg isSpace s x hx

theorem trimSpace_eq_nil_iff (p : Str) : trimSpace p = [] ↔ ∀ c ∈ p, isSpace c = true := by
  unfold trimSpace
  rw [List.rdropWhile_eq_nil_iff]
  constructor
  · intro h
    have hd : p.dropWhile isSpace = [] := by
      cases hd : p.dropWhile isSpace with
      | nil => rfl
      | cons x t =>
        have hx := h x (by rw [hd]; exact List.mem_cons_self x t)
        have hidem := List.dropWhile_idempotent isSpace p
        rw [hd, List.dropWhile_cons_of_pos hx] at hidem
        have := (List.dropWhile_suffix isSpace (l := t)).length_le
        rw [hidem] at this
        simp at this
    exact List.dropWhile_eq_nil_iff.mp hd
  · intro h
    rw [List.dropWhile_eq_nil_iff.mpr h]
    simp

theorem trimSpace_append_of_trimmed (p t : Str) (hp : trimSpace p = p) (ht : trimSpace t = t) :
    trimSpace (p ++ t) = p ++ t := by
  by_cases hp0 : p = []
  · subst hp0; simpa using ht
  by_cases ht0 : t = []
  · subst ht0; simpa using hp
  rw [trimSpace_eq_self_iff] at hp ht ⊢
  constructor
  · have := dropWhile_append_of_ne_nil isSpace p t (by rw [hp.1]; exact hp0)
    rw [this, hp.1]
  · have := rdropWhile_append_of_ne_nil isSpace p t (by rw [ht.2]; exact ht0)
    rw [this, ht.2]

theorem length_lt_trimSpace_append (p c : Str) (hc : trimSpace c = c) (hp : trimSpace p ≠ []) :
    c.length < (trimSpace (p ++ c)).length := by
  by_cases hc0 : c = []
  · subst hc0
    rw [List.append_nil]
    exact List.length_pos.mpr hp
  have hd : p.dropWhile isSpace ≠ [] := by
    intro h
    apply hp
    unfold trimSpace
    rw [h]; rfl
  rw [trimSpace_eq_self_iff] at hc
  unfold trimSpace
  rw [dropWhile_append_of_ne_nil isSpace p c hd,
    rdropWhile_append_of_ne_nil isSpace _ c (by rw [hc.2]; exact hc0), hc.2, List.length_append]
  have := List.length_pos.mpr hd
  omega

theorem length_le_trimSpace_append (x z : Str) (hx : trimSpace x = x) :
    x.length ≤ (trimSpace (x ++ z)).length := by
  by_cases hx0 : x = []
  · subst hx0; simp
  rw [trimSpace_eq_self_iff] at hx
  unfold trimSpace
  rw [dropWhile_append_of_ne_nil isSpace x z (by rw [hx.1]; exact hx0), hx.1]
  exact (prefix_rdropWhile_append isSpace x z hx.2).length_le

/-! ### The qualifier stripping loop -/

theorem sliceTo_ok (s : Str) (k : Int) (h0 : 0 ≤ k) (h1 : k ≤ (s.length : Int)) :
    sliceTo s k = .ok (s.take k.toNat) := by
  unfold sliceTo
  rw [if_pos ⟨h0, h1⟩]

theorem removeFromSeparator_ok (b : Branch) (sep : Str) (h : contains b.Name sep = true) :
    ∃ after, b.removeFromSeparator sep = .ok after ∧ after.Name.Sublist b.Name := by
  have hin : sep <:+: b.Name := by
    unfold contains at h
    exact (index_nonneg_iff _ _).mp (of_decide_eq_true h)
  have h0 := (lastIndex_nonneg_iff _ _).mpr hin
  have h1 := lastIndex_le b.Name sep
  refine ⟨newBranch (b.Name.take (lastIndex b.Name sep).toNat), ?_, ?_⟩
  · unfold Branch.removeFromSeparator
    rw [sliceTo_ok _ _ h0 h1]; rfl
  · exact (trimSpace_sublist _).trans (List.take_sublist _ _)

theorem removeWipQualifierSuffix_ok (b : Branch) (cfg : Configuration) :
    ∃ after, b.removeWipQualifierSuffix cfg = .ok after ∧ after.Name.Sublist b.Name := by
  unfold Branch.removeWipQualifierSuffix
  by_cases hs : hasSuffix b.Name cfg.wipBranchQualifierSuffix = true
  · rw [if_pos hs]
    have hin : cfg.wipBranchQualifierSuffix <:+: b.Name := by
      unfold hasSuffix at hs
      exact (List.isSuffixOf_iff_suffix.mp hs).isInfix
    have h0 := (lastIndex_nonneg_iff _ _).mpr hin
    have h1 := lastIndex_le b.Name cfg.wipBranchQualifierSuffix
    refine ⟨newBranch (b.Name.take (lastIndex b.Name cfg.wipBranchQualifierSuffix).toNat), ?_, ?_⟩
    · rw [sliceTo_ok _ _ h0 h1]; rfl
    · exact (trimSpace_sublist _).trans (List.take_sublist _ _)
  · rw [if_neg hs]
    exact ⟨b, rfl, List.Sublist.refl _⟩

theorem removeWipQualifierSuffixOrSeparator_ok (b : Branch) (cfg : Configuration)
    (h : b.hasWipBranchQualifierSeparator cfg = true) :
    ∃ after, b.removeWipQualifierSuffixOrSeparator cfg = .ok after ∧
      after.Name.Sublist b.Name := by
  unfold Branch.removeWipQualifierSuffixOrSeparator
  split
  · exact removeFromSeparator_ok b _ h
  · exact removeWipQualifierSuffix_ok b cfg

theorem Branch.ext_name {a b : Branch} (h : a.Name = b.Name) : a = b := by
  cases a; cases b; simp_all

theorem name_ne_nil_of_contains (s sep : Str) (h : contains s sep = true) (hsep : sep ≠ []) :
    s ≠ [] := by
  intro hs
  subst hs
  unfold contains at h
  have := (index_nonneg_iff _ _).mp (of_decide_eq_true h)
  exact hsep (List.eq_nil_of_infix_nil this)

/-- With `len(name) + 2` units of fuel or more the loop of `removeWipQualifier`
finishes without a panic; the result is a subsequence of the name, the loop
body is executed at most `len(name) + 1` times, at most `len(name)` times for a
non-empty separator, and not at all when the separator does not occur. -/
theorem removeWipQualifierLoop_total (L : List Str) (cfg : Configuration) :
    ∀ (fuel : Nat) (b : Branch), b.Name.length + 2 ≤ fuel →
      ∃ r n, removeWipQualifierLoop L cfg fuel b = some (.ok (r, n)) ∧
        r.Name.Sublist b.Name ∧ n ≤ b.Name.length + 1 ∧
        (cfg.WipBranchQualifierSeparator ≠ [] → n ≤ b.Name.length) ∧
        (b.hasWipBranchQualifierSeparator cfg = false → n = 0 ∧ r = b) := by
  intro fuel
  induction fuel with
  | zero => intro b h; omega
  | succ fuel ih =>
    intro b hfuel
    unfold removeWipQualifierLoop
    by_cases hg : (!b.exists L && b.hasWipBranchQualifierSeparator cfg) = true
    · rw [if_pos hg]
      have hsep : b.hasWipBranchQualifierSeparator cfg = true := by
        simp only [Bool.and_eq_true] at hg; exact hg.2
      obtain ⟨after, hafter, hsub⟩ := removeWipQualifierSuffixOrSeparator_ok b cfg hsep
      rw [hafter]
      simp only
      by_cases heq : b = after
      · rw [if_pos heq]
        refine ⟨b, 1, rfl, List.Sublist.refl _, by omega, ?_, ?_⟩
        · intro hne
          have := name_ne_nil_of_contains _ _ hsep hne
          have := List.length_pos.mpr this
          omega
        · intro hf; rw [hf] at hsep; exact absurd hsep (by simp)
      · rw [if_neg heq]
        have hlt : after.Name.length < b.Name.length := by
          rcases Nat.lt_or_ge after.Name.length b.Name.length with h | h
          · exact h
          · exfalso
            apply heq
            apply Branch.ext_name
            exact (hsub.eq_of_length (Nat.le_antisymm hsub.length_le h)).symm
        obtain ⟨r, n, hr, hrsub, hn1, hn2, _⟩ := ih after (by omega)
        rw [hr]
        refine ⟨r, n + 1, rfl, hrsub.trans hsub, by omega, ?_, ?_⟩
        · intro hne; have := hn2 hne; omega
        · intro hf; rw [hf] at hsep; exact absurd hsep (by simp)
    · rw [if_neg hg]
      refine ⟨b, 0, rfl, List.Sublist.refl _, by omega, fun _ => by omega, fun _ => ⟨rfl, rfl⟩⟩

theorem removeWipQualifier_ok (b : Branch) (L : List Str) (cfg : Configuration) :
    ∃ r, b.removeWipQualifier L cfg = .ok r ∧ r.Name.Sublist b.Name := by
  obtain ⟨r, n, hr, hsub, _⟩ := removeWipQualifierLoop_total L cfg (b.Name.length + 2) b (le_refl _)
  refine ⟨r, ?_, hsub⟩
  unfold Branch.removeWipQualifier
  rw [hr]; rfl

/-! ### The resolver -/

/-- The condition of the legacy rule of `determineBranches`, on names. -/
theorem legacy_cond_iff (cur : Branch) (cfg : Configuration) :
    (cur.Is "mob-session".toList ||
        (cur.Is "master".toList && !cfg.customWipBranchQualifierConfigured)) = true ↔
      (cur.Name = "mob-session".toList ∨
        (cur.Name = "master".toList ∧ cfg.customWipBranchQualifierConfigured = false)) := by
  simp [Branch.Is]

theorem determineBranches_of_legacy (cur : Branch) (L : List Str) (cfg : Configuration)
    (h : cur.Name = "mob-session".toList ∨
      (cur.Name = "master".toList ∧ cfg.customWipBranchQualifierConfigured = false)) :
    determineBranches cur L cfg = .ok (⟨"master".toList⟩, ⟨"mob-session".toList⟩) := by
  have hc := (legacy_cond_iff cur cfg).mpr h
  have hm : newBranch "master".toList = ⟨"master".toList⟩ := by decide
  have hs : newBranch "mob-session".toList = ⟨"mob-session".toList⟩ := by decide
  unfold determineBranches
  rw [if_pos hc, hm, hs]
  have hcur : cur = ⟨"master".toList⟩ ∨ cur = ⟨"mob-session".toList⟩ := by
    rcases h with h | ⟨h, _⟩
    · exact Or.inr (Branch.ext_name h)
    · exact Or.inl (Branch.ext_name h)
  have hno : ¬ (cur ≠ (⟨"master".toList⟩ : Branch) ∧ cur ≠ (⟨"mob-session".toList⟩ : Branch) ∧
      (!cfg.customFixedBaseBranchConfigured) = true) := by
    rintro ⟨h1, h2, _⟩
    rcases hcur with h | h
    · exact h1 h
    · exact h2 h
  simp only [pure, Except.pure, bind, Except.bind]
  rw [if_neg hno]

theorem determineBranches_of_general (cur base : Branch) (L : List Str) (cfg : Configuration)
    (hleg : ¬ (cur.Name = "mob-session".toList ∨
      (cur.Name = "master".toList ∧ cfg.customWipBranchQualifierConfigured = false)))
    (hbase : getBaseBranch cur L cfg = .ok base)
    (hon : cur = base ∨ cur = getWipBranch cur cfg ∨ cfg.customFixedBaseBranchConfigured = true) :
    determineBranches cur L cfg = .ok (base, getWipBranch cur cfg) := by
  have hc : ¬ ((cur.Is "mob-session".toList ||
        (cur.Is "master".toList && !cfg.customWipBranchQualifierConfigured)) = true) :=
    fun h => hleg ((legacy_cond_iff cur cfg).mp h)
  unfold determineBranches
  rw [if_neg hc, hbase]
  have hno : ¬ (cur ≠ base ∧ cur ≠ getWipBranch cur cfg ∧
      (!cfg.customFixedBaseBranchConfigured) = true) := by
    rintro ⟨h1, h2, h3⟩
    rcases hon with h | h | h
    · exact h1 h
    · exact h2 h
    · simp [h] at h3
  simp only [pure, Except.pure, bind, Except.bind]
  rw [if_neg hno]

theorem getWipBranch_of_wip (cur : Branch) (cfg : Configuration)
    (h : cur.IsWipBranch cfg = true) : getWipBranch cur cfg = cur := by
  unfold getWipBranch
  rw [if_pos h]

theorem getBaseBranch_ok (cur : Branch) (L : List Str) (cfg : Configuration) :
    ∃ base, getBaseBranch cur L cfg = .ok base := by
  unfold getBaseBranch
  split
  · exact ⟨_, rfl⟩
  · split
    · obtain ⟨r, hr, _⟩ := removeWipQualifier_ok (cur.removeWipPrefix cfg) L cfg
      exact ⟨r, hr⟩
    · exact ⟨_, rfl⟩

theorem getBaseBranch_of_not_wip (cur : Branch) (L : List Str) (cfg : Configuration)
    (hfixed : cfg.customFixedBaseBranchConfigured = false)
    (h : cur.IsWipBranch cfg = false) : getBaseBranch cur L cfg = .ok cur := by
  unfold getBaseBranch
  simp [hfixed, h]

/-- C1: with no fixed base branch configured, `determineBranches` returns
normally for every current branch, local branch list and configuration (the
assertion "neither on base nor on wip branch" does not fire, and no slice is
out of range), and the current branch is the returned base branch or the
returned wip branch. -/
theorem determineBranches_current_is_base_or_wip (cur : Branch) (L : List Str)
    (cfg : Configuration) (hfixed : cfg.customFixedBaseBranchConfigured = false) :
    ∃ base wip, determineBranches cur L cfg = .ok (base, wip) ∧ (cur = base ∨ cur = wip) := by
  by_cases hleg : cur.Name = "mob-session".toList ∨
      (cur.Name = "master".toList ∧ cfg.customWipBranchQualifierConfigured = false)
  · refine ⟨_, _, determineBranches_of_legacy cur L cfg hleg, ?_⟩
    rcases hleg with h | ⟨h, _⟩
    · exact Or.inr (Branch.ext_name h)
    · exact Or.inl (Branch.ext_name h)
  · by_cases hwip : cur.IsWipBranch cfg = true
    · obtain ⟨base, hbase⟩ := getBaseBranch_ok cur L cfg
      have hw := getWipBranch_of_wip cur cfg hwip
      refine ⟨base, getWipBranch cur cfg,
        determineBranches_of_general cur base L cfg hleg hbase (Or.inr (Or.inl hw.symm)),
        Or.inr hw.symm⟩
    · have hwip2 : cur.IsWipBranch cfg = false := by simpa using hwip
      have hbase := getBaseBranch_of_not_wip cur L cfg hfixed hwip2
      exact ⟨cur, getWipBranch cur cfg,
        determineBranches_of_general cur cur L cfg hleg hbase (Or.inl rfl), Or.inl rfl⟩

theorem prefix_of_isWipBranch (cur : Branch) (cfg : Configuration)
    (h : cur.IsWipBranch cfg = true) (hn : cur.Name ≠ "mob-session".toList) :
    cfg.WipBranchPrefix <+: cur.Name := by
  unfold Branch.IsWipBranch at h
  rw [if_neg hn] at h
  exact (index_eq_zero_iff _ _).mp (of_decide_eq_true h)

theorem isWipBranch_intro (cur : Branch) (cfg : Configuration)
    (h : cfg.WipBranchPrefix <+: cur.Name) : cur.IsWipBranch cfg = true := by
  unfold Branch.IsWipBranch
  split
  · rfl
  · exact decide_eq_true ((index_eq_zero_iff _ _).mpr h)

theorem removePrefix_eq_drop (s p : Str) (h : p <+: s) : removePrefix s p = s.drop p.length := by
  unfold removePrefix hasPrefix
  rw [List.isPrefixOf_iff_prefix.mpr h]
  rfl

theorem removePrefix_eq_self (s p : Str) (h : ¬ p <+: s) : removePrefix s p = s := by
  unfold removePrefix hasPrefix
  have : p.isPrefixOf s = false := by
    cases hb : p.isPrefixOf s with
    | false => rfl
    | true => exact absurd (List.isPrefixOf_iff_prefix.mp hb) h
  rw [this]
  rfl

theorem getWipBranch_of_not_wip (cur : Branch) (cfg : Configuration)
    (hwip : cur.IsWipBranch cfg = false)
    (h : ¬ (cfg.customFixedBaseBranchConfigured = true ∧
      cfg.customWipBranchQualifierConfigured = true)) :
    getWipBranch cur cfg = (cur.addWipPrefix cfg).addWipQualifier cfg := by
  unfold getWipBranch
  have h2 : (cfg.customFixedBaseBranchConfigured &&
      cfg.customWipBranchQualifierConfigured) = false := by
    cases h1 : cfg.customFixedBaseBranchConfigured <;>
      cases h2 : cfg.customWipBranchQualifierConfigured <;> simp_all
  simp [hwip, h2]

theorem addWipQualifier_trimmed_length (b : Branch) (cfg : Configuration)
    (hb : trimSpace b.Name = b.Name) :
    trimSpace (b.addWipQualifier cfg).Name = (b.addWipQualifier cfg).Name ∧
      b.Name.length ≤ (b.addWipQualifier cfg).Name.length := by
  unfold Branch.addWipQualifier addSuffix newBranch
  split
  · split
    · exact ⟨trimSpace_idem _, length_le_trimSpace_append _ _ hb⟩
    · exact ⟨trimSpace_idem _, length_le_trimSpace_append _ _ hb⟩
  · exact ⟨hb, le_refl _⟩

theorem addWip_ne_self (cur : Branch) (cfg : Configuration)
    (hp : trimSpace cfg.WipBranchPrefix ≠ []) :
    (cur.addWipPrefix cfg).addWipQualifier cfg ≠ cur := by
  intro heq
  have hx : trimSpace (cur.addWipPrefix cfg).Name = (cur.addWipPrefix cfg).Name :=
    trimSpace_idem _
  obtain ⟨h1, h2⟩ := addWipQualifier_trimmed_length (cur.addWipPrefix cfg) cfg hx
  rw [heq] at h1 h2
  have h3 := length_lt_trimSpace_append cfg.WipBranchPrefix cur.Name h1 hp
  have h4 : (cur.addWipPrefix cfg).Name = trimSpace (cfg.WipBranchPrefix ++ cur.Name) := rfl
  rw [h4] at h2
  omega

theorem removeWipPrefix_length_lt (cur : Branch) (cfg : Configuration)
    (hp : cfg.WipBranchPrefix ≠ []) (h : cfg.WipBranchPrefix <+: cur.Name) :
    (cur.removeWipPrefix cfg).Name.length < cur.Name.length := by
  unfold Branch.removeWipPrefix newBranch
  rw [removePrefix_eq_drop _ _ h]
  have h1 := trimSpace_length_le (List.drop cfg.WipBranchPrefix.length cur.Name)
  have h2 := h.length_le
  have h3 := List.length_pos.mpr hp
  rw [List.length_drop] at h1
  simp only
  omega

theorem trimSpace_ne_nil_ne_nil (p : Str) (h : trimSpace p ≠ []) : p ≠ [] := by
  intro hp; subst hp; exact h rfl

/-- C2 (as amended): with no fixed base branch configured and a wip branch
prefix that is not blank (it has a character that is not white space),
`determineBranches` returns a pair whose base branch differs from its wip
branch, for every current branch and local branch list. -/
theorem determineBranches_base_ne_wip (cur : Branch) (L : List Str) (cfg : Configuration)
    (hfixed : cfg.customFixedBaseBranchConfigured = false)
    (hp : trimSpace cfg.WipBranchPrefix ≠ []) :
    ∃ base wip, determineBranches cur L cfg = .ok (base, wip) ∧ base ≠ wip := by
  by_cases hleg : cur.Name = "mob-session".toList ∨
      (cur.Name = "master".toList ∧ cfg.customWipBranchQualifierConfigured = false)
  · exact ⟨_, _, determineBranches_of_legacy cur L cfg hleg, by decide⟩
  · by_cases hwip : cur.IsWipBranch cfg = true
    · have hw := getWipBranch_of_wip cur cfg hwip
      have hpre := prefix_of_isWipBranch cur cfg hwip (fun h => hleg (Or.inl h))
      obtain ⟨base, hbase, hsub⟩ := removeWipQualifier_ok (cur.removeWipPrefix cfg) L cfg
      have hgb : getBaseBranch cur L cfg = .ok base := by
        unfold getBaseBranch
        simp [hfixed, hwip, hbase]
      refine ⟨base, getWipBranch cur cfg,
        determineBranches_of_general cur base L cfg hleg hgb (Or.inr (Or.inl hw.symm)), ?_⟩
      rw [hw]
      intro heq
      have h1 := hsub.length_le
      have h2 := removeWipPrefix_length_lt cur cfg (trimSpace_ne_nil_ne_nil _ hp) hpre
      rw [heq] at h1
      omega
    · have hwip2 : cur.IsWipBranch cfg = false := by simpa using hwip
      have hbase := getBaseBranch_of_not_wip cur L cfg hfixed hwip2
      refine ⟨cur, getWipBranch cur cfg,
        determineBranches_of_general cur cur L cfg hleg hbase (Or.inl rfl), ?_⟩
      rw [getWipBranch_of_not_wip cur cfg hwip2 (by simp [hfixed])]
      exact fun h => addWip_ne_self cur cfg hp h.symm

/-- C2 (witness): the amended invariant at the configuration of the scenarios
and the current branch `main`. -/
theorem determineBranches_base_ne_wip_witness :
    scenarioConfiguration.customFixedBaseBranchConfigured = false ∧
      trimSpace scenarioConfiguration.WipBranchPrefix ≠ [] ∧
      ∃ base wip, determineBranches ⟨"main".toList⟩ [] scenarioConfiguration = .ok (base, wip) ∧
        base ≠ wip :=
  ⟨by decide, by decide,
    determineBranches_base_ne_wip ⟨"main".toList⟩ [] scenarioConfiguration (by decide) (by decide)⟩

/-- C2 (counterexample): with an empty wip branch prefix and no fixed base
branch, resolving from the branch `main` gives the base `main` and the wip
`main`; so does a prefix made of one space. -/
theorem determineBranches_blank_prefix_base_eq_wip :
    ({ scenarioConfiguration with WipBranchPrefix := [] }).customFixedBaseBranchConfigured = false ∧
    determineBranches ⟨"main".toList⟩ ["main".toList]
        { scenarioConfiguration with WipBranchPrefix := [] } =
      .ok (⟨"main".toList⟩, ⟨"main".toList⟩) ∧
    determineBranches ⟨"main".toList⟩ ["main".toList]
        { scenarioConfiguration with WipBranchPrefix := " ".toList } =
      .ok (⟨"main".toList⟩, ⟨"main".toList⟩) := by
  decide

/-- C1 (witness): the invariant at the configuration of the scenarios, on the
wip branch `mob/main-alice` with the local branches `main` and `mob/main-alice`. -/
theorem determineBranches_current_is_base_or_wip_witness :
    scenarioConfiguration.customFixedBaseBranchConfigured = false ∧
      ∃ base wip,
        determineBranches ⟨"mob/main-alice".toList⟩ ["main".toList, "mob/main-alice".toList]
          scenarioConfiguration = .ok (base, wip) ∧
        ((⟨"mob/main-alice".toList⟩ : Branch) = base ∨ (⟨"mob/main-alice".toList⟩ : Branch) = wip) :=
  ⟨by decide,
    determineBranches_current_is_base_or_wip ⟨"mob/main-alice".toList⟩
      ["main".toList, "mob/main-alice".toList] scenarioConfiguration (by decide)⟩

/-- C3: the legacy fallback. Whenever the current branch is named
`mob-session`, and whenever it is named `master` and no custom qualifier is
configured, `determineBranches` returns exactly the pair
(`master`, `mob-session`), for every local branch list and whatever the
prefix, separator and fixed base branch of the configuration are. -/
theorem determineBranches_legacy_pair (cur : Branch) (L : List Str) (cfg : Configuration)
    (h : cur.Name = "mob-session".toList ∨
      (cur.Name = "master".toList ∧ cfg.customWipBranchQualifierConfigured = false)) :
    determineBranches cur L cfg = .ok (⟨"master".toList⟩, ⟨"mob-session".toList⟩) :=
  determineBranches_of_legacy cur L cfg h

/-- C3 (witness): scenario C, the current branch `master` without a qualifier,
here with a fixed base branch `develop` and the prefix `wip/`. -/
theorem determineBranches_legacy_pair_witness :
    (("master".toList = "mob-session".toList) ∨
      ("master".toList = "master".toList ∧
        ({ scenarioConfiguration with
            WipBranchPrefix := "wip/".toList,
            FixedBaseBranch := "develop".toList }).customWipBranchQualifierConfigured = false)) ∧
    determineBranches ⟨"master".toList⟩ ["develop".toList]
        { scenarioConfiguration with
            WipBranchPrefix := "wip/".toList, FixedBaseBranch := "develop".toList } =
      .ok (⟨"master".toList⟩, ⟨"mob-session".toList⟩) :=
  ⟨by decide,
    determineBranches_legacy_pair ⟨"master".toList⟩ ["develop".toList]
      { scenarioConfiguration with
          WipBranchPrefix := "wip/".toList, FixedBaseBranch := "develop".toList } (by decide)⟩

theorem noSpace_append (a b : Str) (ha : ∀ c ∈ a, isSpace c = false)
    (hb : ∀ c ∈ b, isSpace c = false) : ∀ c ∈ a ++ b, isSpace c = false := by
  intro c hc
  rcases List.mem_append.mp hc with h | h
  · exact ha c h
  · exact hb c h

/-- C4: starting from a base branch with a qualifier. With no fixed base
branch, a non-empty qualifier `q`, and prefix `p`, separator `s` and `q` free
of white space, for every non-empty current branch name `c` free of white
space that is not a wip branch, `determineBranches` returns the base `c` and
the wip branch `p + c + s + q`, for every local branch list. -/
theorem determineBranches_from_base_with_qualifier (c : Str) (L : List Str)
    (cfg : Configuration)
    (hfixed : cfg.customFixedBaseBranchConfigured = false)
    (hq : cfg.WipBranchQualifier ≠ [])
    (hpS : ∀ x ∈ cfg.WipBranchPrefix, isSpace x = false)
    (hsS : ∀ x ∈ cfg.WipBranchQualifierSeparator, isSpace x = false)
    (hqS : ∀ x ∈ cfg.WipBranchQualifier, isSpace x = false)
    (hc : c ≠ []) (hcS : ∀ x ∈ c, isSpace x = false)
    (hwip : (⟨c⟩ : Branch).IsWipBranch cfg = false) :
    determineBranches ⟨c⟩ L cfg =
      .ok (⟨c⟩, ⟨cfg.WipBranchPrefix ++ c ++ cfg.WipBranchQualifierSeparator ++
        cfg.WipBranchQualifier⟩) := by
  have hqc : cfg.customWipBranchQualifierConfigured = true := by
    unfold Configuration.customWipBranchQualifierConfigured
    simpa using hq
  have hleg : ¬ ((⟨c⟩ : Branch).Name = "mob-session".toList ∨
      ((⟨c⟩ : Branch).Name = "master".toList ∧
        cfg.customWipBranchQualifierConfigured = false)) := by
    rintro (h | ⟨_, h⟩)
    · have : (⟨c⟩ : Branch).IsWipBranch cfg = true := by
        unfold Branch.IsWipBranch
        rw [if_pos h]
      rw [this] at hwip
      exact absurd hwip (by simp)
    · rw [hqc] at h; exact absurd h (by simp)
  have hbase := getBaseBranch_of_not_wip ⟨c⟩ L cfg hfixed hwip
  have hw : getWipBranch ⟨c⟩ cfg = ⟨cfg.WipBranchPrefix ++ c ++
      cfg.WipBranchQualifierSeparator ++ cfg.WipBranchQualifier⟩ := by
    rw [getWipBranch_of_not_wip ⟨c⟩ cfg hwip (by simp [hfixed])]
    have h1 : (⟨c⟩ : Branch).addWipPrefix cfg = ⟨cfg.WipBranchPrefix ++ c⟩ := by
      unfold Branch.addWipPrefix newBranch
      rw [trimSpace_of_noSpace _ (noSpace_append _ _ hpS hcS)]
    rw [h1]
    unfold Branch.addWipQualifier
    rw [if_pos hqc]
    have hne : ¬ (cfg.WipBranchPrefix ++ c = cfg.WipBranchPrefix) := by
      intro h
      exact hc (List.append_right_eq_self.mp h)
    simp only
    rw [if_neg hne]
    unfold addSuffix newBranch Configuration.wipBranchQualifierSuffix
    rw [trimSpace_of_noSpace _
      (noSpace_append _ _ (noSpace_append _ _ hpS hcS) (noSpace_append _ _ hsS hqS))]
    simp [List.append_assoc]
  have := determineBranches_of_general ⟨c⟩ ⟨c⟩ L cfg hleg hbase (Or.inl rfl)
  rw [hw] at this
  exact this

/-- C4 (witness): scenario B, prefix `mob/`, qualifier `alice`, separator `-`,
current branch `main`: base `main`, wip `mob/main-alice`. -/
theorem determineBranches_from_base_with_qualifier_witness :
    determineBranches ⟨"main".toList⟩ ["main".toList]
        { scenarioConfiguration with WipBranchQualifier := "alice".toList } =
      .ok (⟨"main".toList⟩, ⟨"mob/main-alice".toList⟩) :=
  determineBranches_from_base_with_qualifier "main".toList ["main".toList]
    { scenarioConfiguration with WipBranchQualifier := "alice".toList }
    (by decide) (by decide) (by decide) (by decide) (by decide) (by decide) (by decide)
    (by decide)

/-- C5: scenario A. With the prefix `mob/`, no qualifier, no fixed base
branch, the separator `-` and the current branch `mob/main`,
`determineBranches` returns the base `main` and the wip branch `mob/main`, for
every local branch list. -/
theorem determineBranches_scenario_A (L : List Str) :
    determineBranches ⟨"mob/main".toList⟩ L scenarioConfiguration =
      .ok (⟨"main".toList⟩, ⟨"mob/main".toList⟩) := by
  have hleg : ¬ ((⟨"mob/main".toList⟩ : Branch).Name = "mob-session".toList ∨
      ((⟨"mob/main".toList⟩ : Branch).Name = "master".toList ∧
        scenarioConfiguration.customWipBranchQualifierConfigured = false)) := by decide
  have hwip : (⟨"mob/main".toList⟩ : Branch).IsWipBranch scenarioConfiguration = true := by
    decide
  have hrp : (⟨"mob/main".toList⟩ : Branch).removeWipPrefix scenarioConfiguration =
      ⟨"main".toList⟩ := by decide
  have hsep : (⟨"main".toList⟩ : Branch).hasWipBranchQualifierSeparator scenarioConfiguration =
      false := by decide
  obtain ⟨r, n, hr, _, _, _, h0⟩ :=
    removeWipQualifierLoop_total L scenarioConfiguration
      ((⟨"main".toList⟩ : Branch).Name.length + 2) ⟨"main".toList⟩ (le_refl _)
  have hrq : (⟨"main".toList⟩ : Branch).removeWipQualifier L scenarioConfiguration =
      .ok ⟨"main".toList⟩ := by
    unfold Branch.removeWipQualifier
    rw [hr, (h0 hsep).2]; rfl
  have hbase : getBaseBranch ⟨"mob/main".toList⟩ L scenarioConfiguration =
      .ok ⟨"main".toList⟩ := by
    unfold getBaseBranch
    have hf : scenarioConfiguration.customFixedBaseBranchConfigured = false := by decide
    simp only [hf, hwip, hrp, hrq]
    simp
  have := determineBranches_of_general ⟨"mob/main".toList⟩ ⟨"main".toList⟩ L
    scenarioConfiguration hleg hbase (Or.inr (Or.inl (getWipBranch_of_wip _ _ hwip).symm))
  rw [getWipBranch_of_wip _ _ hwip] at this
  exact this

/-- C6 (as amended): a configured fixed base branch pins the base for every
current branch that the legacy rule does not resolve. For every configuration
with a non-empty `FixedBaseBranch` `F`, every local branch list and every
current branch that is not named `mob-session` and is not `master` without a
qualifier, `determineBranches` returns normally with the base
`newBranch(F)`, which is `Branch(F)` when `F` has no leading or trailing white
space. -/
theorem determineBranches_fixed_base (cur : Branch) (L : List Str) (cfg : Configuration)
    (hF : cfg.FixedBaseBranch ≠ [])
    (hleg : ¬ (cur.Name = "mob-session".toList ∨
      (cur.Name = "master".toList ∧ cfg.customWipBranchQualifierConfigured = false))) :
    ∃ wip, determineBranches cur L cfg = .ok (newBranch cfg.FixedBaseBranch, wip) ∧
      (trimSpace cfg.FixedBaseBranch = cfg.FixedBaseBranch →
        determineBranches cur L cfg = .ok (⟨cfg.FixedBaseBranch⟩, wip)) := by
  have hfixed : cfg.customFixedBaseBranchConfigured = true := by
    unfold Configuration.customFixedBaseBranchConfigured
    simpa using hF
  have hbase : getBaseBranch cur L cfg = .ok (newBranch cfg.FixedBaseBranch) := by
    unfold getBaseBranch
    rw [if_pos hfixed]
  have h := determineBranches_of_general cur _ L cfg hleg hbase (Or.inr (Or.inr hfixed))
  refine ⟨getWipBranch cur cfg, h, ?_⟩
  intro ht
  rw [h]
  unfold newBranch
  rw [ht]

/-- C6 (witness): fixed base branch `develop`, current branch `feature`. -/
theorem determineBranches_fixed_base_witness :
    ∃ wip, determineBranches ⟨"feature".toList⟩ []
        { scenarioConfiguration with FixedBaseBranch := "develop".toList } =
          .ok (newBranch "develop".toList, wip) ∧
      (trimSpace "develop".toList = "develop".toList →
        determineBranches ⟨"feature".toList⟩ []
          { scenarioConfiguration with FixedBaseBranch := "develop".toList } =
            .ok (⟨"develop".toList⟩, wip)) :=
  determineBranches_fixed_base ⟨"feature".toList⟩ []
    { scenarioConfiguration with FixedBaseBranch := "develop".toList } (by decide) (by decide)

/-- C6 (counterexample): with the fixed base branch `develop` configured, the
current branch `mob-session` resolves to the base `master`, and so does the
current branch `master` (no qualifier): the legacy rule comes first. -/
theorem determineBranches_fixed_base_legacy_first :
    ({ scenarioConfiguration with FixedBaseBranch := "develop".toList }).FixedBaseBranch ≠ [] ∧
    determineBranches ⟨"mob-session".toList⟩ []
        { scenarioConfiguration with FixedBaseBranch := "develop".toList } =
      .ok (⟨"master".toList⟩, ⟨"mob-session".toList⟩) ∧
    determineBranches ⟨"master".toList⟩ []
        { scenarioConfiguration with FixedBaseBranch := "develop".toList } =
      .ok (⟨"master".toList⟩, ⟨"mob-session".toList⟩) ∧
    (⟨"master".toList⟩ : Branch) ≠ ⟨"develop".toList⟩ := by
  decide

theorem prefix_ne_nil_of_not_wip (cur : Branch) (cfg : Configuration)
    (hwip : cur.IsWipBranch cfg = false) : cfg.WipBranchPrefix ≠ [] := by
  intro h
  have : cur.IsWipBranch cfg = true := isWipBranch_intro cur cfg (by rw [h]; exact List.nil_prefix)
  rw [this] at hwip
  exact absurd hwip (by simp)

/-- C7: the root of the wip name. For a current branch that is not a wip
branch: when both a fixed base branch and a custom qualifier `q` are
configured and the prefix `p` has no leading or trailing white space,
`getWipBranch` returns the branch of `p + q`, built by `newBranch` as every
branch is: the raw qualifier appended to the bare prefix without the
separator, the same value for every such current branch, whose name is
`p + q` itself when `q` has no trailing white space; in every other
configuration the result is `addWipQualifier` of `addWipPrefix` of the current
branch. -/
theorem getWipBranch_root (cur : Branch) (cfg : Configuration)
    (hwip : cur.IsWipBranch cfg = false) :
    ((cfg.customFixedBaseBranchConfigured = true ∧
        cfg.customWipBranchQualifierConfigured = true) →
      trimSpace cfg.WipBranchPrefix = cfg.WipBranchPrefix →
        getWipBranch cur cfg = newBranch (cfg.WipBranchPrefix ++ cfg.WipBranchQualifier) ∧
        (cfg.WipBranchQualifier.rdropWhile isSpace = cfg.WipBranchQualifier →
          getWipBranch cur cfg = ⟨cfg.WipBranchPrefix ++ cfg.WipBranchQualifier⟩)) ∧
    (¬ (cfg.customFixedBaseBranchConfigured = true ∧
        cfg.customWipBranchQualifierConfigured = true) →
      getWipBranch cur cfg = (cur.addWipPrefix cfg).addWipQualifier cfg) := by
  refine ⟨?_, getWipBranch_of_not_wip cur cfg hwip⟩
  rintro ⟨hf, hq⟩ hp
  have hmain : getWipBranch cur cfg =
      newBranch (cfg.WipBranchPrefix ++ cfg.WipBranchQualifier) := by
    unfold getWipBranch
    simp only [hwip, hf, hq, Bool.and_self, if_true, Bool.false_eq_true, if_false]
    have h1 : (newBranch []).addWipPrefix cfg = ⟨cfg.WipBranchPrefix⟩ := by
      unfold Branch.addWipPrefix newBranch
      rw [trimSpace_nil, List.append_nil, hp]
    rw [h1]
    unfold Branch.addWipQualifier addSuffix
    simp [hq]
  refine ⟨hmain, ?_⟩
  intro hqt
  rw [hmain]
  unfold newBranch
  have hp0 := prefix_ne_nil_of_not_wip cur cfg hwip
  have hq0 : cfg.WipBranchQualifier ≠ [] := by
    unfold Configuration.customWipBranchQualifierConfigured at hq
    simpa using hq
  have hpt := (trimSpace_eq_self_iff _).mp hp
  congr 1
  unfold trimSpace
  rw [dropWhile_append_of_ne_nil isSpace _ _ (by rw [hpt.1]; exact hp0), hpt.1,
    rdropWhile_append_of_ne_nil isSpace _ _ (by rw [hqt]; exact hq0), hqt]

/-- C7 (witness): prefix `mob/`, qualifier `alice`, fixed base branch
`develop`, current branch `feature`: the wip branch is `mob/alice`. -/
theorem getWipBranch_root_witness :
    getWipBranch ⟨"feature".toList⟩
        { scenarioConfiguration with
            WipBranchQualifier := "alice".toList, FixedBaseBranch := "develop".toList } =
      ⟨"mob/alice".toList⟩ ∧
    getWipBranch ⟨"feature".toList⟩ scenarioConfiguration = ⟨"mob/feature".toList⟩ :=
  ⟨((getWipBranch_root ⟨"feature".toList⟩
      { scenarioConfiguration with
          WipBranchQualifier := "alice".toList, FixedBaseBranch := "develop".toList }
      (by decide)).1 (by decide) (by decide)).2 (by decide),
    (getWipBranch_root ⟨"feature".toList⟩ scenarioConfiguration (by decide)).2 (by decide)⟩

theorem trimSpace_append_of_blank (p t : Str) (hp : trimSpace p = []) :
    trimSpace (p ++ t) = trimSpace t := by
  unfold trimSpace
  have hall : ∀ c ∈ p, isSpace c = true := (trimSpace_eq_nil_iff p).mp hp
  rw [List.dropWhile_append_of_pos hall]

theorem not_prefix_of_blank (p t : Str) (hp : trimSpace p = []) (hp0 : p ≠ [])
    (ht : trimSpace t = t) : ¬ p <+: t := by
  intro hpre
  cases p with
  | nil => exact hp0 rfl
  | cons x p' =>
    have hx : isSpace x = true := (trimSpace_eq_nil_iff _).mp hp x (List.mem_cons_self x p')
    obtain ⟨r, hr⟩ := hpre
    have hd := ((trimSpace_eq_self_iff t).mp ht).1
    rw [← hr, List.cons_append, List.dropWhile_cons_of_pos hx] at hd
    have := (List.dropWhile_suffix isSpace (l := p' ++ r)).length_le
    rw [hd] at this
    simp at this

/-- C8 (as amended): the round trip of the wip prefix. For every branch name
`n` and every configuration, with or without a qualifier, whose wip branch
prefix has no leading or trailing white space or is blank (empty or all white
space), `removeWipPrefix(addWipPrefix(newBranch(n)))` is `newBranch(n)`. -/
theorem removeWipPrefix_addWipPrefix (n : Str) (cfg : Configuration)
    (hp : trimSpace cfg.WipBranchPrefix = cfg.WipBranchPrefix ∨
      trimSpace cfg.WipBranchPrefix = []) :
    ((newBranch n).addWipPrefix cfg).removeWipPrefix cfg = newBranch n := by
  have ht : trimSpace (trimSpace n) = trimSpace n := trimSpace_idem n
  unfold Branch.removeWipPrefix Branch.addWipPrefix
  apply Branch.ext_name
  show trimSpace (removePrefix (trimSpace (cfg.WipBranchPrefix ++ trimSpace n))
    cfg.WipBranchPrefix) = trimSpace n
  rcases hp with hp | hp
  · rw [trimSpace_append_of_trimmed _ _ hp ht,
      removePrefix_eq_drop _ _ (List.prefix_append _ _), List.drop_left, ht]
  · rw [trimSpace_append_of_blank _ _ hp, ht]
    by_cases hp0 : cfg.WipBranchPrefix = []
    · rw [hp0, removePrefix_eq_drop _ _ List.nil_prefix]
      simpa using ht
    · rw [removePrefix_eq_self _ _ (not_prefix_of_blank _ _ hp hp0 ht), ht]

/-- C8 (witness): the round trip of the name `main` surrounded by spaces with
the prefix `mob/`. -/
theorem removeWipPrefix_addWipPrefix_witness :
    ((newBranch " main ".toList).addWipPrefix scenarioConfiguration).removeWipPrefix
        scenarioConfiguration = newBranch " main ".toList :=
  removeWipPrefix_addWipPrefix " main ".toList scenarioConfiguration (Or.inl (by decide))

/-- C8 (counterexample): with a prefix that starts with a space (a space, then
`mob/`) and no qualifier, the round trip of `main` gives `mob/main`; with a
prefix that ends with a space, the round trip of the empty name gives `mob/`. -/
theorem removeWipPrefix_addWipPrefix_untrimmed_prefix :
    ({ scenarioConfiguration with
        WipBranchPrefix := " mob/".toList }).customWipBranchQualifierConfigured = false ∧
    ((newBranch "main".toList).addWipPrefix
        { scenarioConfiguration with WipBranchPrefix := " mob/".toList }).removeWipPrefix
        { scenarioConfiguration with WipBranchPrefix := " mob/".toList } =
      ⟨"mob/main".toList⟩ ∧
    newBranch "main".toList = ⟨"main".toList⟩ ∧
    ((newBranch []).addWipPrefix
        { scenarioConfiguration with WipBranchPrefix := "mob/ ".toList }).removeWipPrefix
        { scenarioConfiguration with WipBranchPrefix := "mob/ ".toList } =
      ⟨"mob/".toList⟩ ∧
    newBranch [] = ⟨[]⟩ := by
  decide

/-- More fuel does not change a result the loop of `removeWipQualifier` has
reached. -/
theorem removeWipQualifierLoop_fuel_mono (L : List Str) (cfg : Configuration) :
    ∀ (fuel : Nat) (b : Branch) (k : Nat) (x : Except Panic (Branch × Nat)),
      removeWipQualifierLoop L cfg fuel b = some x →
      removeWipQualifierLoop L cfg (fuel + k) b = some x := by
  intro fuel
  induction fuel with
  | zero => intro b k x h; simp [removeWipQualifierLoop] at h
  | succ fuel ih =>
    intro b k x h
    rw [Nat.add_right_comm]
    unfold removeWipQualifierLoop at h ⊢
    split
    · rename_i hg
      rw [if_pos hg] at h
      split
      · rename_i e he
        rw [he] at h; exact h
      · rename_i after hafter
        rw [hafter] at h
        simp only at h
        split
        · rename_i heq; rw [if_pos heq] at h; exact h
        · rename_i heq
          rw [if_neg heq] at h
          cases hrec : removeWipQualifierLoop L cfg fuel after with
          | none => rw [hrec] at h; simp at h
          | some y => rw [ih after k y hrec]; rw [hrec] at h; exact h
    · rename_i hg
      rw [if_neg hg] at h; exact h

/-- C9 (as amended): termination of `removeWipQualifier`. For every branch
name, local branch list and configuration (any separator, the empty one
included, with or without a qualifier), the loop run with `len(name) + 2`
units of fuel or more finishes, no slice is out of range, and the loop body is
executed at most `len(name) + 1` times, and at most `len(name)` times when the
separator is not empty; when the separator does not occur in the name the body
is not executed at all and the branch is returned unchanged. -/
theorem removeWipQualifier_terminates (b : Branch) (L : List Str) (cfg : Configuration)
    (extra : Nat) :
    ∃ r n, removeWipQualifierLoop L cfg (b.Name.length + 2 + extra) b = some (.ok (r, n)) ∧
      b.removeWipQualifier L cfg = .ok r ∧
      n ≤ b.Name.length + 1 ∧
      (cfg.WipBranchQualifierSeparator ≠ [] → n ≤ b.Name.length) ∧
      (contains b.Name cfg.WipBranchQualifierSeparator = false → n = 0 ∧ r = b) := by
  obtain ⟨r, n, hr, _, h1, h2, h3⟩ :=
    removeWipQualifierLoop_total L cfg (b.Name.length + 2 + extra) b (by omega)
  obtain ⟨r0, n0, hr0, _, _, _, _⟩ :=
    removeWipQualifierLoop_total L cfg (b.Name.length + 2) b (le_refl _)
  have := removeWipQualifierLoop_fuel_mono L cfg _ b extra _ hr0
  rw [hr] at this
  have hrr : r = r0 := by
    have h4 : (Except.ok (r, n) : Except Panic (Branch × Nat)) = .ok (r0, n0) :=
      Option.some.inj this
    injection h4 with h4
    exact (Prod.mk.inj h4).1
  refine ⟨r, n, hr, ?_, h1, h2, h3⟩
  unfold Branch.removeWipQualifier
  rw [hr0, hrr]; rfl

/-- C9 (witness): a name made of three separators, with no local branch: the
loop body runs three times and the result is the empty name. -/
theorem removeWipQualifier_terminates_witness :
    removeWipQualifierLoop [] scenarioConfiguration 5 ⟨"---".toList⟩ = some (.ok (⟨[]⟩, 3)) ∧
    ∃ r n, removeWipQualifierLoop [] scenarioConfiguration
        ((⟨"---".toList⟩ : Branch).Name.length + 2 + 0) ⟨"---".toList⟩ = some (.ok (r, n)) ∧
      (⟨"---".toList⟩ : Branch).removeWipQualifier [] scenarioConfiguration = .ok r ∧
      n ≤ (⟨"---".toList⟩ : Branch).Name.length + 1 ∧
      (scenarioConfiguration.WipBranchQualifierSeparator ≠ [] →
        n ≤ (⟨"---".toList⟩ : Branch).Name.length) ∧
      (contains (⟨"---".toList⟩ : Branch).Name
          scenarioConfiguration.WipBranchQualifierSeparator = false →
        n = 0 ∧ r = ⟨"---".toList⟩) :=
  ⟨by decide, removeWipQualifier_terminates ⟨"---".toList⟩ [] scenarioConfiguration 0⟩

/-- C9 (counterexample): with the empty separator and the qualifier `q`, the
loop of `removeWipQualifier` on the branch `q` (no local branch) executes its
body twice, more than the length 1 of the name; with the empty separator and
no qualifier, the body is executed once on the empty name. -/
theorem removeWipQualifier_body_runs_exceed_length :
    removeWipQualifierLoop []
        { scenarioConfiguration with
            WipBranchQualifier := "q".toList, WipBranchQualifierSeparator := [] }
        3 ⟨"q".toList⟩ = some (.ok (⟨[]⟩, 2)) ∧
    ¬ (2 ≤ (⟨"q".toList⟩ : Branch).Name.length) ∧
    removeWipQualifierLoop [] { scenarioConfiguration with WipBranchQualifierSeparator := [] }
        2 ⟨[]⟩ = some (.ok (⟨[]⟩, 1)) ∧
    ¬ (1 ≤ (⟨[]⟩ : Branch).Name.length) := by
  decide

/-- C10: idempotence of `getWipBranch`. For every configuration and every
branch that satisfies `IsWipBranch`, `getWipBranch` returns the branch
unchanged; hence applying `getWipBranch` twice is the same as applying it once
whenever the first result satisfies `IsWipBranch`. -/
theorem getWipBranch_idempotent (b : Branch) (cfg : Configuration) :
    (b.IsWipBranch cfg = true → getWipBranch b cfg = b) ∧
    ((getWipBranch b cfg).IsWipBranch cfg = true →
      getWipBranch (getWipBranch b cfg) cfg = getWipBranch b cfg) :=
  ⟨getWipBranch_of_wip b cfg, getWipBranch_of_wip (getWipBranch b cfg) cfg⟩

/-- C10 (witness): the wip branch `mob/main` is returned unchanged, and from
the base branch `main` the second application changes nothing. -/
theorem getWipBranch_idempotent_witness :
    ((⟨"mob/main".toList⟩ : Branch).IsWipBranch scenarioConfiguration = true ∧
      getWipBranch ⟨"mob/main".toList⟩ scenarioConfiguration = ⟨"mob/main".toList⟩) ∧
    ((getWipBranch ⟨"main".toList⟩ scenarioConfiguration).IsWipBranch scenarioConfiguration =
        true ∧
      getWipBranch (getWipBranch ⟨"main".toList⟩ scenarioConfiguration) scenarioConfiguration =
        getWipBranch ⟨"main".toList⟩ scenarioConfiguration) :=
  ⟨⟨by decide,
      (getWipBranch_idempotent ⟨"mob/main".toList⟩ scenarioConfiguration).1 (by decide)⟩,
    ⟨by decide,
      (getWipBranch_idempotent ⟨"main".toList⟩ scenarioConfiguration).2 (by decide)⟩⟩

/-! ### Running programs -/

theorem Prog.pure_run {α : Type} (a : α) (repo : Repo) (t : List Cmd) :
    (Pure.pure a : Prog α) repo t = (t, .ok a) := rfl

theorem Prog.bind_run {α β : Type} (m : Prog α) (f : α → Prog β) (repo : Repo) (t : List Cmd) :
    (m >>= f) repo t =
      match m repo t with
      | (t1, .ok a) => f a repo t1
      | (t1, .exit code) => (t1, .exit code)
      | (t1, .panic p) => (t1, .panic p) := rfl

theorem Prog.bind_ok {α β : Type} {m : Prog α} {f : α → Prog β} {repo : Repo}
    {t t1 : List Cmd} {a : α} (h : m repo t = (t1, .ok a)) :
    (m >>= f) repo t = f a repo t1 := by
  rw [Prog.bind_run, h]

theorem Prog.bind_exit {α β : Type} {m : Prog α} {f : α → Prog β} {repo : Repo}
    {t t1 : List Cmd} {code : Nat} (h : m repo t = (t1, .exit code)) :
    (m >>= f) repo t = (t1, .exit code) := by
  rw [Prog.bind_run, h]

theorem Prog.bind_panic {α β : Type} {m : Prog α} {f : α → Prog β} {repo : Repo}
    {t t1 : List Cmd} {p : Panic} (h : m repo t = (t1, .panic p)) :
    (m >>= f) repo t = (t1, .panic p) := by
  rw [Prog.bind_run, h]

theorem runCommand_run (args : Cmd) (repo : Repo) (t : List Cmd) :
    runCommand args repo t = (t ++ [args], .ok (repo t args)) := rfl

theorem git_ok {args : Cmd} {repo : Repo} {t : List Cmd} (h : (repo t args).failed = false) :
    git args repo t = (t ++ [args], .ok ()) := by
  unfold git
  rw [Prog.bind_ok (runCommand_run args repo t)]
  simp [h]
  rfl

theorem silentgit_ok {args : Cmd} {repo : Repo} {t : List Cmd}
    (h : (repo t args).failed = false) :
    silentgit args repo t = (t ++ [args], .ok (trimSpace (repo t args).output)) := by
  unfold silentgit
  rw [Prog.bind_ok (runCommand_run args repo t)]
  simp [h]
  rfl

theorem gitignorefailure_run (args : Cmd) (repo : Repo) (t : List Cmd) :
    gitignorefailure args repo t = (t ++ [args], .ok (repo t args).failed) := by
  unfold gitignorefailure
  rw [Prog.bind_ok (runCommand_run args repo t)]
  rfl

theorem silentgitignorefailure_run (args : Cmd) (repo : Repo) (t : List Cmd) :
    ∃ out, silentgitignorefailure args repo t = (t ++ [args], .ok out) := by
  unfold silentgitignorefailure
  rw [Prog.bind_ok (runCommand_run args repo t)]
  by_cases h : (repo t args).failed = true
  · exact ⟨[], by simp [h]; rfl⟩
  · exact ⟨trimSpace (repo t args).output, by simp [h]; rfl⟩

theorem liftExcept_ok {α : Type} (a : α) (repo : Repo) (t : List Cmd) :
    liftExcept (.ok a) repo t = (t, .ok a) := rfl

theorem inList_iff (l : List Str) (e : Str) : inList l e = true ↔ e ∈ l := by
  induction l with
  | nil => simp [inList]
  | cons x rest ih =>
    unfold inList
    by_cases hx : x = e
    · simp [hx]
    · have hx2 : ¬ e = x := fun h => hx h.symm
      simp [hx, hx2, ih]

/-- The resolver never panics. -/
theorem determineBranches_ok (cur : Branch) (L : List Str) (cfg : Configuration) :
    ∃ base wip, determineBranches cur L cfg = .ok (base, wip) := by
  by_cases hleg : cur.Name = "mob-session".toList ∨
      (cur.Name = "master".toList ∧ cfg.customWipBranchQualifierConfigured = false)
  · exact ⟨_, _, determineBranches_of_legacy cur L cfg hleg⟩
  · obtain ⟨base, hbase⟩ := getBaseBranch_ok cur L cfg
    by_cases hfixed : cfg.customFixedBaseBranchConfigured = true
    · exact ⟨base, _, determineBranches_of_general cur base L cfg hleg hbase
        (Or.inr (Or.inr hfixed))⟩
    · have hfixed2 : cfg.customFixedBaseBranchConfigured = false := by simpa using hfixed
      by_cases hwip : cur.IsWipBranch cfg = true
      · exact ⟨base, _, determineBranches_of_general cur base L cfg hleg hbase
          (Or.inr (Or.inl (getWipBranch_of_wip cur cfg hwip).symm))⟩
      · have hwip2 : cur.IsWipBranch cfg = false := by simpa using hwip
        have hb := getBaseBranch_of_not_wip cur L cfg hfixed2 hwip2
        exact ⟨cur, _, determineBranches_of_general cur cur L cfg hleg hb (Or.inl rfl)⟩

/-! ### Orphan wip branches -/

theorem isWipBranch_iff (b : Branch) (cfg : Configuration) :
    b.IsWipBranch cfg = true ↔
      (b.Name = "mob-session".toList ∨ cfg.WipBranchPrefix <+: b.Name) := by
  constructor
  · intro h
    by_cases hn : b.Name = "mob-session".toList
    · exact Or.inl hn
    · exact Or.inr (prefix_of_isWipBranch b cfg h hn)
  · rintro (h | h)
    · unfold Branch.IsWipBranch
      rw [if_pos h]
    · exact isWipBranch_intro b cfg h

theorem hasRemoteBranch_of (b : Branch) (cfg : Configuration) (repo : Repo) (t t1 : List Cmd)
    (R : List Str) (hR : gitRemoteBranches repo t = (t1, .ok R)) :
    b.hasRemoteBranch cfg repo t = (t1, .ok (inList R (b.remote cfg).Name)) := by
  unfold Branch.hasRemoteBranch
  rw [Prog.bind_ok hR]
  rfl

theorem isOrphanWipBranch_of (b : Branch) (cfg : Configuration) (repo : Repo)
    (t t1 : List Cmd) (R : List Str) (hR : gitRemoteBranches repo t = (t1, .ok R)) :
    b.isOrphanWipBranch cfg repo t =
      (if b.IsWipBranch cfg = true then t1 else t, .ok (b.isOrphanAgainst cfg R)) := by
  unfold Branch.isOrphanWipBranch Branch.isOrphanAgainst
  by_cases hw : b.IsWipBranch cfg = true
  · simp only [hw, if_true]
    rw [Prog.bind_ok (hasRemoteBranch_of b cfg repo t t1 R hR)]
    rfl
  · simp only [hw]
    rfl

theorem remote_name_literal (b : Branch) (cfg : Configuration)
    (hr : cfg.RemoteName.dropWhile isSpace = cfg.RemoteName)
    (hb : b.Name.rdropWhile isSpace = b.Name) :
    (b.remote cfg).Name = cfg.RemoteName ++ "/".toList ++ b.Name := by
  have hslash : ¬ isSpace '/' = true := by decide
  show trimSpace (cfg.RemoteName ++ "/".toList ++ b.Name) = _
  rw [trimSpace_eq_self_iff]
  constructor
  · by_cases h0 : cfg.RemoteName = []
    · rw [h0]
      exact List.dropWhile_cons_of_neg hslash
    · rw [List.append_assoc, dropWhile_append_of_ne_nil isSpace _ _ (by rw [hr]; exact h0), hr]
  · by_cases h0 : b.Name = []
    · rw [h0, List.append_nil]
      exact List.rdropWhile_concat_neg isSpace _ '/' hslash
    · rw [rdropWhile_append_of_ne_nil isSpace _ _ (by rw [hb]; exact h0), hb]

/-- C11 (as amended): orphan detection. Against the remote branch snapshot
`R`, `isOrphanWipBranch` returns true exactly when the branch is named
`mob-session` or its name starts with the wip branch prefix, and the name of
its remote branch is not an element of `R`; that name is the remote name, a
slash and the branch name with surrounding white space trimmed, and it is the
plain concatenation when the remote name has no leading and the branch name
no trailing white space. -/
theorem isOrphanWipBranch_iff (b : Branch) (cfg : Configuration) (repo : Repo)
    (t : List Cmd) (R : List Str) (hR : (gitRemoteBranches repo t).2 = .ok R) :
    ∃ o, (b.isOrphanWipBranch cfg repo t).2 = .ok o ∧
      (o = true ↔
        ((b.Name = "mob-session".toList ∨ cfg.WipBranchPrefix <+: b.Name) ∧
          (b.remote cfg).Name ∉ R)) ∧
      (b.remote cfg).Name = trimSpace (cfg.RemoteName ++ "/".toList ++ b.Name) ∧
      (cfg.RemoteName.dropWhile isSpace = cfg.RemoteName →
        b.Name.rdropWhile isSpace = b.Name →
        (o = true ↔
          ((b.Name = "mob-session".toList ∨ cfg.WipBranchPrefix <+: b.Name) ∧
            cfg.RemoteName ++ "/".toList ++ b.Name ∉ R))) := by
  have hR2 : gitRemoteBranches repo t = ((gitRemoteBranches repo t).1, .ok R) := by
    rw [← hR]
  have hmain : (b.isOrphanAgainst cfg R = true ↔
      ((b.Name = "mob-session".toList ∨ cfg.WipBranchPrefix <+: b.Name) ∧
        (b.remote cfg).Name ∉ R)) := by
    unfold Branch.isOrphanAgainst
    rw [Bool.and_eq_true, isWipBranch_iff, Bool.not_eq_true', ← Bool.not_eq_true, inList_iff]
  refine ⟨b.isOrphanAgainst cfg R, ?_, hmain, rfl, ?_⟩
  · rw [isOrphanWipBranch_of b cfg repo t _ R hR2]
  · intro hr hb
    rw [← remote_name_literal b cfg hr hb]
    exact hmain

/-- C11 (witness): scenario E. Of the wip branches `mob/main-alice` and
`mob/main-bob` the first has a remote counterpart and is not an orphan, the
second is; `main` is not a wip branch and not an orphan. -/
theorem isOrphanWipBranch_iff_witness :
    (gitRemoteBranches scenarioERepo []).2 =
      .ok ["origin/main".toList, "origin/mob/main-alice".toList] ∧
    ((⟨"mob/main-alice".toList⟩ : Branch).isOrphanWipBranch scenarioConfiguration
      scenarioERepo []).2 = .ok false ∧
    ((⟨"mob/main-bob".toList⟩ : Branch).isOrphanWipBranch scenarioConfiguration
      scenarioERepo []).2 = .ok true ∧
    ((⟨"main".toList⟩ : Branch).isOrphanWipBranch scenarioConfiguration
      scenarioERepo []).2 = .ok false ∧
    ∃ o, ((⟨"mob/main-bob".toList⟩ : Branch).isOrphanWipBranch scenarioConfiguration
        scenarioERepo []).2 = .ok o ∧
      (o = true ↔
        (("mob/main-bob".toList = "mob-session".toList ∨
            scenarioConfiguration.WipBranchPrefix <+: "mob/main-bob".toList) ∧
          ((⟨"mob/main-bob".toList⟩ : Branch).remote scenarioConfiguration).Name ∉
            ["origin/main".toList, "origin/mob/main-alice".toList])) :=
  ⟨by decide, by decide, by decide, by decide,
    (isOrphanWipBranch_iff ⟨"mob/main-bob".toList⟩ scenarioConfiguration scenarioERepo []
      ["origin/main".toList, "origin/mob/main-alice".toList] (by decide)).imp
      (fun _ h => ⟨h.1, h.2.1⟩)⟩

/-- C11 (counterexample): with the remote name written with a leading space,
the wip branch `mob/x` whose remote branch `origin/mob/x` is in the snapshot is
not an orphan, although the concatenation of remote name, slash and branch
name is not an element of the snapshot. -/
theorem isOrphanWipBranch_trims_remote_name :
    (gitRemoteBranches
      (constRepo (snapshotAnswers "main".toList "main\nmob/x".toList "origin/mob/x".toList [])
        (fun _ => false)) []).2 = .ok ["origin/mob/x".toList] ∧
    ((⟨"mob/x".toList⟩ : Branch).isOrphanWipBranch
      { scenarioConfiguration with RemoteName := " origin".toList }
      (constRepo (snapshotAnswers "main".toList "main\nmob/x".toList "origin/mob/x".toList [])
        (fun _ => false)) []).2 = .ok false ∧
    hasPrefix "mob/x".toList scenarioConfiguration.WipBranchPrefix = true ∧
    " origin".toList ++ "/".toList ++ "mob/x".toList ∉ ["origin/mob/x".toList] := by
  decide

/-! ### clean -/

theorem isBranchDelete_of_head (args : Cmd) (h : args.head? ≠ some "branch".toList) :
    isBranchDelete args = false := by
  unfold isBranchDelete
  rw [decide_eq_false h]
  rfl

theorem cleanLoop_run (cfg : Configuration) (repo : Repo) (R : List Str)
    (hs : repo.Succeeds) (hR : repo.RemoteBranches R) :
    ∀ (l : List Str) (t : List Cmd), ∃ new, cleanLoop cfg l repo t = (t ++ new, .ok ()) ∧
      new.filter isBranchDelete =
        ((l.map newBranch).filter (fun b => b.isOrphanAgainst cfg R)).map
          (fun b => ["branch".toList, "-d".toList, b.Name]) := by
  intro l
  induction l with
  | nil => intro t; exact ⟨[], by simp [cleanLoop]; rfl, rfl⟩
  | cons x rest ih =>
    intro t
    unfold cleanLoop
    simp only
    rw [Prog.bind_ok (isOrphanWipBranch_of (newBranch x) cfg repo t _ R (hR t))]
    have hrq : isBranchDelete remoteBranchesQuery = false := by decide
    by_cases ho : (newBranch x).isOrphanAgainst cfg R = true
    · have hw : (newBranch x).IsWipBranch cfg = true := by
        unfold Branch.isOrphanAgainst at ho
        rw [Bool.and_eq_true] at ho
        exact ho.1
      simp only [ho, hw, if_true]
      rw [Prog.bind_ok (git_ok (hs _ _))]
      obtain ⟨new, hnew, hfil⟩ := ih (t ++ [remoteBranchesQuery] ++
        [["branch".toList, "-d".toList, (newBranch x).Name]])
      refine ⟨[remoteBranchesQuery] ++
        [["branch".toList, "-d".toList, (newBranch x).Name]] ++ new, ?_, ?_⟩
      · rw [hnew]; simp [List.append_assoc]
      · have hdel : isBranchDelete ["branch".toList, "-d".toList, (newBranch x).Name] = true := by
          rfl
        simp only [List.filter_append, List.map_cons, List.filter_cons, ho, hrq, hdel, hfil]
        simp
    · have ho2 : (newBranch x).isOrphanAgainst cfg R = false := by simpa using ho
      simp only [ho2, Bool.false_eq_true, if_false]
      rw [Prog.bind_ok (Prog.pure_run _ _ _)]
      obtain ⟨new, hnew, hfil⟩ := ih (if (newBranch x).IsWipBranch cfg = true then
        t ++ [remoteBranchesQuery] else t)
      by_cases hw : (newBranch x).IsWipBranch cfg = true
      · simp only [hw, if_true] at hnew ⊢
        refine ⟨[remoteBranchesQuery] ++ new, ?_, ?_⟩
        · rw [hnew]; simp [List.append_assoc]
        · simp only [List.filter_append, List.map_cons, List.filter_cons, ho2, hrq, hfil]
          simp
      · simp only [hw, if_false] at hnew ⊢
        refine ⟨new, hnew, ?_⟩
        simp only [List.map_cons, List.filter_cons, ho2, hfil]
        simp

theorem cleanCheckout_run (cfg : Configuration) (repo : Repo) (c : Branch) (L : List Str)
    (hs : repo.Succeeds) (t : List Cmd) :
    ∃ x, cleanCheckout cfg c L repo t = (t ++ [["checkout".toList, x]], .ok ()) := by
  obtain ⟨base, wip, hd⟩ := determineBranches_ok c L cfg
  unfold cleanCheckout
  rw [hd, Prog.bind_ok (liftExcept_ok _ _ _)]
  simp only
  split
  · exact ⟨_, git_ok (hs _ _)⟩
  · split
    · exact ⟨_, git_ok (hs _ _)⟩
    · exact ⟨_, git_ok (hs _ _)⟩

/-- C12: `clean` deletes exactly the orphans. When every repository command
succeeds, the local branches are `L` and the remote branch snapshot is `R`,
`clean` returns normally and the branch delete commands it issues are, in
order, one `branch -d` for each entry of `L` whose branch is an orphan wip
branch against `R`, and no other; here the value of `isOrphanWipBranch` is
`isOrphanAgainst` on `R`. -/
theorem clean_deletes_exactly_orphans (cfg : Configuration) (repo : Repo) (t : List Cmd)
    (c : Branch) (L R : List Str) (hs : repo.Succeeds) (hc : repo.OnBranch c)
    (hL : repo.LocalBranches L) (hR : repo.RemoteBranches R) :
    ∃ new, clean cfg repo t = (t ++ new, .ok ()) ∧
      new.filter isBranchDelete =
        ((L.map newBranch).filter (fun b => b.isOrphanAgainst cfg R)).map
          (fun b => ["branch".toList, "-d".toList, b.Name]) ∧
      ∀ (b : Branch) (t1 : List Cmd),
        (b.isOrphanWipBranch cfg repo t1).2 = .ok (b.isOrphanAgainst cfg R) := by
  have horphan : ∀ (b : Branch) (t1 : List Cmd),
      (b.isOrphanWipBranch cfg repo t1).2 = .ok (b.isOrphanAgainst cfg R) := by
    intro b t1
    rw [isOrphanWipBranch_of b cfg repo t1 _ R (hR t1)]
  have hfetch : isBranchDelete ["fetch".toList, cfg.RemoteName] = false :=
    isBranchDelete_of_head _ (by simp)
  have hcq : isBranchDelete currentBranchQuery = false := by decide
  have hbq : isBranchDelete branchesQuery = false := by decide
  have hrq : isBranchDelete remoteBranchesQuery = false := by decide
  have hco : ∀ x : Str, isBranchDelete ["checkout".toList, x] = false :=
    fun x => isBranchDelete_of_head _ (by simp)
  unfold clean
  rw [Prog.bind_ok (git_ok (hs _ _)), Prog.bind_ok (hc _), Prog.bind_ok (hL _),
    Prog.bind_ok (isOrphanWipBranch_of c cfg repo _ _ R (hR _))]
  by_cases ho : c.isOrphanAgainst cfg R = true
  · have hw : c.IsWipBranch cfg = true := by
      unfold Branch.isOrphanAgainst at ho
      rw [Bool.and_eq_true] at ho
      exact ho.1
    simp only [ho, hw, if_true]
    obtain ⟨x, hx⟩ := cleanCheckout_run cfg repo c L hs
      (t ++ [["fetch".toList, cfg.RemoteName]] ++ [currentBranchQuery] ++ [branchesQuery] ++
        [remoteBranchesQuery])
    rw [Prog.bind_ok hx]
    obtain ⟨new, hnew, hfil⟩ := cleanLoop_run cfg repo R hs hR L
      (t ++ [["fetch".toList, cfg.RemoteName]] ++ [currentBranchQuery] ++ [branchesQuery] ++
          [remoteBranchesQuery] ++ [["checkout".toList, x]])
    refine ⟨[["fetch".toList, cfg.RemoteName]] ++ [currentBranchQuery] ++ [branchesQuery] ++
          [remoteBranchesQuery] ++ [["checkout".toList, x]] ++ new, ?_, ?_, horphan⟩
    · rw [hnew]; simp [List.append_assoc]
    · simp only [List.filter_append, List.filter_cons, List.filter_nil, hfetch, hcq, hbq, hrq,
        hco x, hfil]
      simp
  · have ho2 : c.isOrphanAgainst cfg R = false := by simpa using ho
    simp only [ho2, Bool.false_eq_true, if_false]
    rw [Prog.bind_ok (Prog.pure_run _ _ _)]
    by_cases hw : c.IsWipBranch cfg = true
    · simp only [hw, if_true]
      obtain ⟨new, hnew, hfil⟩ := cleanLoop_run cfg repo R hs hR L
        (t ++ [["fetch".toList, cfg.RemoteName]] ++ [currentBranchQuery] ++ [branchesQuery] ++
            [remoteBranchesQuery])
      refine ⟨[["fetch".toList, cfg.RemoteName]] ++ [currentBranchQuery] ++ [branchesQuery] ++
            [remoteBranchesQuery] ++ new, ?_, ?_, horphan⟩
      · rw [hnew]; simp [List.append_assoc]
      · simp only [List.filter_append, List.filter_cons, List.filter_nil, hfetch, hcq, hbq, hrq,
          hfil]
        simp
    · have hw2 : c.IsWipBranch cfg = false := by simpa using hw
      simp only [hw2, Bool.false_eq_true, if_false]
      obtain ⟨new, hnew, hfil⟩ := cleanLoop_run cfg repo R hs hR L
        (t ++ [["fetch".toList, cfg.RemoteName]] ++ [currentBranchQuery] ++ [branchesQuery])
      refine ⟨[["fetch".toList, cfg.RemoteName]] ++ [currentBranchQuery] ++ [branchesQuery] ++
        new, ?_, ?_, horphan⟩
      · rw [hnew]; simp [List.append_assoc]
      · simp only [List.filter_append, List.filter_cons, List.filter_nil, hfetch, hcq, hbq, hfil]
        simp

/-! ### Repositories with constant replies -/

theorem constRepo_succeeds (answers : Cmd → Str) :
    (constRepo answers (fun _ => false)).Succeeds := fun _ _ => rfl

theorem constRepo_onBranch (answers : Cmd → Str) (fails : Cmd → Bool) (c : Branch)
    (hf : fails currentBranchQuery = false)
    (hc : newBranch (trimSpace (answers currentBranchQuery)) = c) :
    (constRepo answers fails).OnBranch c := by
  intro t
  unfold gitCurrentBranch
  rw [Prog.bind_ok (@silentgit_ok currentBranchQuery (constRepo answers fails) _ hf)]
  rw [← hc]
  rfl

theorem constRepo_localBranches (answers : Cmd → Str) (fails : Cmd → Bool) (L : List Str)
    (hf : fails branchesQuery = false)
    (hL : splitLines (trimSpace (answers branchesQuery)) = L) :
    (constRepo answers fails).LocalBranches L := by
  intro t
  unfold gitBranches
  rw [Prog.bind_ok (@silentgit_ok branchesQuery (constRepo answers fails) _ hf)]
  rw [← hL]
  rfl

theorem constRepo_remoteBranches (answers : Cmd → Str) (fails : Cmd → Bool) (R : List Str)
    (hf : fails remoteBranchesQuery = false)
    (hR : splitLines (trimSpace (answers remoteBranchesQuery)) = R) :
    (constRepo answers fails).RemoteBranches R := by
  intro t
  unfold gitRemoteBranches
  rw [Prog.bind_ok
    (@silentgit_ok remoteBranchesQuery (constRepo answers fails) _ hf)]
  rw [← hR]
  rfl

theorem constRepo_uncommitted (answers : Cmd → Str) (fails : Cmd → Bool) (u : Bool)
    (hf : fails statusQuery = false)
    (hu : (!decide ((trimSpace (answers statusQuery)).length = 0)) = u) :
    (constRepo answers fails).Uncommitted u := by
  intro t
  unfold hasUncommittedChanges isNothingToCommit
  rw [Prog.bind_ok (Prog.bind_ok
    (@silentgit_ok statusQuery (constRepo answers fails) _ hf))]
  rw [← hu]
  rfl

/-- C12 (witness): scenario E. With the local branches `main`,
`mob/main-alice` and `mob/main-bob`, of which only `mob/main-alice` of the wip
branches has a remote counterpart, `clean` deletes exactly `mob/main-bob`. -/
theorem clean_deletes_exactly_orphans_witness :
    (clean scenarioConfiguration scenarioERepo []).1.filter isBranchDelete =
      [["branch".toList, "-d".toList, "mob/main-bob".toList]] ∧
    ((["main".toList, "mob/main-alice".toList, "mob/main-bob".toList].map newBranch).filter
      (fun b => b.isOrphanAgainst scenarioConfiguration
        ["origin/main".toList, "origin/mob/main-alice".toList])).map
        (fun b => ["branch".toList, "-d".toList, b.Name]) =
      [["branch".toList, "-d".toList, "mob/main-bob".toList]] ∧
    ∃ new, clean scenarioConfiguration scenarioERepo [] = ([] ++ new, .ok ()) ∧
      new.filter isBranchDelete =
        ((["main".toList, "mob/main-alice".toList, "mob/main-bob".toList].map newBranch).filter
          (fun b => b.isOrphanAgainst scenarioConfiguration
            ["origin/main".toList, "origin/mob/main-alice".toList])).map
          (fun b => ["branch".toList, "-d".toList, b.Name]) ∧
      ∀ (b : Branch) (t1 : List Cmd),
        (b.isOrphanWipBranch scenarioConfiguration scenarioERepo t1).2 =
          .ok (b.isOrphanAgainst scenarioConfiguration
            ["origin/main".toList, "origin/mob/main-alice".toList]) :=
  ⟨by decide, by decide,
    clean_deletes_exactly_orphans scenarioConfiguration scenarioERepo [] ⟨"main".toList⟩
      ["main".toList, "mob/main-alice".toList, "mob/main-bob".toList]
      ["origin/main".toList, "origin/mob/main-alice".toList]
      (constRepo_succeeds _)
      (constRepo_onBranch _ _ _ rfl (by decide))
      (constRepo_localBranches _ _ _ rfl (by decide))
      (constRepo_remoteBranches _ _ _ rfl (by decide))⟩

/-! ### reset -/

theorem hasLocalBranch_of (repo : Repo) (L : List Str) (hL : repo.LocalBranches L)
    (name : Str) (t : List Cmd) :
    hasLocalBranch name repo t = (t ++ [branchesQuery], .ok (inList L name)) := by
  unfold hasLocalBranch
  rw [Prog.bind_ok (hL t)]
  rfl

theorem gitWithoutEmptyStrings_ok {args : Cmd} {repo : Repo} {t : List Cmd}
    (hs : repo.Succeeds) :
    gitWithoutEmptyStrings args repo t = (t ++ [deleteEmptyStrings args], .ok ()) := by
  unfold gitWithoutEmptyStrings
  exact git_ok (hs _ _)

/-- C19: `reset` is an unconditional return to base. When every repository
command succeeds, the current branch is `c`, the local branches are `L` and
the remote snapshot is `R`, then with `(base, wip)` the pair resolved by
`determineBranches`, `reset` fetches, reads the current branch and the local
branches, checks out `base`, force-deletes `wip` locally if and only if its
name is in `L`, and deletes it on the remote if and only if the name of its
remote branch is in `R`; these are all its commands, so nothing about
uncommitted or unmerged work is read. -/
theorem reset_returns_to_base (cfg : Configuration) (repo : Repo) (t : List Cmd)
    (c : Branch) (L R : List Str) (hs : repo.Succeeds) (hc : repo.OnBranch c)
    (hL : repo.LocalBranches L) (hR : repo.RemoteBranches R) :
    ∃ base wip, determineBranches c L cfg = .ok (base, wip) ∧
      reset cfg repo t =
        (t ++ [["fetch".toList, cfg.RemoteName], currentBranchQuery, branchesQuery,
            ["checkout".toList, base.Name], branchesQuery] ++
          (if wip.Name ∈ L then
            [["branch".toList, "--delete".toList, "--force".toList, wip.Name]] else []) ++
          [remoteBranchesQuery] ++
          (if (wip.remote cfg).Name ∈ R then
            [deleteEmptyStrings ["push".toList, cfg.gitHooksOption, cfg.RemoteName,
              "--delete".toList, wip.Name]] else []),
          .ok ()) := by
  obtain ⟨base, wip, hd⟩ := determineBranches_ok c L cfg
  refine ⟨base, wip, hd, ?_⟩
  unfold reset
  rw [Prog.bind_ok (git_ok (hs _ _)), Prog.bind_ok (hc _), Prog.bind_ok (hL _), hd,
    Prog.bind_ok (liftExcept_ok _ _ _)]
  simp only
  rw [Prog.bind_ok (git_ok (hs _ _)), Prog.bind_ok (hasLocalBranch_of repo L hL _ _)]
  by_cases h1 : wip.Name ∈ L
  · have h1' : inList L wip.Name = true := (inList_iff _ _).mpr h1
    simp only [h1', h1, if_true]
    rw [Prog.bind_ok (git_ok (hs _ _)),
      Prog.bind_ok (hasRemoteBranch_of wip cfg repo _ _ R (hR _))]
    by_cases h2 : (wip.remote cfg).Name ∈ R
    · have h2' : inList R (wip.remote cfg).Name = true := (inList_iff _ _).mpr h2
      simp only [h2', h2, if_true]
      rw [gitWithoutEmptyStrings_ok hs]
      simp [List.append_assoc]
    · have h2' : inList R (wip.remote cfg).Name = false := by
        rw [← Bool.not_eq_true, inList_iff]; exact h2
      simp only [h2', h2, if_false, Bool.false_eq_true]
      rw [Prog.pure_run]
      simp [List.append_assoc]
  · have h1' : inList L wip.Name = false := by
      rw [← Bool.not_eq_true, inList_iff]; exact h1
    simp only [h1', h1, if_false, Bool.false_eq_true]
    rw [Prog.bind_ok (Prog.pure_run _ _ _),
      Prog.bind_ok (hasRemoteBranch_of wip cfg repo _ _ R (hR _))]
    by_cases h2 : (wip.remote cfg).Name ∈ R
    · have h2' : inList R (wip.remote cfg).Name = true := (inList_iff _ _).mpr h2
      simp only [h2', h2, if_true]
      rw [gitWithoutEmptyStrings_ok hs]
      simp [List.append_assoc]
    · have h2' : inList R (wip.remote cfg).Name = false := by
        rw [← Bool.not_eq_true, inList_iff]; exact h2
      simp only [h2', h2, if_false, Bool.false_eq_true]
      rw [Prog.pure_run]
      simp [List.append_assoc]

/-- C19 (witness): in the session on `mob/main`, with the wip branch both
local and remote, `reset` checks out `main`, force-deletes `mob/main` and
deletes it on the remote. -/
theorem reset_returns_to_base_witness :
    reset scenarioConfiguration (sessionRepo [] (fun _ => false)) [] =
      ([["fetch".toList, "origin".toList], currentBranchQuery, branchesQuery,
        ["checkout".toList, "main".toList], branchesQuery,
        ["branch".toList, "--delete".toList, "--force".toList, "mob/main".toList],
        remoteBranchesQuery,
        ["push".toList, "--no-verify".toList, "origin".toList, "--delete".toList,
          "mob/main".toList]], .ok ()) ∧
    ∃ base wip,
      determineBranches ⟨"mob/main".toList⟩ ["main".toList, "mob/main".toList]
        scenarioConfiguration = .ok (base, wip) ∧
      reset scenarioConfiguration (sessionRepo [] (fun _ => false)) [] =
        ([] ++ [["fetch".toList, scenarioConfiguration.RemoteName], currentBranchQuery,
            branchesQuery, ["checkout".toList, base.Name], branchesQuery] ++
          (if wip.Name ∈ ["main".toList, "mob/main".toList] then
            [["branch".toList, "--delete".toList, "--force".toList, wip.Name]] else []) ++
          [remoteBranchesQuery] ++
          (if (wip.remote scenarioConfiguration).Name ∈
              ["origin/main".toList, "origin/mob/main".toList] then
            [deleteEmptyStrings ["push".toList, scenarioConfiguration.gitHooksOption,
              scenarioConfiguration.RemoteName, "--delete".toList, wip.Name]] else []),
          .ok ()) :=
  ⟨by decide,
    reset_returns_to_base scenarioConfiguration (sessionRepo [] (fun _ => false)) []
      ⟨"mob/main".toList⟩ ["main".toList, "mob/main".toList]
      ["origin/main".toList, "origin/mob/main".toList]
      (constRepo_succeeds _)
      (constRepo_onBranch _ _ _ rfl (by decide))
      (constRepo_localBranches _ _ _ rfl (by decide))
      (constRepo_remoteBranches _ _ _ rfl (by decide))⟩

/-! ### next and execute -/

theorem silentgit_run (args : Cmd) (repo : Repo) (t : List Cmd) :
    silentgit args repo t =
      if (repo t args).failed = true then (t ++ [args] ++ [["rev-parse".toList]], .exit 1)
      else (t ++ [args], .ok (trimSpace (repo t args).output)) := by
  by_cases h : (repo t args).failed = true
  · rw [if_pos h]
    unfold silentgit
    rw [Prog.bind_ok (runCommand_run args repo t)]
    simp only [h, if_true]
    rfl
  · rw [if_neg h]
    exact silentgit_ok (by simpa using h)

theorem git_run (args : Cmd) (repo : Repo) (t : List Cmd) :
    git args repo t =
      if (repo t args).failed = true then (t ++ [args] ++ [["rev-parse".toList]], .exit 1)
      else (t ++ [args], .ok ()) := by
  by_cases h : (repo t args).failed = true
  · rw [if_pos h]
    unfold git
    rw [Prog.bind_ok (runCommand_run args repo t)]
    simp only [h, if_true]
    rfl
  · rw [if_neg h]
    exact git_ok (by simpa using h)

theorem Prog.bind_ok_inv {α β : Type} {m : Prog α} {f : α → Prog β} {repo : Repo}
    {t t1 : List Cmd} {b : β} (h : (m >>= f) repo t = (t1, .ok b)) :
    ∃ t0 a, m repo t = (t0, .ok a) ∧ f a repo t0 = (t1, .ok b) := by
  rw [Prog.bind_run] at h
  rcases hm : m repo t with ⟨t0, r⟩
  rw [hm] at h
  cases r with
  | ok a => exact ⟨t0, a, rfl, h⟩
  | exit code => simp at h
  | panic p => simp at h

theorem silentgit_ok_inv {args : Cmd} {repo : Repo} {t t1 : List Cmd} {out : Str}
    (h : silentgit args repo t = (t1, .ok out)) : t1 = t ++ [args] := by
  rw [silentgit_run] at h
  by_cases hf : (repo t args).failed = true
  · rw [if_pos hf] at h; simp at h
  · rw [if_neg hf] at h
    exact (Prod.mk.inj h).1.symm

theorem liftExcept_ok_inv {α : Type} {e : Except Panic α} {repo : Repo} {t t1 : List Cmd}
    {a : α} (h : liftExcept e repo t = (t1, .ok a)) : t1 = t := by
  cases e with
  | ok x => exact (Prod.mk.inj h).1.symm
  | error p =>
    have h2 : (t, (Res.panic p : Res α)) = (t1, Res.ok a) := h
    simp at h2

theorem Prog.pure_ok_inv {α : Type} {x a : α} {repo : Repo} {t t1 : List Cmd}
    (h : (Pure.pure x : Prog α) repo t = (t1, .ok a)) : t1 = t :=
  (Prod.mk.inj h).1.symm

/-- When `isMobProgramming` returns, it has issued its two queries and nothing
else. -/
theorem isMobProgramming_trace (cfg : Configuration) (repo : Repo) (t t1 : List Cmd) (b : Bool)
    (h : isMobProgramming cfg repo t = (t1, .ok b)) :
    t1 = t ++ [currentBranchQuery, branchesQuery] := by
  unfold isMobProgramming at h
  obtain ⟨ta, c, hc, h⟩ := Prog.bind_ok_inv h
  obtain ⟨tb, L, hL, h⟩ := Prog.bind_ok_inv h
  obtain ⟨tc, p, hp, h⟩ := Prog.bind_ok_inv h
  unfold gitCurrentBranch at hc
  obtain ⟨ta', _, hc1, hc2⟩ := Prog.bind_ok_inv hc
  unfold gitBranches at hL
  obtain ⟨tb', _, hL1, hL2⟩ := Prog.bind_ok_inv hL
  have e1 := silentgit_ok_inv hc1
  have e2 := Prog.pure_ok_inv hc2
  have e3 := silentgit_ok_inv hL1
  have e4 := Prog.pure_ok_inv hL2
  have e5 := liftExcept_ok_inv hp
  have e6 := Prog.pure_ok_inv h
  subst e1 e2 e3 e4 e5 e6
  simp

/-- C17: `next` requires an active session. Whenever `isMobProgramming` is
false, `next` returns right after the two queries of `isMobProgramming` (the
current branch and the local branches): it issues no other command, so no
commit, push or checkout; telling the user to run `start` is console
output. -/
theorem next_outside_session (ext : External) (cfg : Configuration) (repo : Repo)
    (t : List Cmd) (h : (isMobProgramming cfg repo t).2 = .ok false) :
    next ext cfg repo t = (t ++ [currentBranchQuery, branchesQuery], .ok ()) ∧
      ∀ x ∈ [currentBranchQuery, branchesQuery], isMutating x = false := by
  have h2 : isMobProgramming cfg repo t = ((isMobProgramming cfg repo t).1, .ok false) := by
    rw [← h]
  have h3 := isMobProgramming_trace cfg repo t _ false h2
  rw [h3] at h2
  refine ⟨?_, by decide⟩
  unfold next
  rw [Prog.bind_ok h2]
  rfl

/-- C17 (witness): on the base branch `main`, `next` only asks for the current
branch and the local branches. -/
theorem next_outside_session_witness :
    (isMobProgramming scenarioConfiguration (baseRepo []) []).2 = .ok false ∧
    next idleExternal scenarioConfiguration (baseRepo []) [] =
      ([] ++ [currentBranchQuery, branchesQuery], .ok ()) ∧
      ∀ x ∈ [currentBranchQuery, branchesQuery], isMutating x = false :=
  ⟨by decide, next_outside_session idleExternal scenarioConfiguration (baseRepo []) []
    (by decide)⟩

/-- C16 (as amended): when `start` returns an error (it aborts on a user
precondition error) and the two queries of `isMobProgramming` succeed,
`execute` of the start command returns normally without starting the timer:
`exit` is not called, so the process ends with the status zero. -/
theorem execute_start_error_returns (ext : External) (cfg : Configuration) (repo : Repo)
    (parameter : List Str) (t t1 t2 : List Cmd) (e : Str) (b : Bool)
    (hstart : start ext cfg repo t = (t1, .ok (some e)))
    (hmob : isMobProgramming cfg repo t1 = (t2, .ok b)) :
    execute ext "start".toList parameter cfg repo t = (t2, .ok ()) ∧
      t2 = t1 ++ [currentBranchQuery, branchesQuery] := by
  refine ⟨?_, isMobProgramming_trace cfg repo t1 t2 b hmob⟩
  unfold execute
  rw [if_pos (Or.inr rfl), Prog.bind_ok hstart, Prog.bind_ok hmob]
  simp only [Option.isSome_some, Bool.or_true, if_true]
  rfl

/-- C16 (witness): a dirty working tree on `main` without
`StartIncludeUncommittedChanges`: `start` returns its error after three
queries and `execute` returns normally. -/
theorem execute_start_error_returns_witness :
    execute idleExternal "start".toList [] scenarioConfiguration (baseRepo " M f.txt".toList) [] =
      ([statusQuery, ["diff".toList, "--stat".toList],
        ["ls-files".toList, "--others".toList, "--exclude-standard".toList,
          "--full-name".toList]] ++ [currentBranchQuery, branchesQuery], .ok ()) ∧
      [statusQuery, ["diff".toList, "--stat".toList],
        ["ls-files".toList, "--others".toList, "--exclude-standard".toList,
          "--full-name".toList]] ++ [currentBranchQuery, branchesQuery] =
      [statusQuery, ["diff".toList, "--stat".toList],
        ["ls-files".toList, "--others".toList, "--exclude-standard".toList,
          "--full-name".toList]] ++ [currentBranchQuery, branchesQuery] :=
  execute_start_error_returns idleExternal scenarioConfiguration (baseRepo " M f.txt".toList)
    [] [] _ _ "cannot start; clean working tree required".toList false (by decide) (by decide)

/-- C16 (counterexample): with a dirty working tree and without
`StartIncludeUncommittedChanges`, every command succeeding, `start` returns
the error "cannot start; clean working tree required" and `execute` of the
start command returns normally: the run does not end by `exit` with a code
that is not zero. -/
theorem execute_start_error_no_exit :
    scenarioConfiguration.StartIncludeUncommittedChanges = false ∧
    (start idleExternal scenarioConfiguration (baseRepo " M f.txt".toList) []).2 =
      .ok (some "cannot start; clean working tree required".toList) ∧
    (execute idleExternal "start".toList [] scenarioConfiguration
      (baseRepo " M f.txt".toList) []).2 = .ok () ∧
    ¬ ∃ code, code ≠ 0 ∧
      (execute idleExternal "start".toList [] scenarioConfiguration
        (baseRepo " M f.txt".toList) []).2 = .exit code := by
  refine ⟨by decide, by decide, by decide, ?_⟩
  rintro ⟨code, _, h⟩
  have h2 : (execute idleExternal "start".toList [] scenarioConfiguration
      (baseRepo " M f.txt".toList) []).2 = .ok () := by decide
  rw [h2] at h
  cases h

/-! ### start -/

theorem isMutating_cons (h : Str) (rest : List Str)
    (h1 : h ∉ ["checkout".toList, "stash".toList, "merge".toList, "commit".toList,
      "push".toList, "reset".toList])
    (h2 : h ≠ "branch".toList) : isMutating (h :: rest) = false := by
  unfold isMutating headIn isBranchDelete
  have h3 : ¬ (some h = some "branch".toList) := fun e => h2 (Option.some.inj e)
  simp only [List.head?_cons, decide_eq_false h1, decide_eq_false h3, Bool.false_and,
    Bool.or_self]

theorem start_dirty_run (ext : External) (cfg : Configuration) (repo : Repo) (t : List Cmd)
    (hs : repo.Succeeds) (hu : repo.Uncommitted true)
    (hi : cfg.StartIncludeUncommittedChanges = false) :
    start ext cfg repo t =
      (t ++ [statusQuery, unstagedQuery, untrackedQuery],
        .ok (some "cannot start; clean working tree required".toList)) := by
  unfold start
  rw [Prog.bind_ok (hu t)]
  simp only [hi, Bool.not_false, Bool.and_self, if_true]
  have h1 : sayUnstagedChangesInfo repo (t ++ [statusQuery]) =
      (t ++ [statusQuery] ++ [unstagedQuery], .ok ()) := by
    unfold sayUnstagedChangesInfo getUnstagedChanges
    rw [Prog.bind_ok (silentgit_ok (hs _ _))]
    rfl
  have h2 : sayUntrackedFilesInfo repo (t ++ [statusQuery] ++ [unstagedQuery]) =
      (t ++ [statusQuery] ++ [unstagedQuery] ++ [untrackedQuery], .ok ()) := by
    unfold sayUntrackedFilesInfo getUntrackedFiles
    rw [Prog.bind_ok (silentgit_ok (hs _ _))]
    rfl
  rw [Prog.bind_ok h1, Prog.bind_ok h2, Prog.pure_run]
  simp

theorem uncommittedSubdir_true (repo : Repo) (hs : repo.Succeeds) (t : List Cmd) :
    uncommittedSubdir true repo t =
      (t ++ [lsTreeQuery], .ok (decide (trimSpace (repo t lsTreeQuery).output = []))) := by
  unfold uncommittedSubdir
  simp only [if_true]
  rw [Prog.bind_ok (silentgit_ok (hs _ _))]
  rfl

theorem uncommittedSubdir_false (repo : Repo) (t : List Cmd) :
    uncommittedSubdir false repo t = (t, .ok false) := rfl


/-- C15 (as amended): `start` aborts without changing the repository on its
user precondition errors. When every command succeeds and the repository
answers with the current branch `c`, the branches `L` and `R`, the state `u`
of the working tree, the presence `p` of unpushed commits on the resolved base
branch and the listing `tree` of the working directory: if the tree is dirty
and `StartIncludeUncommittedChanges` is not set, or the base branch has no
remote counterpart, or it has unpushed commits, or the tree is dirty and the
working directory is an uncommitted subdirectory (the listing is empty), then
`start` returns an error and none of the commands it has issued is a checkout,
stash, merge, commit, push, reset or branch delete; in the first case the
commands are the three queries of the status, of the unstaged changes and of
the untracked files. -/
theorem start_aborts_without_mutation (ext : External) (cfg : Configuration) (repo : Repo)
    (t : List Cmd) (c base wip : Branch) (L R : List Str) (u p : Bool) (tree : Str)
    (hs : repo.Succeeds) (hu : repo.Uncommitted u) (hc : repo.OnBranch c)
    (hL : repo.LocalBranches L) (hR : repo.RemoteBranches R)
    (hd : determineBranches c L cfg = .ok (base, wip))
    (hp : ∀ t1, base.hasUnpushedCommits cfg repo t1 =
      (t1 ++ [unpushedQuery base cfg], .ok p))
    (htree : ∀ t1, trimSpace (repo t1 lsTreeQuery).output = tree)
    (herr : (u = true ∧ cfg.StartIncludeUncommittedChanges = false) ∨
      (base.remote cfg).Name ∉ R ∨ p = true ∨ (u = true ∧ tree = [])) :
    ∃ e new, start ext cfg repo t = (t ++ new, .ok (some e)) ∧
      (∀ x ∈ new, isMutating x = false) ∧
      ((u = true ∧ cfg.StartIncludeUncommittedChanges = false) →
        new = [statusQuery, unstagedQuery, untrackedQuery]) := by
  have m1 : isMutating statusQuery = false := by decide
  have m2 : isMutating unstagedQuery = false := by decide
  have m3 : isMutating untrackedQuery = false := by decide
  have m4 : isMutating ["fetch".toList, cfg.RemoteName, "--prune".toList] = false :=
    isMutating_cons _ _ (by decide) (by decide)
  have m5 : isMutating currentBranchQuery = false := by decide
  have m6 : isMutating branchesQuery = false := by decide
  have m7 : isMutating remoteBranchesQuery = false := by decide
  have m8 : isMutating (unpushedQuery base cfg) = false :=
    isMutating_cons _ _ (by decide) (by decide)
  have m9 : isMutating lsTreeQuery = false := by decide
  by_cases hdirty : u = true ∧ cfg.StartIncludeUncommittedChanges = false
  · obtain ⟨hu1, hi⟩ := hdirty
    subst hu1
    refine ⟨_, [statusQuery, unstagedQuery, untrackedQuery],
      start_dirty_run ext cfg repo t hs hu hi, ?_, fun _ => rfl⟩
    intro x hx
    simp only [List.mem_cons, List.mem_singleton, List.not_mem_nil, or_false] at hx
    rcases hx with h | h | h <;> rw [h] <;> assumption
  · have hcond : (u && !cfg.StartIncludeUncommittedChanges) = false := by
      cases u <;> cases hi : cfg.StartIncludeUncommittedChanges <;> simp_all
    unfold start
    rw [Prog.bind_ok (hu t)]
    simp only [hcond, Bool.false_eq_true, if_false]
    unfold startFetched
    rw [Prog.bind_ok (git_ok (hs _ _)), Prog.bind_ok (hc _), Prog.bind_ok (hL _), hd,
      Prog.bind_ok (liftExcept_ok _ _ _)]
    simp only
    rw [Prog.bind_ok (hasRemoteBranch_of base cfg repo _ _ R (hR _))]
    by_cases hrem : (base.remote cfg).Name ∈ R
    · have hrem' : inList R (base.remote cfg).Name = true := (inList_iff _ _).mpr hrem
      simp only [hrem', Bool.not_true, Bool.false_eq_true, if_false]
      rw [Prog.bind_ok (hp _)]
      cases p with
      | true =>
        simp only [if_true]
        refine ⟨"cannot start; unpushed changes on base branch must be pushed upstream".toList,
          [statusQuery, ["fetch".toList, cfg.RemoteName, "--prune".toList],
          currentBranchQuery, branchesQuery, remoteBranchesQuery, unpushedQuery base cfg],
          by rw [Prog.pure_run]; simp, ?_, fun h => absurd h hdirty⟩
        intro x hx
        simp only [List.mem_cons, List.mem_singleton, List.not_mem_nil, or_false] at hx
        rcases hx with h | h | h | h | h | h <;> rw [h] <;> assumption
      | false =>
        simp only [Bool.false_eq_true, if_false]
        have hsub : u = true ∧ tree = [] := by
          rcases herr with h | h | h | h
          · exact absurd h hdirty
          · exact absurd hrem h
          · exact absurd h (by simp)
          · exact h
        obtain ⟨hu1, ht⟩ := hsub
        subst hu1
        rw [Prog.bind_ok (uncommittedSubdir_true repo hs _), htree, ht]
        simp only [decide_True, if_true]
        refine ⟨"cannot start; current working dir is an uncommitted subdir".toList,
          [statusQuery, ["fetch".toList, cfg.RemoteName, "--prune".toList],
          currentBranchQuery, branchesQuery, remoteBranchesQuery, unpushedQuery base cfg,
          lsTreeQuery], by rw [Prog.pure_run]; simp, ?_, fun h => absurd ⟨rfl, h.2⟩ hdirty⟩
        intro x hx
        simp only [List.mem_cons, List.mem_singleton, List.not_mem_nil, or_false] at hx
        rcases hx with h | h | h | h | h | h | h <;> rw [h] <;> assumption
    · have hrem' : inList R (base.remote cfg).Name = false := by
        rw [← Bool.not_eq_true, inList_iff]; exact hrem
      simp only [hrem', Bool.not_false, if_true]
      refine ⟨"remote branch is missing".toList,
        [statusQuery, ["fetch".toList, cfg.RemoteName, "--prune".toList],
        currentBranchQuery, branchesQuery, remoteBranchesQuery],
        by rw [Prog.pure_run]; simp, ?_, fun h => absurd h hdirty⟩
      intro x hx
      simp only [List.mem_cons, List.mem_singleton, List.not_mem_nil, or_false] at hx
      rcases hx with h | h | h | h | h <;> rw [h] <;> assumption

/-- C15 (witness): a dirty working tree on `main` without
`StartIncludeUncommittedChanges`: `start` returns its error after the three
queries; and with `StartIncludeUncommittedChanges` in a directory that holds
no file of `HEAD`, it returns its error after the listing of the tree. -/
theorem start_aborts_without_mutation_witness :
    start idleExternal scenarioConfiguration (baseRepo " M f.txt".toList) [] =
      ([statusQuery, unstagedQuery, untrackedQuery],
        .ok (some "cannot start; clean working tree required".toList)) ∧
    start idleExternal { scenarioConfiguration with StartIncludeUncommittedChanges := true }
        (baseRepo " M f.txt".toList) [] =
      ([statusQuery, ["fetch".toList, "origin".toList, "--prune".toList], currentBranchQuery,
        branchesQuery, remoteBranchesQuery,
        unpushedQuery ⟨"main".toList⟩ scenarioConfiguration, lsTreeQuery],
        .ok (some "cannot start; current working dir is an uncommitted subdir".toList)) ∧
    ∃ e new, start idleExternal scenarioConfiguration (baseRepo " M f.txt".toList) [] =
        ([] ++ new, .ok (some e)) ∧
      (∀ x ∈ new, isMutating x = false) ∧
      ((true = true ∧ scenarioConfiguration.StartIncludeUncommittedChanges = false) →
        new = [statusQuery, unstagedQuery, untrackedQuery]) :=
  ⟨by decide, by decide,
    start_aborts_without_mutation idleExternal scenarioConfiguration
      (baseRepo " M f.txt".toList) [] ⟨"main".toList⟩ ⟨"main".toList⟩ ⟨"mob/main".toList⟩
      ["main".toList] ["origin/main".toList] true false []
      (constRepo_succeeds _)
      (constRepo_uncommitted _ _ _ rfl (by decide))
      (constRepo_onBranch _ _ _ rfl (by decide))
      (constRepo_localBranches _ _ _ rfl (by decide))
      (constRepo_remoteBranches _ _ _ rfl (by decide))
      (by decide)
      (fun _ => rfl)
      (fun _ => rfl)
      (Or.inl ⟨rfl, by decide⟩)⟩

/-- C15 (counterexample): with a clean working tree in a directory that holds
no file of `HEAD` (an uncommitted subdirectory: the listing of the tree is
empty), every command succeeding, `start` does not list the tree, returns no
error and issues `checkout -B` and `push`; and with a dirty working tree
without `StartIncludeUncommittedChanges` it issues, besides the status, the
queries `diff --stat` and `ls-files --others`. -/
theorem start_proceeds_in_clean_uncommitted_subdir :
    (hasUncommittedChanges (baseRepo []) []).2 = .ok false ∧
    trimSpace (baseRepo [] [] lsTreeQuery).output = [] ∧
    start idleExternal scenarioConfiguration (baseRepo []) [] =
      ([statusQuery, ["fetch".toList, "origin".toList, "--prune".toList], currentBranchQuery,
        branchesQuery, remoteBranchesQuery,
        unpushedQuery ⟨"main".toList⟩ scenarioConfiguration, currentBranchQuery, branchesQuery,
        ["merge".toList, "FETCH_HEAD".toList, "--ff-only".toList], remoteBranchesQuery,
        currentBranchQuery, branchesQuery, remoteBranchesQuery, currentBranchQuery,
        branchesQuery,
        ["checkout".toList, "-B".toList, "mob/main".toList, "origin/main".toList],
        ["push".toList, "--no-verify".toList, "--set-upstream".toList, "origin".toList,
          "mob/main".toList],
        ["--no-pager".toList, "log".toList, "main..mob/main".toList,
          "--pretty=format:%h %cr <%an>".toList, "--abbrev-commit".toList]], .ok none) ∧
    lsTreeQuery ∉ (start idleExternal scenarioConfiguration (baseRepo []) []).1 ∧
    isMutating ["checkout".toList, "-B".toList, "mob/main".toList, "origin/main".toList] =
      true ∧
    isMutating ["push".toList, "--no-verify".toList, "--set-upstream".toList, "origin".toList,
      "mob/main".toList] = true ∧
    (start idleExternal scenarioConfiguration (baseRepo " M f.txt".toList) []).1 =
      [statusQuery, unstagedQuery, untrackedQuery] ∧
    unstagedQuery ≠ statusQuery ∧ untrackedQuery ≠ statusQuery := by
  decide

/-! ### Programs that return -/

theorem Runs.run {α : Type} {repo : Repo} {S : Cmd → Prop} {m : Prog α} (h : Runs repo S m)
    (t : List Cmd) : ∃ new a, m repo t = (t ++ new, .ok a) ∧ ∀ x ∈ new, S x := h t

theorem runs_pure {α : Type} (repo : Repo) (S : Cmd → Prop) (a : α) :
    Runs repo S (Pure.pure a : Prog α) :=
  fun t => ⟨[], a, by rw [Prog.pure_run, List.append_nil], by simp⟩

theorem runs_bind {α β : Type} {repo : Repo} {S : Cmd → Prop} {m : Prog α} {f : α → Prog β}
    (hm : Runs repo S m) (hf : ∀ a, Runs repo S (f a)) : Runs repo S (m >>= f) := by
  intro t
  obtain ⟨n1, a, h1, s1⟩ := hm t
  obtain ⟨n2, b, h2, s2⟩ := hf a (t ++ n1)
  refine ⟨n1 ++ n2, b, ?_, ?_⟩
  · rw [Prog.bind_ok h1, h2, List.append_assoc]
  · intro x hx
    rcases List.mem_append.mp hx with h | h
    · exact s1 x h
    · exact s2 x h

theorem runs_silentgit {repo : Repo} {S : Cmd → Prop} {args : Cmd}
    (hs : ∀ t, (repo t args).failed = false) (hS : S args) : Runs repo S (silentgit args) :=
  fun t => ⟨[args], _, silentgit_ok (hs t), by simpa using hS⟩

theorem runs_git {repo : Repo} {S : Cmd → Prop} {args : Cmd}
    (hs : ∀ t, (repo t args).failed = false) (hS : S args) : Runs repo S (git args) :=
  fun t => ⟨[args], _, git_ok (hs t), by simpa using hS⟩

theorem runs_silentgitignorefailure {repo : Repo} {S : Cmd → Prop} {args : Cmd} (hS : S args) :
    Runs repo S (silentgitignorefailure args) := by
  intro t
  obtain ⟨out, h⟩ := silentgitignorefailure_run args repo t
  exact ⟨[args], out, h, by simpa using hS⟩

theorem runs_of_eval {α : Type} {repo : Repo} {S : Cmd → Prop} {m : Prog α} {q : Cmd} {a : α}
    (h : ∀ t, m repo t = (t ++ [q], .ok a)) (hS : S q) : Runs repo S m :=
  fun t => ⟨[q], a, h t, by simpa using hS⟩

theorem runs_liftExcept_ok {α : Type} (repo : Repo) (S : Cmd → Prop) (a : α) :
    Runs repo S (liftExcept (.ok a)) :=
  fun t => ⟨[], a, by rw [liftExcept_ok, List.append_nil], by simp⟩

theorem headIn_cons (words : List Str) (h : Str) (rest : List Str) (hw : h ∈ words) :
    headIn words (h :: rest) = true := by
  unfold headIn
  simp [hw]

theorem deleteEmptyStrings_cons (h : Str) (rest : List Str) (hne : h ≠ []) :
    deleteEmptyStrings (h :: rest) = h :: deleteEmptyStrings rest := by
  unfold deleteEmptyStrings
  rw [List.filter_cons_of_pos (by simpa using hne)]

/-- Under success of its commands, `makeWipCommit` returns, and its commands
start with one of the words `add`, `status`, `rev-parse`, `commit`, `diff`. -/
theorem runs_makeWipCommit (ext : External) (cfg : Configuration) (repo : Repo)
    (S : Cmd → Prop)
    (hs : ∀ x, headIn wipCommitWords x = true → ∀ t, (repo t x).failed = false)
    (hS : ∀ x, headIn wipCommitWords x = true → S x) :
    Runs repo S (makeWipCommit ext cfg) := by
  have w1 : headIn wipCommitWords ["add".toList, "--all".toList] = true := by decide
  have w2 : headIn wipCommitWords ["status".toList, "--short".toList] = true := by decide
  have w3 : headIn wipCommitWords gitDirQuery = true := by decide
  have w4 : ∀ msg : Str, headIn wipCommitWords (deleteEmptyStrings
      ["commit".toList, "--message".toList, msg, cfg.gitHooksOption]) = true := by
    intro msg
    rw [deleteEmptyStrings_cons _ _ (by decide)]
    exact headIn_cons _ _ _ (by decide)
  have w5 : headIn wipCommitWords ["diff".toList, "HEAD^1".toList, "--stat".toList] = true := by
    decide
  have w6 : headIn wipCommitWords ["rev-parse".toList, "HEAD".toList] = true := by decide
  unfold makeWipCommit
  apply runs_bind (runs_git (hs _ w1) (hS _ w1))
  intro _
  apply runs_bind
  · unfold createWipCommitMessage
    apply runs_bind
    · unfold getPathOfLastModifiedFile
      apply runs_bind
      · unfold getModifiedFiles
        exact runs_bind (runs_silentgit (hs _ w2) (hS _ w2)) (fun _ => runs_pure _ _ _)
      · intro files
        apply runs_bind
        · unfold gitRootDir gitDir
          exact runs_bind (runs_silentgit (hs _ w3) (hS _ w3)) (fun _ => runs_pure _ _ _)
        · intro root
          split
          · exact runs_pure _ _ _
          · exact runs_pure _ _ _
    · intro path
      split
      · exact runs_pure _ _ _
      · exact runs_pure _ _ _
  · intro msg
    apply runs_bind
    · unfold gitWithoutEmptyStrings
      exact runs_git (hs _ (w4 msg)) (hS _ (w4 msg))
    · intro _
      apply runs_bind
      · unfold getChangesOfLastCommit
        exact runs_silentgit (hs _ w5) (hS _ w5)
      · intro _
        apply runs_bind
        · unfold gitCommitHash
          exact runs_silentgitignorefailure (hS _ w6)
        · intro _
          exact runs_pure _ _ _

/-- Under the snapshot of the branches and success of the log query,
`showNext` returns and issues only its queries. -/
theorem runs_showNext (cfg : Configuration) (repo : Repo) (S : Cmd → Prop) (c : Branch)
    (L : List Str) (hc : repo.OnBranch c) (hL : repo.LocalBranches L)
    (hs : ∀ x, headIn ["--no-pager".toList] x = true → ∀ t, (repo t x).failed = false)
    (hS1 : S userNameQuery) (hS2 : S currentBranchQuery) (hS3 : S branchesQuery)
    (hS4 : ∀ x, headIn ["--no-pager".toList] x = true → S x) :
    Runs repo S (showNext cfg) := by
  unfold showNext
  apply runs_bind
  · unfold gitUserName
    exact runs_silentgitignorefailure hS1
  · intro name
    split
    · exact runs_pure _ _ _
    · apply runs_bind (runs_of_eval hc hS2)
      intro c1
      apply runs_bind (runs_of_eval hL hS3)
      intro L1
      obtain ⟨base, wip, hd⟩ := determineBranches_ok c1 L1 cfg
      rw [hd]
      apply runs_bind (runs_liftExcept_ok _ _ _)
      intro p
      have w : headIn ["--no-pager".toList] ["--no-pager".toList, "log".toList,
          p.1.Name ++ "..".toList ++ p.2.Name, "--pretty=format:%an".toList,
          "--abbrev-commit".toList] = true := headIn_cons _ _ _ (by decide)
      exact runs_bind (runs_silentgit (hs _ w) (hS4 _ w)) (fun _ => runs_pure _ _ _)

/-! ### next in a session -/

theorem isMobProgramming_of (cfg : Configuration) (repo : Repo) (c base wip : Branch)
    (L : List Str) (hc : repo.OnBranch c) (hL : repo.LocalBranches L)
    (hd : determineBranches c L cfg = .ok (base, wip)) (t : List Cmd) :
    isMobProgramming cfg repo t =
      (t ++ [currentBranchQuery] ++ [branchesQuery], .ok (decide (wip = c))) := by
  unfold isMobProgramming
  rw [Prog.bind_ok (hc _), Prog.bind_ok (hL _), hd, Prog.bind_ok (liftExcept_ok _ _ _)]
  rfl

theorem isNothingToCommit_of (repo : Repo) (u : Bool) (hu : repo.Uncommitted u)
    (t : List Cmd) : isNothingToCommit repo t = (t ++ [statusQuery], .ok (!u)) := by
  have h := hu t
  unfold hasUncommittedChanges at h
  obtain ⟨t0, a, h1, h2⟩ := Prog.bind_ok_inv h
  have h3 : (t0, (Res.ok (!a) : Res Bool)) = (t ++ [statusQuery], Res.ok u) := h2
  have e1 := (Prod.mk.inj h3).1
  have e2 : (!a) = u := by
    have := (Prod.mk.inj h3).2
    injection this
  rw [h1, e1, ← e2, Bool.not_not]

theorem commitMessageRequired_of (ext : External) (cfg : Configuration) (repo : Repo)
    (hu : repo.Uncommitted false) (t : List Cmd) :
    ∃ new, commitMessageRequired ext cfg repo t = (t ++ new, .ok false) ∧
      ∀ x ∈ new, isMutating x = false := by
  unfold commitMessageRequired
  split
  · exact ⟨[statusQuery], hu t, by decide⟩
  · exact ⟨[], by rw [Prog.pure_run, List.append_nil], by simp⟩

/-- C18 (as amended): in an active session, when there is nothing to commit
and `hasLocalCommits` is false for the wip branch (its local ref and the ref
of its remote counterpart are the same commit), every command succeeding,
`next` issues only commands that are no commit, push, checkout, merge, stash,
reset or branch delete, and then checks out the base branch if and only if
`NextStay` is not set. -/
theorem next_nothing_to_do (ext : External) (cfg : Configuration) (repo : Repo)
    (t : List Cmd) (c base : Branch) (L : List Str)
    (hs : repo.Succeeds) (hc : repo.OnBranch c) (hL : repo.LocalBranches L)
    (hd : determineBranches c L cfg = .ok (base, c))
    (hu : repo.Uncommitted false)
    (hlc : ∀ t1, c.hasLocalCommits cfg repo t1 =
      (t1 ++ [localRefQuery c, remoteRefQuery c cfg], .ok false)) :
    ∃ mid, next ext cfg repo t =
        (t ++ mid ++ (if cfg.NextStay = true then [] else [["checkout".toList, base.Name]]),
          .ok ()) ∧
      ∀ x ∈ mid, isMutating x = false := by
  have m1 : isMutating currentBranchQuery = false := by decide
  have m2 : isMutating branchesQuery = false := by decide
  have m3 : isMutating statusQuery = false := by decide
  have m4 : isMutating (localRefQuery c) = false := isMutating_cons _ _ (by decide) (by decide)
  have m5 : isMutating (remoteRefQuery c cfg) = false :=
    isMutating_cons _ _ (by decide) (by decide)
  have m6 : isMutating userNameQuery = false := by decide
  have m7 : ∀ x, headIn ["--no-pager".toList] x = true → isMutating x = false := by
    intro x hx
    cases x with
    | nil => simp [headIn] at hx
    | cons h rest =>
      have hh : h = "--no-pager".toList := by
        unfold headIn at hx
        simpa using hx
      rw [hh]
      exact isMutating_cons _ _ (by decide) (by decide)
  obtain ⟨r, hr, hrm⟩ := commitMessageRequired_of ext cfg repo hu
    (t ++ [currentBranchQuery] ++ [branchesQuery])
  obtain ⟨shown, _, hshow, hshowm⟩ :=
    runs_showNext cfg repo (fun x => isMutating x = false) c L hc hL
      (fun x _ t1 => hs t1 x) m6 m1 m2 m7
      (t ++ [currentBranchQuery] ++ [branchesQuery] ++ r ++ [currentBranchQuery] ++
        [branchesQuery] ++ [statusQuery] ++ [localRefQuery c, remoteRefQuery c cfg])
  have hcp : nextCommitAndPush ext cfg c repo
      (t ++ [currentBranchQuery] ++ [branchesQuery] ++ r ++ [currentBranchQuery] ++
        [branchesQuery]) =
      (t ++ [currentBranchQuery] ++ [branchesQuery] ++ r ++ [currentBranchQuery] ++
        [branchesQuery] ++ [statusQuery] ++ [localRefQuery c, remoteRefQuery c cfg],
        .ok ()) := by
    unfold nextCommitAndPush
    rw [Prog.bind_ok (isNothingToCommit_of repo false hu _)]
    simp only [Bool.not_false, if_true]
    rw [Prog.bind_ok (hlc _)]
    rfl
  refine ⟨[currentBranchQuery] ++ [branchesQuery] ++ r ++ [currentBranchQuery] ++
    [branchesQuery] ++ [statusQuery] ++ [localRefQuery c, remoteRefQuery c cfg] ++ shown,
    ?_, ?_⟩
  · unfold next
    rw [Prog.bind_ok (isMobProgramming_of cfg repo c base c L hc hL hd t)]
    simp only [decide_True, Bool.not_true, Bool.false_eq_true, if_false]
    rw [Prog.bind_ok hr]
    simp only [Bool.false_eq_true, if_false]
    unfold nextInSession
    rw [Prog.bind_ok (hc _), Prog.bind_ok (hL _), hd, Prog.bind_ok (liftExcept_ok _ _ _)]
    simp only
    rw [Prog.bind_ok hcp, Prog.bind_ok hshow]
    cases hstay : cfg.NextStay with
    | true =>
      simp only [Bool.not_true, Bool.false_eq_true, if_false, if_true]
      rw [Prog.pure_run]
      simp [List.append_assoc]
    | false =>
      simp only [Bool.not_false, if_true, Bool.false_eq_true, if_false]
      rw [git_ok (hs _ _)]
      simp [List.append_assoc]
  · intro x hx
    simp only [List.mem_append, List.mem_cons, List.mem_singleton, List.not_mem_nil,
      or_false] at hx
    rcases hx with ((((((h | h) | h) | h) | h) | h) | h | h) | h
    · rw [h]; exact m1
    · rw [h]; exact m2
    · exact hrm x h
    · rw [h]; exact m1
    · rw [h]; exact m2
    · rw [h]; exact m3
    · rw [h]; exact m4
    · rw [h]; exact m5
    · exact hshowm x h

theorem constRepo_localCommits (answers : Cmd → Str) (fails : Cmd → Bool) (b : Branch)
    (cfg : Configuration) (v : Bool)
    (hf1 : fails (localRefQuery b) = false) (hf2 : fails (remoteRefQuery b cfg) = false)
    (hv : decide (trimSpace (answers (localRefQuery b)) ≠
      trimSpace (answers (remoteRefQuery b cfg))) = v) (t : List Cmd) :
    b.hasLocalCommits cfg (constRepo answers fails) t =
      (t ++ [localRefQuery b, remoteRefQuery b cfg], .ok v) := by
  unfold Branch.hasLocalCommits
  rw [Prog.bind_ok (@silentgit_ok _ (constRepo answers fails) _ hf1),
    Prog.bind_ok (@silentgit_ok _ (constRepo answers fails) _ hf2), ← hv, Prog.pure_run]
  simp [constRepo]

/-- C18 (witness): in the session on `mob/main` with nothing to commit and
`NextStay` set, `next` issues nine queries and no other command. -/
theorem next_nothing_to_do_witness :
    next idleExternal scenarioConfiguration (sessionRepo [] (fun _ => false)) [] =
      ([currentBranchQuery, branchesQuery, currentBranchQuery, branchesQuery, statusQuery,
        localRefQuery ⟨"mob/main".toList⟩,
        remoteRefQuery ⟨"mob/main".toList⟩ scenarioConfiguration, userNameQuery], .ok ()) ∧
    ∃ mid, next idleExternal scenarioConfiguration (sessionRepo [] (fun _ => false)) [] =
        ([] ++ mid ++ (if scenarioConfiguration.NextStay = true then []
          else [["checkout".toList, (⟨"main".toList⟩ : Branch).Name]]), .ok ()) ∧
      ∀ x ∈ mid, isMutating x = false :=
  ⟨by decide,
    next_nothing_to_do idleExternal scenarioConfiguration (sessionRepo [] (fun _ => false)) []
      ⟨"mob/main".toList⟩ ⟨"main".toList⟩ ["main".toList, "mob/main".toList]
      (constRepo_succeeds _)
      (constRepo_onBranch _ _ _ rfl (by decide))
      (constRepo_localBranches _ _ _ rfl (by decide))
      (by decide)
      (constRepo_uncommitted _ _ _ rfl (by decide))
      (constRepo_localCommits _ _ _ _ _ rfl rfl (by decide))⟩

/-- C18 (counterexample): in the session on `mob/main` with nothing to commit.
First, the local wip branch behind its remote counterpart: no commit of the
local branch is missing from the remote one, but the two refs differ, so
`next` issues a push, which is rejected, and the run ends with exit code 1.
Second, the two refs equal but `NextStay` not set: `next` checks out the base
branch `main`. -/
theorem next_nothing_to_commit_mutates :
    (isMobProgramming scenarioConfiguration behindRepo []).2 = .ok true ∧
    (isNothingToCommit behindRepo []).2 = .ok true ∧
    ((⟨"mob/main".toList⟩ : Branch).hasUnpushedCommits scenarioConfiguration behindRepo
      []).2 = .ok false ∧
    ((⟨"mob/main".toList⟩ : Branch).hasLocalCommits scenarioConfiguration behindRepo
      []).2 = .ok true ∧
    next idleExternal scenarioConfiguration behindRepo [] =
      ([currentBranchQuery, branchesQuery, currentBranchQuery, branchesQuery, statusQuery,
        localRefQuery ⟨"mob/main".toList⟩,
        remoteRefQuery ⟨"mob/main".toList⟩ scenarioConfiguration,
        ["push".toList, "--no-verify".toList, "origin".toList, "mob/main".toList],
        ["rev-parse".toList]], .exit 1) ∧
    isMutating ["push".toList, "--no-verify".toList, "origin".toList, "mob/main".toList] =
      true ∧
    (isMobProgramming { scenarioConfiguration with NextStay := false }
      (sessionRepo [] (fun _ => false)) []).2 = .ok true ∧
    (isNothingToCommit (sessionRepo [] (fun _ => false)) []).2 = .ok true ∧
    ((⟨"mob/main".toList⟩ : Branch).hasLocalCommits { scenarioConfiguration with NextStay := false }
      (sessionRepo [] (fun _ => false)) []).2 = .ok false ∧
    next idleExternal { scenarioConfiguration with NextStay := false }
        (sessionRepo [] (fun _ => false)) [] =
      ([currentBranchQuery, branchesQuery, currentBranchQuery, branchesQuery, statusQuery,
        localRefQuery ⟨"mob/main".toList⟩,
        remoteRefQuery ⟨"mob/main".toList⟩ scenarioConfiguration, userNameQuery,
        ["checkout".toList, "main".toList]], .ok ()) ∧
    isMutating ["checkout".toList, "main".toList] = true := by
  decide

/-! ### done -/

theorem remoteDeleteCommand_cons (cfg : Configuration) (wip : Branch) :
    remoteDeleteCommand cfg wip =
      "push".toList :: deleteEmptyStrings [cfg.gitHooksOption, cfg.RemoteName,
        "--delete".toList, wip.Name] := by
  unfold remoteDeleteCommand
  exact deleteEmptyStrings_cons _ _ (by decide)

theorem isDoneCleanup_cons (cfg : Configuration) (wip : Branch) (h : Str) (rest : List Str)
    (h1 : h ≠ "branch".toList) (h2 : h ≠ "reset".toList) (h3 : h ≠ "push".toList) :
    isDoneCleanup cfg wip (h :: rest) = false := by
  unfold isDoneCleanup
  have e1 : isBranchDelete (h :: rest) = false :=
    isBranchDelete_of_head _ (fun e => h1 (Option.some.inj e))
  have e2 : headIn ["reset".toList] (h :: rest) = false := by
    unfold headIn
    simp only [List.head?_cons]
    exact decide_eq_false (by simpa using h2)
  have e3 : ¬ (h :: rest = remoteDeleteCommand cfg wip) := by
    rw [remoteDeleteCommand_cons]
    intro e
    exact h3 (List.cons.inj e).1
  rw [e1, e2, decide_eq_false e3]
  rfl

theorem isDoneCleanup_branch (cfg : Configuration) (wip : Branch) (rest : List Str)
    (h : isBranchDelete ("branch".toList :: rest) = false) :
    isDoneCleanup cfg wip ("branch".toList :: rest) = false := by
  unfold isDoneCleanup
  have e2 : headIn ["reset".toList] ("branch".toList :: rest) = false := by
    unfold headIn
    simp only [List.head?_cons]
    exact decide_eq_false (by decide)
  have e3 : ¬ ("branch".toList :: rest = remoteDeleteCommand cfg wip) := by
    rw [remoteDeleteCommand_cons]
    intro e
    exact absurd (List.cons.inj e).1 (by decide)
  rw [h, e2, decide_eq_false e3]
  rfl

theorem deleteEmptyStrings_length (a b : List Str) (d : Str) (hd : d ≠ []) :
    (deleteEmptyStrings (a ++ d :: b)).length = (deleteEmptyStrings (a ++ b)).length + 1 := by
  unfold deleteEmptyStrings
  rw [List.filter_append, List.filter_append, List.filter_cons_of_pos (by simpa using hd)]
  simp only [List.length_append, List.length_cons]
  omega

theorem isDoneCleanup_push (cfg : Configuration) (wip : Branch) :
    isDoneCleanup cfg wip (deleteEmptyStrings
      ["push".toList, cfg.gitHooksOption, cfg.RemoteName, wip.Name]) = false := by
  have hlen := deleteEmptyStrings_length ["push".toList, cfg.gitHooksOption, cfg.RemoteName]
    [wip.Name] "--delete".toList (by decide)
  have e3 : ¬ (deleteEmptyStrings ["push".toList, cfg.gitHooksOption, cfg.RemoteName,
      wip.Name] = remoteDeleteCommand cfg wip) := by
    intro e
    unfold remoteDeleteCommand at e
    have := congrArg List.length e
    simp only [List.cons_append, List.nil_append] at hlen
    omega
  unfold isDoneCleanup
  rw [decide_eq_false e3, deleteEmptyStrings_cons _ _ (by decide)]
  have e1 : isBranchDelete ("push".toList :: deleteEmptyStrings
      [cfg.gitHooksOption, cfg.RemoteName, wip.Name]) = false :=
    isBranchDelete_of_head _ (by simp)
  have e2 : headIn ["reset".toList] ("push".toList :: deleteEmptyStrings
      [cfg.gitHooksOption, cfg.RemoteName, wip.Name]) = false := by
    unfold headIn
    simp only [List.head?_cons]
    exact decide_eq_false (by decide)
  rw [e1, e2]
  rfl

theorem isWipMerge_of_head (x : Cmd) (h : x.head? ≠ some "merge".toList) :
    isWipMerge x = false := by
  unfold isWipMerge
  rw [decide_eq_false h]
  rfl

theorem head_of_headIn (words : List Str) (x : Cmd) (h : headIn words x = true) :
    ∃ w rest, x = w :: rest ∧ w ∈ words := by
  cases x with
  | nil => simp [headIn] at h
  | cons w rest =>
    refine ⟨w, rest, rfl, ?_⟩
    unfold headIn at h
    simpa using h

theorem isWipMerge_wipCommit (x : Cmd) (h : headIn wipCommitWords x = true) :
    isWipMerge x = false := by
  obtain ⟨w, rest, rfl, hw⟩ := head_of_headIn _ _ h
  apply isWipMerge_of_head
  simp only [List.head?_cons]
  intro e
  have := Option.some.inj e
  subst this
  exact absurd hw (by decide)

theorem isDoneCleanup_wipCommit (cfg : Configuration) (wip : Branch) (x : Cmd)
    (h : headIn wipCommitWords x = true) : isDoneCleanup cfg wip x = false := by
  obtain ⟨w, rest, rfl, hw⟩ := head_of_headIn _ _ h
  apply isDoneCleanup_cons
  · intro e; subst e; exact absurd hw (by decide)
  · intro e; subst e; exact absurd hw (by decide)
  · intro e; subst e; exact absurd hw (by decide)

theorem wipCommitStep_run (ext : External) (cfg : Configuration) (repo : Repo) (u : Bool)
    (hok : ∀ t1 x, isWipMerge x = false → (repo t1 x).failed = false) (t : List Cmd) :
    ∃ wc, ((if u = true then makeWipCommit ext cfg else Pure.pure ()) : Prog Unit) repo t =
        (t ++ wc, .ok ()) ∧
      (∀ x ∈ wc, headIn wipCommitWords x = true) ∧ (u = false → wc = []) := by
  cases u with
  | true =>
    obtain ⟨wc, _, h, hS⟩ := runs_makeWipCommit ext cfg repo
      (fun x => headIn wipCommitWords x = true)
      (fun x hx t1 => hok t1 x (isWipMerge_wipCommit x hx)) (fun _ hx => hx) t
    exact ⟨wc, by simpa using h, hS, by simp⟩
  | false =>
    exact ⟨[], by simp [Prog.pure_run], by simp, fun _ => rfl⟩

/-- C13: scenario D. In an active session on the wip branch `c` with a remote
counterpart, when the merge of the wip branch fails and the other commands
succeed, then whatever the configuration (every `DoneSquash` mode) and whether
or not there are uncommitted changes (`u`), `done` returns right after the
failed merge, and none of the commands it issues after the optional
`squashWip` step is the deletion of a local branch, a reset, or the deletion
of the wip branch on the remote. -/
theorem done_merge_conflict_keeps_branches (ext : External) (cfg : Configuration)
    (repo : Repo) (t t0 : List Cmd) (c base : Branch) (L R : List Str) (u : Bool)
    (hok : ∀ t1 x, isWipMerge x = false → (repo t1 x).failed = false)
    (hfail : ∀ t1 x, isWipMerge x = true → (repo t1 x).failed = true)
    (hc : repo.OnBranch c) (hL : repo.LocalBranches L) (hR : repo.RemoteBranches R)
    (hu : repo.Uncommitted u)
    (hd : determineBranches c L cfg = .ok (base, c))
    (hrem : (c.remote cfg).Name ∈ R)
    (hsq : squashStep ext cfg repo (t ++ [currentBranchQuery] ++ [branchesQuery]) =
      (t0, .ok ())) :
    ∃ new, done ext cfg repo t = (t0 ++ new ++ [wipMergeCommand cfg c], .ok ()) ∧
      ∀ x ∈ new ++ [wipMergeCommand cfg c], isDoneCleanup cfg c x = false := by
  have k1 : isWipMerge ["fetch".toList, cfg.RemoteName, "--prune".toList] = false :=
    isWipMerge_of_head _ (by simp)
  have k2 : isWipMerge (deleteEmptyStrings
      ["push".toList, cfg.gitHooksOption, cfg.RemoteName, c.Name]) = false := by
    rw [deleteEmptyStrings_cons _ _ (by decide)]
    exact isWipMerge_of_head _ (by simp)
  have k3 : isWipMerge ["checkout".toList, base.Name] = false :=
    isWipMerge_of_head _ (by simp)
  have k4 : isWipMerge ["merge".toList, (base.remote cfg).Name, "--ff-only".toList] = false := by
    unfold isWipMerge
    simp
  have k5 : isWipMerge (wipMergeCommand cfg c) = true := by
    unfold isWipMerge wipMergeCommand
    simp
  have d1 : isDoneCleanup cfg c ["fetch".toList, cfg.RemoteName, "--prune".toList] = false :=
    isDoneCleanup_cons _ _ _ _ (by decide) (by decide) (by decide)
  have d2 : isDoneCleanup cfg c currentBranchQuery = false :=
    isDoneCleanup_cons _ _ _ _ (by decide) (by decide) (by decide)
  have d3 : isDoneCleanup cfg c branchesQuery = false :=
    isDoneCleanup_branch _ _ _ (by decide)
  have d4 : isDoneCleanup cfg c remoteBranchesQuery = false :=
    isDoneCleanup_branch _ _ _ (by decide)
  have d5 : isDoneCleanup cfg c statusQuery = false :=
    isDoneCleanup_cons _ _ _ _ (by decide) (by decide) (by decide)
  have d6 := isDoneCleanup_push cfg c
  have d7 : isDoneCleanup cfg c ["checkout".toList, base.Name] = false :=
    isDoneCleanup_cons _ _ _ _ (by decide) (by decide) (by decide)
  have d8 : isDoneCleanup cfg c
      ["merge".toList, (base.remote cfg).Name, "--ff-only".toList] = false :=
    isDoneCleanup_cons _ _ _ _ (by decide) (by decide) (by decide)
  have d9 : isDoneCleanup cfg c (wipMergeCommand cfg c) = false :=
    isDoneCleanup_cons _ _ _ _ (by decide) (by decide) (by decide)
  have hrem' : inList R (c.remote cfg).Name = true := (inList_iff _ _).mpr hrem
  obtain ⟨wc, hwc, hwcS, _⟩ := wipCommitStep_run ext cfg repo u hok
    (t0 ++ [["fetch".toList, cfg.RemoteName, "--prune".toList]] ++ [currentBranchQuery] ++
      [branchesQuery] ++ [remoteBranchesQuery] ++ [statusQuery])
  refine ⟨[["fetch".toList, cfg.RemoteName, "--prune".toList]] ++ [currentBranchQuery] ++
      [branchesQuery] ++ [remoteBranchesQuery] ++ [statusQuery] ++ wc ++
      [deleteEmptyStrings ["push".toList, cfg.gitHooksOption, cfg.RemoteName, c.Name]] ++
      [["checkout".toList, base.Name]] ++
      [["merge".toList, (base.remote cfg).Name, "--ff-only".toList]], ?_, ?_⟩
  · unfold done
    rw [Prog.bind_ok (isMobProgramming_of cfg repo c base c L hc hL hd t)]
    simp only [decide_True, Bool.not_true, Bool.false_eq_true, if_false]
    rw [Prog.bind_ok hsq]
    unfold doneFetched
    rw [Prog.bind_ok (git_ok (hok _ _ k1)), Prog.bind_ok (hc _), Prog.bind_ok (hL _), hd,
      Prog.bind_ok (liftExcept_ok _ _ _)]
    simp only
    rw [Prog.bind_ok (hasRemoteBranch_of c cfg repo _ _ R (hR _))]
    simp only [hrem', if_true]
    unfold doneMerge
    rw [Prog.bind_ok (hu _), Prog.bind_ok hwc]
    unfold gitWithoutEmptyStrings
    rw [Prog.bind_ok (git_ok (hok _ _ k2)), Prog.bind_ok (git_ok (hok _ _ k3)),
      Prog.bind_ok (git_ok (hok _ _ k4)), Prog.bind_ok (gitignorefailure_run _ _ _)]
    have hf := hfail
      (t0 ++ [["fetch".toList, cfg.RemoteName, "--prune".toList]] ++ [currentBranchQuery] ++
        [branchesQuery] ++ [remoteBranchesQuery] ++ [statusQuery] ++ wc ++
        [deleteEmptyStrings ["push".toList, cfg.gitHooksOption, cfg.RemoteName, c.Name]] ++
        [["checkout".toList, base.Name]] ++
        [["merge".toList, (base.remote cfg).Name, "--ff-only".toList]])
      (wipMergeCommand cfg c) k5
    unfold wipMergeCommand at hf
    simp only [hf, if_true]
    rw [Prog.pure_run]
    simp [List.append_assoc, wipMergeCommand]
  · intro x hx
    simp only [List.mem_append, List.mem_cons, List.mem_singleton, List.not_mem_nil,
      or_false] at hx
    rcases hx with ((((((((h | h) | h) | h) | h) | h) | h) | h) | h) | h
    · rw [h]; exact d1
    · rw [h]; exact d2
    · rw [h]; exact d3
    · rw [h]; exact d4
    · rw [h]; exact d5
    · exact isDoneCleanup_wipCommit cfg c x (hwcS x h)
    · rw [h]; exact d6
    · rw [h]; exact d7
    · rw [h]; exact d8
    · rw [h]; exact d9

/-- C13 (witness): in the session on `mob/main` with uncommitted changes, the
merge of the wip branch failing, `done` stops after the merge: no branch is
deleted and nothing is reset. -/
theorem done_merge_conflict_keeps_branches_witness :
    done idleExternal scenarioConfiguration (sessionRepo " M f.txt".toList isWipMerge) [] =
      ([currentBranchQuery, branchesQuery,
        ["fetch".toList, "origin".toList, "--prune".toList], currentBranchQuery, branchesQuery,
        remoteBranchesQuery, statusQuery, ["add".toList, "--all".toList], statusQuery,
        gitDirQuery,
        ["commit".toList, "--message".toList, "mob next [ci-skip]\n\nlastFile:f.txt".toList,
          "--no-verify".toList],
        ["diff".toList, "HEAD^1".toList, "--stat".toList], ["rev-parse".toList, "HEAD".toList],
        ["push".toList, "--no-verify".toList, "origin".toList, "mob/main".toList],
        ["checkout".toList, "main".toList],
        ["merge".toList, "origin/main".toList, "--ff-only".toList],
        ["merge".toList, "--squash".toList, "--ff".toList, "mob/main".toList]], .ok ()) ∧
    ∃ new, done idleExternal scenarioConfiguration
        (sessionRepo " M f.txt".toList isWipMerge) [] =
        ([currentBranchQuery, branchesQuery] ++ new ++
          [wipMergeCommand scenarioConfiguration ⟨"mob/main".toList⟩], .ok ()) ∧
      ∀ x ∈ new ++ [wipMergeCommand scenarioConfiguration ⟨"mob/main".toList⟩],
        isDoneCleanup scenarioConfiguration ⟨"mob/main".toList⟩ x = false :=
  ⟨by decide,
    done_merge_conflict_keeps_branches idleExternal scenarioConfiguration
      (sessionRepo " M f.txt".toList isWipMerge) [] [currentBranchQuery, branchesQuery]
      ⟨"mob/main".toList⟩ ⟨"main".toList⟩ ["main".toList, "mob/main".toList]
      ["origin/main".toList, "origin/mob/main".toList] true
      (fun _ _ h => h) (fun _ _ h => h)
      (constRepo_onBranch _ _ _ (by decide) (by decide))
      (constRepo_localBranches _ _ _ (by decide) (by decide))
      (constRepo_remoteBranches _ _ _ (by decide) (by decide))
      (constRepo_uncommitted _ _ _ (by decide) (by decide))
      (by decide) (by decide) (by decide)⟩

theorem hasUncommittedChanges_ok (repo : Repo) (t : List Cmd)
    (h : (repo t statusQuery).failed = false) :
    hasUncommittedChanges repo t =
      (t ++ [statusQuery],
        .ok (!decide ((trimSpace (repo t statusQuery).output).length = 0))) := by
  unfold hasUncommittedChanges isNothingToCommit
  rw [Prog.bind_ok (Prog.bind_ok (@silentgit_ok statusQuery repo t h))]
  rfl

theorem followingRepo_succeeds (initial merged : Str) :
    (followingRepo initial merged).Succeeds := by
  intro t args
  unfold followingRepo
  split <;> rfl

theorem followingRepo_onBranch (initial merged : Str) :
    (followingRepo initial merged).OnBranch ⟨"mob/main".toList⟩ := by
  intro t
  have h : followingRepo initial merged t currentBranchQuery = ⟨"mob/main".toList, false⟩ := by
    unfold followingRepo
    rw [if_neg (by decide)]
    rfl
  unfold gitCurrentBranch
  rw [Prog.bind_ok (@silentgit_ok currentBranchQuery _ t (by rw [h])), h]
  rfl

theorem followingRepo_localBranches (initial merged : Str) :
    (followingRepo initial merged).LocalBranches ["main".toList, "mob/main".toList] := by
  intro t
  have h : followingRepo initial merged t branchesQuery =
      ⟨"main\nmob/main".toList, false⟩ := by
    unfold followingRepo
    rw [if_neg (by decide)]
    rfl
  unfold gitBranches
  rw [Prog.bind_ok (@silentgit_ok branchesQuery _ t (by rw [h])), h]
  rfl

theorem followingRepo_remoteBranches (initial merged : Str) :
    (followingRepo initial merged).RemoteBranches
      ["origin/main".toList, "origin/mob/main".toList] := by
  intro t
  have h : followingRepo initial merged t remoteBranchesQuery =
      ⟨"origin/main\norigin/mob/main".toList, false⟩ := by
    unfold followingRepo
    rw [if_neg (by decide)]
    rfl
  unfold gitRemoteBranches
  rw [Prog.bind_ok (@silentgit_ok remoteBranchesQuery _ t (by rw [h])), h]
  rfl

/-- C14 (as amended): in an active session on the wip branch `c` with a remote
counterpart, when every command succeeds (so the merge does), with `u` the
answer of the status that `done` reads after the fetch and before its wip
commit: up to and including the merge `done` issues no deletion of a local
branch, no reset and no deletion of the wip branch on the remote, and after
the merge it issues exactly the forced deletion of the local wip branch, a
soft reset of the last commit if and only if `u` is true and the `DoneSquash`
mode is not `squash`, the deletion of the wip branch on the remote, and three
queries. The status may answer differently each time it is read. -/
theorem done_merge_success_cleans_up (ext : External) (cfg : Configuration) (repo : Repo)
    (t t0 : List Cmd) (c base : Branch) (L R : List Str)
    (hs : repo.Succeeds)
    (hc : repo.OnBranch c) (hL : repo.LocalBranches L) (hR : repo.RemoteBranches R)
    (hd : determineBranches c L cfg = .ok (base, c))
    (hrem : (c.remote cfg).Name ∈ R)
    (hsq : squashStep ext cfg repo (t ++ [currentBranchQuery] ++ [branchesQuery]) =
      (t0, .ok ()))
    (hco : ∀ dir t1, ext.appendCoauthorsToSquashMsg dir repo t1 = (t1, .ok ())) :
    ∃ mid u,
      hasUncommittedChanges repo
          (t0 ++ [["fetch".toList, cfg.RemoteName, "--prune".toList], currentBranchQuery,
            branchesQuery, remoteBranchesQuery]) =
        (t0 ++ [["fetch".toList, cfg.RemoteName, "--prune".toList], currentBranchQuery,
            branchesQuery, remoteBranchesQuery] ++ [statusQuery], .ok u) ∧
      done ext cfg repo t =
        (t0 ++ mid ++ [wipMergeCommand cfg c, ["branch".toList, "-D".toList, c.Name]] ++
          (if u = true ∧ cfg.DoneSquash ≠ Squash then
            [["reset".toList, "--soft".toList, "HEAD^".toList]] else []) ++
          [remoteDeleteCommand cfg c, cachedQuery, gitDirQuery, statusQuery], .ok ()) ∧
      ∀ x ∈ mid ++ [wipMergeCommand cfg c], isDoneCleanup cfg c x = false := by
  have d1 : isDoneCleanup cfg c ["fetch".toList, cfg.RemoteName, "--prune".toList] = false :=
    isDoneCleanup_cons _ _ _ _ (by decide) (by decide) (by decide)
  have d2 : isDoneCleanup cfg c currentBranchQuery = false :=
    isDoneCleanup_cons _ _ _ _ (by decide) (by decide) (by decide)
  have d3 : isDoneCleanup cfg c branchesQuery = false :=
    isDoneCleanup_branch _ _ _ (by decide)
  have d4 : isDoneCleanup cfg c remoteBranchesQuery = false :=
    isDoneCleanup_branch _ _ _ (by decide)
  have d5 : isDoneCleanup cfg c statusQuery = false :=
    isDoneCleanup_cons _ _ _ _ (by decide) (by decide) (by decide)
  have d6 := isDoneCleanup_push cfg c
  have d7 : isDoneCleanup cfg c ["checkout".toList, base.Name] = false :=
    isDoneCleanup_cons _ _ _ _ (by decide) (by decide) (by decide)
  have d8 : isDoneCleanup cfg c
      ["merge".toList, (base.remote cfg).Name, "--ff-only".toList] = false :=
    isDoneCleanup_cons _ _ _ _ (by decide) (by decide) (by decide)
  have d9 : isDoneCleanup cfg c (wipMergeCommand cfg c) = false :=
    isDoneCleanup_cons _ _ _ _ (by decide) (by decide) (by decide)
  have hrem' : inList R (c.remote cfg).Name = true := (inList_iff _ _).mpr hrem
  have hu := hasUncommittedChanges_ok repo
    (t0 ++ [["fetch".toList, cfg.RemoteName, "--prune".toList], currentBranchQuery,
      branchesQuery, remoteBranchesQuery]) (hs _ _)
  generalize (!decide ((trimSpace (repo
    (t0 ++ [["fetch".toList, cfg.RemoteName, "--prune".toList], currentBranchQuery,
      branchesQuery, remoteBranchesQuery]) statusQuery).output).length = 0)) = u at hu
  have hu' : hasUncommittedChanges repo
      (t0 ++ [["fetch".toList, cfg.RemoteName, "--prune".toList]] ++ [currentBranchQuery] ++
        [branchesQuery] ++ [remoteBranchesQuery]) =
      (t0 ++ [["fetch".toList, cfg.RemoteName, "--prune".toList]] ++ [currentBranchQuery] ++
        [branchesQuery] ++ [remoteBranchesQuery] ++ [statusQuery], .ok u) := by
    simpa [List.append_assoc] using hu
  obtain ⟨wc, hwc, hwcS, _⟩ := wipCommitStep_run ext cfg repo u (fun t1 x _ => hs t1 x)
    (t0 ++ [["fetch".toList, cfg.RemoteName, "--prune".toList]] ++ [currentBranchQuery] ++
      [branchesQuery] ++ [remoteBranchesQuery] ++ [statusQuery])
  refine ⟨[["fetch".toList, cfg.RemoteName, "--prune".toList]] ++ [currentBranchQuery] ++
      [branchesQuery] ++ [remoteBranchesQuery] ++ [statusQuery] ++ wc ++
      [deleteEmptyStrings ["push".toList, cfg.gitHooksOption, cfg.RemoteName, c.Name]] ++
      [["checkout".toList, base.Name]] ++
      [["merge".toList, (base.remote cfg).Name, "--ff-only".toList]], u, hu, ?_, ?_⟩
  · unfold done
    rw [Prog.bind_ok (isMobProgramming_of cfg repo c base c L hc hL hd t)]
    simp only [decide_True, Bool.not_true, Bool.false_eq_true, if_false]
    rw [Prog.bind_ok hsq]
    unfold doneFetched
    rw [Prog.bind_ok (git_ok (hs _ _)), Prog.bind_ok (hc _), Prog.bind_ok (hL _), hd,
      Prog.bind_ok (liftExcept_ok _ _ _)]
    simp only
    rw [Prog.bind_ok (hasRemoteBranch_of c cfg repo _ _ R (hR _))]
    simp only [hrem', if_true]
    unfold doneMerge
    rw [Prog.bind_ok hu', Prog.bind_ok hwc]
    unfold gitWithoutEmptyStrings
    rw [Prog.bind_ok (git_ok (hs _ _)), Prog.bind_ok (git_ok (hs _ _)),
      Prog.bind_ok (git_ok (hs _ _)), Prog.bind_ok (gitignorefailure_run _ _ _)]
    simp only [hs _ _, Bool.false_eq_true, if_false]
    unfold doneMerged
    rw [Prog.bind_ok (git_ok (hs _ _))]
    have hres : ∀ t1, ((if (u && decide (cfg.DoneSquash ≠ Squash)) = true then
          git ["reset".toList, "--soft".toList, "HEAD^".toList] else Pure.pure ()) : Prog Unit)
          repo t1 =
        (t1 ++ (if u = true ∧ cfg.DoneSquash ≠ Squash then
          [["reset".toList, "--soft".toList, "HEAD^".toList]] else []), .ok ()) := by
      intro t1
      by_cases hreset : u = true ∧ cfg.DoneSquash ≠ Squash
      · have hb : (u && decide (cfg.DoneSquash ≠ Squash)) = true := by
          simp [hreset.1, hreset.2]
        rw [if_pos hb, if_pos hreset]
        exact git_ok (hs _ _)
      · have hb : ¬ ((u && decide (cfg.DoneSquash ≠ Squash)) = true) := by
          intro h
          apply hreset
          simpa using h
        rw [if_neg hb, if_neg hreset, Prog.pure_run, List.append_nil]
    unfold gitWithoutEmptyStrings getCachedChanges gitDir
    rw [Prog.bind_ok (hres _), Prog.bind_ok (git_ok (hs _ _)),
      Prog.bind_ok (silentgit_ok (hs _ _)), Prog.bind_ok (silentgit_ok (hs _ _)),
      Prog.bind_ok (hco _ _), Prog.bind_ok (hasUncommittedChanges_ok _ _ (hs _ _)),
      Prog.pure_run]
    simp [List.append_assoc, wipMergeCommand, remoteDeleteCommand]
  · intro x hx
    simp only [List.mem_append, List.mem_cons, List.mem_singleton, List.not_mem_nil,
      or_false] at hx
    rcases hx with ((((((((h | h) | h) | h) | h) | h) | h) | h) | h) | h
    · rw [h]; exact d1
    · rw [h]; exact d2
    · rw [h]; exact d3
    · rw [h]; exact d4
    · rw [h]; exact d5
    · exact isDoneCleanup_wipCommit cfg c x (hwcS x h)
    · rw [h]; exact d6
    · rw [h]; exact d7
    · rw [h]; exact d8
    · rw [h]; exact d9

/-- C14 (witness): in the session on `mob/main` with the mode `no-squash`, on a
repository whose status is dirty at first, clean after the wip commit and
shows the staged merge afterwards, `done` deletes the local wip branch, resets
the last commit softly and deletes the remote wip branch. -/
theorem done_merge_success_cleans_up_witness :
    done idleExternal { scenarioConfiguration with DoneSquash := NoSquash }
        (followingRepo " M f.txt".toList "M  f.txt".toList) [] =
      ([currentBranchQuery, branchesQuery,
        ["fetch".toList, "origin".toList, "--prune".toList], currentBranchQuery, branchesQuery,
        remoteBranchesQuery, statusQuery, ["add".toList, "--all".toList], statusQuery,
        gitDirQuery,
        ["commit".toList, "--message".toList, "mob next [ci-skip]\n\nlastFile:f.txt".toList,
          "--no-verify".toList],
        ["diff".toList, "HEAD^1".toList, "--stat".toList], ["rev-parse".toList, "HEAD".toList],
        ["push".toList, "--no-verify".toList, "origin".toList, "mob/main".toList],
        ["checkout".toList, "main".toList],
        ["merge".toList, "origin/main".toList, "--ff-only".toList],
        ["merge".toList, "--no-commit".toList, "--ff".toList, "mob/main".toList],
        ["branch".toList, "-D".toList, "mob/main".toList],
        ["reset".toList, "--soft".toList, "HEAD^".toList],
        ["push".toList, "--no-verify".toList, "origin".toList, "--delete".toList,
          "mob/main".toList],
        cachedQuery, gitDirQuery, statusQuery], .ok ()) ∧
    ∃ mid u,
      hasUncommittedChanges (followingRepo " M f.txt".toList "M  f.txt".toList)
          ([currentBranchQuery, branchesQuery] ++
            [["fetch".toList,
              ({ scenarioConfiguration with DoneSquash := NoSquash } : Configuration).RemoteName,
              "--prune".toList], currentBranchQuery, branchesQuery, remoteBranchesQuery]) =
        ([currentBranchQuery, branchesQuery] ++
            [["fetch".toList,
              ({ scenarioConfiguration with DoneSquash := NoSquash } : Configuration).RemoteName,
              "--prune".toList], currentBranchQuery, branchesQuery, remoteBranchesQuery] ++
            [statusQuery], .ok u) ∧
      done idleExternal { scenarioConfiguration with DoneSquash := NoSquash }
          (followingRepo " M f.txt".toList "M  f.txt".toList) [] =
        ([currentBranchQuery, branchesQuery] ++ mid ++
          [wipMergeCommand { scenarioConfiguration with DoneSquash := NoSquash }
            ⟨"mob/main".toList⟩, ["branch".toList, "-D".toList, "mob/main".toList]] ++
          (if u = true ∧
              ({ scenarioConfiguration with DoneSquash := NoSquash } : Configuration).DoneSquash ≠
                Squash then
            [["reset".toList, "--soft".toList, "HEAD^".toList]] else []) ++
          [remoteDeleteCommand { scenarioConfiguration with DoneSquash := NoSquash }
            ⟨"mob/main".toList⟩, cachedQuery, gitDirQuery, statusQuery], .ok ()) ∧
      ∀ x ∈ mid ++ [wipMergeCommand { scenarioConfiguration with DoneSquash := NoSquash }
          ⟨"mob/main".toList⟩],
        isDoneCleanup { scenarioConfiguration with DoneSquash := NoSquash }
          ⟨"mob/main".toList⟩ x = false :=
  ⟨by decide,
    done_merge_success_cleans_up idleExternal
      { scenarioConfiguration with DoneSquash := NoSquash }
      (followingRepo " M f.txt".toList "M  f.txt".toList) [] [currentBranchQuery, branchesQuery]
      ⟨"mob/main".toList⟩ ⟨"main".toList⟩ ["main".toList, "mob/main".toList]
      ["origin/main".toList, "origin/mob/main".toList]
      (followingRepo_succeeds _ _) (followingRepo_onBranch _ _)
      (followingRepo_localBranches _ _) (followingRepo_remoteBranches _ _)
      (by decide) (by decide) (by decide) (fun _ _ => rfl)⟩

/-- C14 (counterexample): in the session on `mob/main` with a clean working
tree and the mode `no-squash`, every command succeeding, `done` deletes the
local and the remote wip branch and performs no soft reset, although the mode
is not `squash`; the status shows the staged merge when it is read again at
the end. -/
theorem done_merge_success_no_reset_when_clean :
    ({ scenarioConfiguration with DoneSquash := NoSquash } : Configuration).DoneSquash ≠
      Squash ∧
    (isMobProgramming { scenarioConfiguration with DoneSquash := NoSquash }
      (followingRepo [] "M  f.txt".toList) []).2 = .ok true ∧
    done idleExternal { scenarioConfiguration with DoneSquash := NoSquash }
        (followingRepo [] "M  f.txt".toList) [] =
      ([currentBranchQuery, branchesQuery,
        ["fetch".toList, "origin".toList, "--prune".toList], currentBranchQuery, branchesQuery,
        remoteBranchesQuery, statusQuery,
        ["push".toList, "--no-verify".toList, "origin".toList, "mob/main".toList],
        ["checkout".toList, "main".toList],
        ["merge".toList, "origin/main".toList, "--ff-only".toList],
        ["merge".toList, "--no-commit".toList, "--ff".toList, "mob/main".toList],
        ["branch".toList, "-D".toList, "mob/main".toList],
        ["push".toList, "--no-verify".toList, "origin".toList, "--delete".toList,
          "mob/main".toList],
        cachedQuery, gitDirQuery, statusQuery], .ok ()) ∧
    ["reset".toList, "--soft".toList, "HEAD^".toList] ∉
      (done idleExternal { scenarioConfiguration with DoneSquash := NoSquash }
        (followingRepo [] "M  f.txt".toList) []).1 := by
  decide


/-! ### Qualifier stripping without a configured qualifier -/

theorem singleton_infix_iff (s : Char) (l : Str) : [s] <:+: l ↔ s ∈ l := by
  constructor
  · rintro ⟨a, c, rfl⟩; simp
  · intro h
    obtain ⟨a, c, rfl⟩ := List.append_of_mem h
    exact ⟨a, c, by simp⟩

theorem contains_singleton_iff (s : Char) (l : Str) : contains l [s] = true ↔ s ∈ l := by
  unfold contains
  rw [decide_eq_true_iff, index_nonneg_iff, singleton_infix_iff]

theorem exists_last_occurrence (s : Char) (b : Str) (h : s ∈ b) :
    ∃ pre post, b = pre ++ s :: post ∧ s ∉ post := by
  induction b with
  | nil => exact absurd h (List.not_mem_nil _)
  | cons c t ih =>
    by_cases ht : s ∈ t
    · obtain ⟨pre, post, hb, hp⟩ := ih ht
      exact ⟨c :: pre, post, by rw [hb]; rfl, hp⟩
    · rcases List.mem_cons.mp h with hc | hc
      · exact ⟨[], t, by rw [hc]; rfl, ht⟩
      · exact absurd hc ht

theorem lastIndex_last_occurrence (s : Char) (pre post : Str) (h : s ∉ post) :
    lastIndex (pre ++ s :: post) [s] = (pre.length : Int) := by
  induction pre with
  | nil =>
    have hneg : ¬ (0 ≤ lastIndex post [s]) := by
      rw [lastIndex_nonneg_iff, singleton_infix_iff]; exact h
    simp only [List.nil_append, lastIndex, List.length_nil]
    rw [if_neg hneg]
    simp
  | cons c pre ih =>
    have hstep : lastIndex (c :: (pre ++ s :: post)) [s] =
        if 0 ≤ lastIndex (pre ++ s :: post) [s] then lastIndex (pre ++ s :: post) [s] + 1
        else if [s].isPrefixOf (c :: (pre ++ s :: post)) then 0 else -1 := rfl
    rw [List.cons_append, hstep, ih, if_pos (by omega), List.length_cons]
    push_cast; rfl

theorem removeFromSeparator_last_occurrence (s : Char) (pre post : Str) (h : s ∉ post)
    (hpre : ∀ c ∈ pre, isSpace c = false) :
    (Branch.mk (pre ++ s :: post)).removeFromSeparator [s] = .ok ⟨pre⟩ := by
  unfold Branch.removeFromSeparator
  simp only
  rw [lastIndex_last_occurrence s pre post h]
  rw [sliceTo_ok _ _ (by omega) (by simp; omega)]
  simp only [Int.toNat_ofNat, List.take_left, Except.map, newBranch]
  rw [trimSpace_of_noSpace pre hpre]

theorem mem_cutsBefore (b : Str) (s : Char) (x : Str) :
    x ∈ cutsBefore b s ↔ ∃ i, b[i]? = some s ∧ x = b.take i := by
  unfold cutsBefore
  simp only [List.mem_map, List.mem_filter, List.mem_range, decide_eq_true_eq]
  constructor
  · rintro ⟨i, ⟨_, hi⟩, rfl⟩; exact ⟨i, hi, rfl⟩
  · rintro ⟨i, hi, rfl⟩
    refine ⟨i, ⟨?_, hi⟩, rfl⟩
    by_contra hlt
    rw [List.getElem?_eq_none (by omega)] at hi
    exact absurd hi (by simp)

theorem cutsBefore_last_occurrence (s : Char) (pre post : Str) (h : s ∉ post) (x : Str) :
    x ∈ cutsBefore (pre ++ s :: post) s ↔ x = pre ∨ x ∈ cutsBefore pre s := by
  rw [mem_cutsBefore, mem_cutsBefore]
  constructor
  · rintro ⟨i, hi, rfl⟩
    rcases Nat.lt_trichotomy i pre.length with hlt | heq | hgt
    · right
      rw [List.getElem?_append_left hlt] at hi
      exact ⟨i, hi, List.take_append_of_le_length (le_of_lt hlt)⟩
    · left
      rw [heq]; exact List.take_left _ _
    · exfalso
      rw [List.getElem?_append_right (le_of_lt hgt)] at hi
      obtain ⟨k, hk⟩ : ∃ k, i - pre.length = k + 1 := ⟨i - pre.length - 1, by omega⟩
      rw [hk, List.getElem?_cons_succ] at hi
      exact h (List.getElem?_mem hi)
  · rintro (rfl | ⟨i, hi, rfl⟩)
    · refine ⟨x.length, ?_, (List.take_left _ _).symm⟩
      rw [List.getElem?_append_right (le_refl _)]
      simp
    · have hlt : i < pre.length := by
        by_contra hge
        rw [List.getElem?_eq_none (by omega)] at hi
        exact absurd hi (by simp)
      refine ⟨i, ?_, (List.take_append_of_le_length (le_of_lt hlt)).symm⟩
      rw [List.getElem?_append_left hlt]; exact hi

theorem beforeFirstSeparator_last_occurrence (s : Char) (pre post : Str) :
    beforeFirstSeparator (pre ++ s :: post) s = beforeFirstSeparator pre s := by
  unfold beforeFirstSeparator
  induction pre with
  | nil => simp
  | cons c pre ih =>
    by_cases hc : c = s
    · simp [hc]
    · simp only [List.cons_append]
      rw [List.takeWhile_cons_of_pos (by simpa using hc),
        List.takeWhile_cons_of_pos (by simpa using hc), ih]

theorem beforeFirstSeparator_of_not_mem (s : Char) (b : Str) (h : s ∉ b) :
    beforeFirstSeparator b s = b := by
  unfold beforeFirstSeparator
  rw [List.takeWhile_eq_self_iff]
  intro x hx
  simp only [decide_eq_true_eq]
  rintro rfl
  exact h hx

theorem cutsBefore_of_not_mem (s : Char) (b : Str) (h : s ∉ b) (x : Str) :
    x ∉ cutsBefore b s := by
  rw [mem_cutsBefore]
  rintro ⟨i, hi, _⟩
  exact h (List.getElem?_mem hi)

theorem strippingCandidates_length_le (s : Char) (b x : Str)
    (h : x ∈ strippingCandidates b s) : x.length ≤ b.length := by
  unfold strippingCandidates at h
  rcases List.mem_cons.mp h with rfl | h
  · exact le_refl _
  · obtain ⟨i, _, rfl⟩ := (mem_cutsBefore b s x).mp h
    exact (List.take_sublist _ _).length_le

theorem removeWipQualifierLoop_longest (L : List Str) (cfg : Configuration) (s : Char)
    (hq : cfg.customWipBranchQualifierConfigured = false)
    (hsep : cfg.WipBranchQualifierSeparator = [s]) :
    ∀ (n : Nat) (b : Str), b.length ≤ n → (∀ c ∈ b, isSpace c = false) →
      ∀ fuel, b.length + 2 ≤ fuel →
      ∃ r k, removeWipQualifierLoop L cfg fuel ⟨b⟩ = some (.ok (⟨r⟩, k)) ∧
        ((∃ x ∈ strippingCandidates b s, x ∈ L) →
          r ∈ strippingCandidates b s ∧ r ∈ L ∧
            ∀ x ∈ strippingCandidates b s, x ∈ L → x.length ≤ r.length) ∧
        ((∀ x ∈ strippingCandidates b s, x ∉ L) → r = beforeFirstSeparator b s) := by
  intro n
  induction n with
  | zero =>
    intro b hlen _ fuel hfuel
    have hb : b = [] := List.length_eq_zero.mp (Nat.le_zero.mp hlen)
    subst hb
    obtain ⟨fuel, rfl⟩ : ∃ f, fuel = f + 1 := ⟨fuel - 1, by omega⟩
    have hc : (Branch.mk []).hasWipBranchQualifierSeparator cfg = false := by
      unfold Branch.hasWipBranchQualifierSeparator
      rw [hsep]; rfl
    unfold removeWipQualifierLoop
    rw [hc, Bool.and_false, if_neg (by simp)]
    refine ⟨[], 0, rfl, ?_, ?_⟩
    · rintro ⟨x, hx, hxL⟩
      have hx0 : x = [] := by
        rcases List.mem_cons.mp hx with h | h
        · exact h
        · exact absurd h (cutsBefore_of_not_mem s [] (List.not_mem_nil _) x)
      subst hx0
      refine ⟨hx, hxL, ?_⟩
      intro y hy _
      exact strippingCandidates_length_le s [] y hy
    · intro _; rfl
  | succ n ih =>
    intro b hlen hb fuel hfuel
    obtain ⟨fuel, rfl⟩ : ∃ f, fuel = f + 1 := ⟨fuel - 1, by omega⟩
    unfold removeWipQualifierLoop
    by_cases hL : b ∈ L
    · have he : (Branch.mk b).exists L = true := (stringContains_iff L b).mpr hL
      rw [he, Bool.not_true, Bool.false_and, if_neg (by simp)]
      refine ⟨b, 0, rfl, ?_, ?_⟩
      · intro _
        exact ⟨List.mem_cons_self _ _, hL, fun x hx _ => strippingCandidates_length_le s b x hx⟩
      · intro h
        exact absurd hL (h b (List.mem_cons_self _ _))
    · have he : (Branch.mk b).exists L = false := by
        rw [← Bool.not_eq_true]
        exact fun h => hL ((stringContains_iff L b).mp h)
      by_cases hs : s ∈ b
      · have hc : (Branch.mk b).hasWipBranchQualifierSeparator cfg = true := by
          unfold Branch.hasWipBranchQualifierSeparator
          rw [hsep]; exact (contains_singleton_iff s b).mpr hs
        obtain ⟨pre, post, hbeq, hpost⟩ := exists_last_occurrence s b hs
        subst hbeq
        have hpre : ∀ c ∈ pre, isSpace c = false :=
          fun c hcm => hb c (List.mem_append_left _ hcm)
        have hrem : (Branch.mk (pre ++ s :: post)).removeWipQualifierSuffixOrSeparator cfg =
            .ok ⟨pre⟩ := by
          unfold Branch.removeWipQualifierSuffixOrSeparator
          rw [hq, hsep, Bool.not_false, if_pos rfl]
          exact removeFromSeparator_last_occurrence s pre post hpost hpre
        have hne : Branch.mk (pre ++ s :: post) ≠ Branch.mk pre := by
          intro h
          have := congrArg (fun x => x.Name.length) h
          simp at this
        have hlen2 : (pre ++ s :: post).length = pre.length + post.length + 1 := by
          simp; omega
        obtain ⟨r, k, hr, h1, h2⟩ := ih pre (by omega) hpre fuel (by omega)
        rw [he, hc, Bool.not_false, Bool.and_true, if_pos rfl, hrem]
        simp only
        rw [if_neg hne, hr]
        refine ⟨r, k + 1, rfl, ?_, ?_⟩
        · rintro ⟨x, hx, hxL⟩
          have hxpre : x ∈ strippingCandidates pre s := by
            rcases List.mem_cons.mp hx with h | h
            · rw [h] at hxL; exact absurd hxL hL
            · rcases (cutsBefore_last_occurrence s pre post hpost x).mp h with h | h
              · rw [h]; exact List.mem_cons_self _ _
              · exact List.mem_cons_of_mem _ h
          obtain ⟨hr1, hr2, hr3⟩ := h1 ⟨x, hxpre, hxL⟩
          refine ⟨?_, hr2, ?_⟩
          · apply List.mem_cons_of_mem
            apply (cutsBefore_last_occurrence s pre post hpost r).mpr
            rcases List.mem_cons.mp hr1 with h | h
            · exact Or.inl h
            · exact Or.inr h
          · intro y hy hyL
            apply hr3 y _ hyL
            rcases List.mem_cons.mp hy with h | h
            · rw [h] at hyL; exact absurd hyL hL
            · rcases (cutsBefore_last_occurrence s pre post hpost y).mp h with h | h
              · rw [h]; exact List.mem_cons_self _ _
              · exact List.mem_cons_of_mem _ h
        · intro hnone
          rw [beforeFirstSeparator_last_occurrence]
          apply h2
          intro x hx
          apply hnone
          apply List.mem_cons_of_mem
          apply (cutsBefore_last_occurrence s pre post hpost x).mpr
          rcases List.mem_cons.mp hx with h | h
          · exact Or.inl h
          · exact Or.inr h
      · have hc : (Branch.mk b).hasWipBranchQualifierSeparator cfg = false := by
          unfold Branch.hasWipBranchQualifierSeparator
          rw [hsep, ← Bool.not_eq_true]
          exact fun h => hs ((contains_singleton_iff s b).mp h)
        rw [hc, Bool.and_false, if_neg (by simp)]
        refine ⟨b, 0, rfl, ?_, ?_⟩
        · rintro ⟨x, hx, hxL⟩
          rcases List.mem_cons.mp hx with h | h
          · rw [h] at hxL; exact absurd hxL hL
          · exact absurd h (cutsBefore_of_not_mem s b hs x)
        · intro _
          exact (beforeFirstSeparator_of_not_mem s b hs).symm

/-- C20. Qualifier stripping without a configured qualifier: for a
whitespace-free name `b`, a separator that is the single character `s` and a
list `L` of local branches, `removeWipQualifier` returns without a panic;
when `b` or a cut of `b` just before an occurrence of `s` is in `L`, the
result is such a string, it is in `L`, and no other of them in `L` is
longer; when none of them is in `L`, the result is the part of `b` before the
first occurrence of `s`. -/
theorem removeWipQualifier_longest_candidate (b : Str) (s : Char) (L : List Str)
    (cfg : Configuration)
    (hq : cfg.customWipBranchQualifierConfigured = false)
    (hsep : cfg.WipBranchQualifierSeparator = [s])
    (hb : ∀ c ∈ b, isSpace c = false) :
    ∃ r, (Branch.mk b).removeWipQualifier L cfg = .ok ⟨r⟩ ∧
      ((∃ x ∈ strippingCandidates b s, x ∈ L) →
        r ∈ strippingCandidates b s ∧ r ∈ L ∧
          ∀ x ∈ strippingCandidates b s, x ∈ L → x.length ≤ r.length) ∧
      ((∀ x ∈ strippingCandidates b s, x ∉ L) → r = beforeFirstSeparator b s) := by
  obtain ⟨r, k, hr, h1, h2⟩ :=
    removeWipQualifierLoop_longest L cfg s hq hsep b.length b (le_refl _) hb (b.length + 2)
      (le_refl _)
  refine ⟨r, ?_, h1, h2⟩
  unfold Branch.removeWipQualifier
  simp only
  rw [hr]; rfl

/-- C20 (witness): the examples of the specification, `feature-x-alice` with
`feature-x` among the local branches and with no local branch. -/
theorem removeWipQualifier_longest_candidate_witness :
    (Branch.mk "feature-x-alice".toList).removeWipQualifier ["feature-x".toList]
        scenarioConfiguration = .ok ⟨"feature-x".toList⟩ ∧
      (Branch.mk "feature-x-alice".toList).removeWipQualifier [] scenarioConfiguration =
        .ok ⟨"feature".toList⟩ ∧
      ∃ r, (Branch.mk "feature-x-alice".toList).removeWipQualifier ["feature-x".toList]
          scenarioConfiguration = .ok ⟨r⟩ ∧
        ((∃ x ∈ strippingCandidates "feature-x-alice".toList '-', x ∈ ["feature-x".toList]) →
          r ∈ strippingCandidates "feature-x-alice".toList '-' ∧ r ∈ ["feature-x".toList] ∧
            ∀ x ∈ strippingCandidates "feature-x-alice".toList '-',
              x ∈ ["feature-x".toList] → x.length ≤ r.length) ∧
        ((∀ x ∈ strippingCandidates "feature-x-alice".toList '-', x ∉ ["feature-x".toList]) →
          r = beforeFirstSeparator "feature-x-alice".toList '-') :=
  ⟨by decide, by decide,
    removeWipQualifier_longest_candidate "feature-x-alice".toList '-' ["feature-x".toList]
      scenarioConfiguration (by decide) (by decide) (by decide)⟩

/-! ### Resolving from the wip branch -/

theorem lastIndex_append_self (a sub : Str) (h : sub ≠ []) :
    lastIndex (a ++ sub) sub = (a.length : Int) := by
  induction a with
  | nil =>
    cases sub with
    | nil => exact absurd rfl h
    | cons c t =>
      have hneg : ¬ (0 ≤ lastIndex t (c :: t)) := by
        rw [lastIndex_nonneg_iff]
        intro hin
        have := hin.length_le
        simp at this
      have hstep : lastIndex (c :: t) (c :: t) =
          if 0 ≤ lastIndex t (c :: t) then lastIndex t (c :: t) + 1
          else if (c :: t).isPrefixOf (c :: t) then 0 else -1 := rfl
      rw [List.nil_append, hstep, if_neg hneg,
        if_pos (List.isPrefixOf_iff_prefix.mpr (List.prefix_refl _))]
      rfl
  | cons x a ih =>
    have hstep : lastIndex (x :: (a ++ sub)) sub =
        if 0 ≤ lastIndex (a ++ sub) sub then lastIndex (a ++ sub) sub + 1
        else if sub.isPrefixOf (x :: (a ++ sub)) then 0 else -1 := rfl
    rw [List.cons_append, hstep, ih, if_pos (by omega), List.length_cons]
    push_cast; rfl

theorem removeWipQualifierSuffix_append (b : Str) (cfg : Configuration)
    (hb : ∀ c ∈ b, isSpace c = false) (hq : cfg.WipBranchQualifier ≠ []) :
    (Branch.mk (b ++ cfg.wipBranchQualifierSuffix)).removeWipQualifierSuffix cfg = .ok ⟨b⟩ := by
  have hsuf : cfg.wipBranchQualifierSuffix ≠ [] := by
    unfold Configuration.wipBranchQualifierSuffix
    intro h
    exact hq (List.append_eq_nil.mp h).2
  unfold Branch.removeWipQualifierSuffix hasSuffix
  simp only
  rw [if_pos (List.isSuffixOf_iff_suffix.mpr (List.suffix_append _ _)),
    lastIndex_append_self b _ hsuf, sliceTo_ok _ _ (by omega) (by simp)]
  simp only [Int.toNat_ofNat, List.take_left, Except.map, newBranch]
  rw [trimSpace_of_noSpace b hb]

theorem removeWipQualifier_of_mem (b : Str) (L : List Str) (cfg : Configuration) (h : b ∈ L) :
    (Branch.mk b).removeWipQualifier L cfg = .ok ⟨b⟩ := by
  have he : (Branch.mk b).exists L = true := (stringContains_iff L b).mpr h
  unfold Branch.removeWipQualifier removeWipQualifierLoop
  simp only
  rw [he, Bool.not_true, Bool.false_and, if_neg (by simp)]
  rfl

theorem removeWipQualifier_strip_suffix (b : Str) (L : List Str) (cfg : Configuration)
    (hb : ∀ c ∈ b, isSpace c = false) (hq : cfg.WipBranchQualifier ≠ [])
    (hbL : b ∈ L) (hnL : b ++ cfg.wipBranchQualifierSuffix ∉ L) :
    (Branch.mk (b ++ cfg.wipBranchQualifierSuffix)).removeWipQualifier L cfg = .ok ⟨b⟩ := by
  have hqc : cfg.customWipBranchQualifierConfigured = true := by
    unfold Configuration.customWipBranchQualifierConfigured
    simpa using hq
  have he : (Branch.mk (b ++ cfg.wipBranchQualifierSuffix)).exists L = false := by
    rw [← Bool.not_eq_true]
    exact fun h => hnL ((stringContains_iff L _).mp h)
  have hc : (Branch.mk (b ++ cfg.wipBranchQualifierSuffix)).hasWipBranchQualifierSeparator cfg
      = true := by
    unfold Branch.hasWipBranchQualifierSeparator contains
    rw [decide_eq_true_iff, index_nonneg_iff]
    exact ⟨b, cfg.WipBranchQualifier, by
      unfold Configuration.wipBranchQualifierSuffix; simp [List.append_assoc]⟩
  have hrem : (Branch.mk (b ++ cfg.wipBranchQualifierSuffix)).removeWipQualifierSuffixOrSeparator
      cfg = .ok ⟨b⟩ := by
    unfold Branch.removeWipQualifierSuffixOrSeparator
    rw [hqc, Bool.not_true, if_neg (by simp)]
    exact removeWipQualifierSuffix_append b cfg hb hq
  have hne : Branch.mk (b ++ cfg.wipBranchQualifierSuffix) ≠ Branch.mk b := by
    intro h
    have h1 := congrArg (fun x => x.Name.length) h
    have h2 : cfg.wipBranchQualifierSuffix.length = 0 := by
      simp only [List.length_append] at h1; omega
    have h3 := List.length_eq_zero.mp h2
    unfold Configuration.wipBranchQualifierSuffix at h3
    exact hq (List.append_eq_nil.mp h3).2
  have he2 : (Branch.mk b).exists L = true := (stringContains_iff L b).mpr hbL
  have hloop : ∀ fuel, removeWipQualifierLoop L cfg (fuel + 2)
      ⟨b ++ cfg.wipBranchQualifierSuffix⟩ = some (.ok (⟨b⟩, 1)) := by
    intro fuel
    unfold removeWipQualifierLoop
    rw [he, hc, Bool.not_false, Bool.and_true, if_pos rfl, hrem]
    simp only
    rw [if_neg hne]
    unfold removeWipQualifierLoop
    rw [he2, Bool.not_true, Bool.false_and, if_neg (by simp)]
  unfold Branch.removeWipQualifier
  simp only
  rw [hloop]
  rfl

theorem getWipBranch_from_base (b : Str) (cfg : Configuration)
    (hfixed : cfg.customFixedBaseBranchConfigured = false)
    (hpS : ∀ x ∈ cfg.WipBranchPrefix, isSpace x = false)
    (hsS : ∀ x ∈ cfg.WipBranchQualifierSeparator, isSpace x = false)
    (hqS : ∀ x ∈ cfg.WipBranchQualifier, isSpace x = false)
    (hbS : ∀ x ∈ b, isSpace x = false)
    (hwip : (⟨b⟩ : Branch).IsWipBranch cfg = false)
    (hne : cfg.customWipBranchQualifierConfigured = true → b ≠ []) :
    getWipBranch ⟨b⟩ cfg =
      ⟨cfg.WipBranchPrefix ++ (b ++
        (if cfg.customWipBranchQualifierConfigured = true then cfg.wipBranchQualifierSuffix
          else []))⟩ := by
  rw [getWipBranch_of_not_wip ⟨b⟩ cfg hwip (by simp [hfixed])]
  have h1 : (⟨b⟩ : Branch).addWipPrefix cfg = ⟨cfg.WipBranchPrefix ++ b⟩ := by
    unfold Branch.addWipPrefix newBranch
    rw [trimSpace_of_noSpace _ (noSpace_append _ _ hpS hbS)]
  rw [h1]
  unfold Branch.addWipQualifier
  by_cases hqc : cfg.customWipBranchQualifierConfigured = true
  · rw [if_pos hqc, if_pos hqc]
    have hne2 : ¬ (cfg.WipBranchPrefix ++ b = cfg.WipBranchPrefix) := by
      intro h
      exact hne hqc (List.append_right_eq_self.mp h)
    simp only
    rw [if_neg hne2]
    unfold addSuffix newBranch Configuration.wipBranchQualifierSuffix
    rw [trimSpace_of_noSpace _
      (noSpace_append _ _ (noSpace_append _ _ hpS hbS) (noSpace_append _ _ hsS hqS))]
    simp [List.append_assoc]
  · rw [if_neg hqc, if_neg hqc, List.append_nil]

theorem getBaseBranch_of_wip_name (b : Str) (L : List Str) (cfg : Configuration)
    (hfixed : cfg.customFixedBaseBranchConfigured = false)
    (hsS : ∀ x ∈ cfg.WipBranchQualifierSeparator, isSpace x = false)
    (hqS : ∀ x ∈ cfg.WipBranchQualifier, isSpace x = false)
    (hbS : ∀ x ∈ b, isSpace x = false)
    (hbL : b ∈ L)
    (hq : cfg.customWipBranchQualifierConfigured = true →
      b ++ cfg.WipBranchQualifierSeparator ++ cfg.WipBranchQualifier ∉ L) :
    getBaseBranch
      ⟨cfg.WipBranchPrefix ++ (b ++
        (if cfg.customWipBranchQualifierConfigured = true then cfg.wipBranchQualifierSuffix
          else []))⟩ L cfg = .ok ⟨b⟩ := by
  unfold getBaseBranch
  rw [hfixed, if_neg (by simp), if_pos (isWipBranch_intro _ _ (List.prefix_append _ _))]
  unfold Branch.removeWipPrefix
  simp only
  rw [removePrefix_eq_drop _ _ (List.prefix_append _ _), List.drop_left]
  by_cases hqc : cfg.customWipBranchQualifierConfigured = true
  · have hqne : cfg.WipBranchQualifier ≠ [] := by
      unfold Configuration.customWipBranchQualifierConfigured at hqc
      simpa using hqc
    have hnL : b ++ cfg.wipBranchQualifierSuffix ∉ L := by
      unfold Configuration.wipBranchQualifierSuffix
      rw [← List.append_assoc]
      exact hq hqc
    have hsuf : ∀ x ∈ cfg.wipBranchQualifierSuffix, isSpace x = false := by
      unfold Configuration.wipBranchQualifierSuffix
      exact noSpace_append _ _ hsS hqS
    rw [if_pos hqc]
    unfold newBranch
    rw [trimSpace_of_noSpace _ (noSpace_append _ _ hbS hsuf)]
    exact removeWipQualifier_strip_suffix b L cfg hbS hqne hbL hnL
  · rw [if_neg hqc, List.append_nil]
    unfold newBranch
    rw [trimSpace_of_noSpace _ hbS]
    exact removeWipQualifier_of_mem b L cfg hbL

/-- C21 (as amended): session resolution is stable across the switch from the
base to the wip branch. With no fixed base branch, prefix, separator and
qualifier free of white space, and a branch name `b` free of white space that
is in `L`, is no wip branch, is not resolved by the legacy rule, and is not
empty when a qualifier is configured: `determineBranches` on `b` returns the
base `b` and a wip branch; if the name of that wip branch is neither `master`
nor `mob-session` and (when a qualifier is configured) `b` followed by
separator and qualifier is not in `L`, `determineBranches` on the wip branch
returns the same pair. -/
theorem determineBranches_stable_across_switch (b : Str) (L : List Str) (cfg : Configuration)
    (hfixed : cfg.customFixedBaseBranchConfigured = false)
    (hpS : ∀ x ∈ cfg.WipBranchPrefix, isSpace x = false)
    (hsS : ∀ x ∈ cfg.WipBranchQualifierSeparator, isSpace x = false)
    (hqS : ∀ x ∈ cfg.WipBranchQualifier, isSpace x = false)
    (hbS : ∀ x ∈ b, isSpace x = false)
    (hbL : b ∈ L)
    (hwip : (⟨b⟩ : Branch).IsWipBranch cfg = false)
    (hleg : ¬ (b = "master".toList ∧ cfg.customWipBranchQualifierConfigured = false))
    (hne : cfg.customWipBranchQualifierConfigured = true → b ≠ []) :
    ∃ wip, determineBranches ⟨b⟩ L cfg = .ok (⟨b⟩, wip) ∧
      (wip.Name ≠ "master".toList → wip.Name ≠ "mob-session".toList →
        (cfg.customWipBranchQualifierConfigured = true →
          b ++ cfg.WipBranchQualifierSeparator ++ cfg.WipBranchQualifier ∉ L) →
        determineBranches wip L cfg = .ok (⟨b⟩, wip)) := by
  have hleg1 : ¬ ((⟨b⟩ : Branch).Name = "mob-session".toList ∨
      ((⟨b⟩ : Branch).Name = "master".toList ∧
        cfg.customWipBranchQualifierConfigured = false)) := by
    rintro (h | h)
    · have : (⟨b⟩ : Branch).IsWipBranch cfg = true := (isWipBranch_iff _ cfg).mpr (Or.inl h)
      rw [this] at hwip
      exact absurd hwip (by simp)
    · exact hleg h
  have hbase := getBaseBranch_of_not_wip ⟨b⟩ L cfg hfixed hwip
  have hd := determineBranches_of_general ⟨b⟩ ⟨b⟩ L cfg hleg1 hbase (Or.inl rfl)
  have hw := getWipBranch_from_base b cfg hfixed hpS hsS hqS hbS hwip hne
  refine ⟨getWipBranch ⟨b⟩ cfg, hd, ?_⟩
  intro hm hs hq
  have hleg2 : ¬ ((getWipBranch ⟨b⟩ cfg).Name = "mob-session".toList ∨
      ((getWipBranch ⟨b⟩ cfg).Name = "master".toList ∧
        cfg.customWipBranchQualifierConfigured = false)) := by
    rintro (h | ⟨h, _⟩)
    · exact hs h
    · exact hm h
  have hisw : (getWipBranch ⟨b⟩ cfg).IsWipBranch cfg = true := by
    rw [hw]
    exact isWipBranch_intro _ _ (List.prefix_append _ _)
  have hbase2 : getBaseBranch (getWipBranch ⟨b⟩ cfg) L cfg = .ok ⟨b⟩ := by
    rw [hw]
    exact getBaseBranch_of_wip_name b L cfg hfixed hsS hqS hbS hbL hq
  have hd2 := determineBranches_of_general (getWipBranch ⟨b⟩ cfg) ⟨b⟩ L cfg hleg2 hbase2
    (Or.inr (Or.inl (getWipBranch_of_wip _ cfg hisw).symm))
  rw [getWipBranch_of_wip _ cfg hisw] at hd2
  exact hd2

/-- C21 (witness): with the prefix `mob/`, the separator `-` and the qualifier
`green`, from the base branch `main` the pair is `main` and `mob/main-green`,
and from `mob/main-green` the pair is the same. -/
theorem determineBranches_stable_across_switch_witness :
    determineBranches ⟨"main".toList⟩ ["main".toList]
        { scenarioConfiguration with WipBranchQualifier := "green".toList } =
        .ok (⟨"main".toList⟩, ⟨"mob/main-green".toList⟩) ∧
      determineBranches ⟨"mob/main-green".toList⟩ ["main".toList]
        { scenarioConfiguration with WipBranchQualifier := "green".toList } =
        .ok (⟨"main".toList⟩, ⟨"mob/main-green".toList⟩) ∧
      ∃ wip, determineBranches ⟨"main".toList⟩ ["main".toList]
          { scenarioConfiguration with WipBranchQualifier := "green".toList } =
          .ok (⟨"main".toList⟩, wip) ∧
        (wip.Name ≠ "master".toList → wip.Name ≠ "mob-session".toList →
          (({ scenarioConfiguration with WipBranchQualifier := "green".toList } :
              Configuration).customWipBranchQualifierConfigured = true →
            "main".toList ++
              ({ scenarioConfiguration with WipBranchQualifier := "green".toList } :
                Configuration).WipBranchQualifierSeparator ++
              ({ scenarioConfiguration with WipBranchQualifier := "green".toList } :
                Configuration).WipBranchQualifier ∉ ["main".toList]) →
          determineBranches wip ["main".toList]
            { scenarioConfiguration with WipBranchQualifier := "green".toList } =
            .ok (⟨"main".toList⟩, wip)) :=
  ⟨by decide, by decide,
    determineBranches_stable_across_switch "main".toList ["main".toList]
      { scenarioConfiguration with WipBranchQualifier := "green".toList }
      (by decide) (by decide) (by decide) (by decide) (by decide) (by decide) (by decide)
      (by decide) (by decide)⟩

/-- C21 (counterexample): with the prefix `mob/`, the separator `-` and the
qualifier `green`, the empty branch name is free of white space, is in the
list of local branches, is no wip branch and is not resolved by the legacy
rule; `determineBranches` resolves it to the base with the empty name and the
wip branch `mob/green`, which is neither `master` nor `mob-session`, and
`-green` is not a local branch; but from `mob/green` the base is `green`. -/
theorem determineBranches_empty_base_not_recovered :
    ({ scenarioConfiguration with WipBranchQualifier := "green".toList } :
        Configuration).customFixedBaseBranchConfigured = false ∧
      (⟨[]⟩ : Branch).IsWipBranch
        { scenarioConfiguration with WipBranchQualifier := "green".toList } = false ∧
      ([] : Str) ∈ [([] : Str)] ∧
      determineBranches ⟨[]⟩ [[]]
        { scenarioConfiguration with WipBranchQualifier := "green".toList } =
        .ok (⟨[]⟩, ⟨"mob/green".toList⟩) ∧
      ([] : Str) ++ "-".toList ++ "green".toList ∉ [([] : Str)] ∧
      determineBranches ⟨"mob/green".toList⟩ [[]]
        { scenarioConfiguration with WipBranchQualifier := "green".toList } =
        .ok (⟨"green".toList⟩, ⟨"mob/green".toList⟩) ∧
      (⟨"green".toList⟩ : Branch) ≠ ⟨[]⟩ := by
  decide

/-! ### The active-session test -/

theorem prefix_trimSpace_append (p y : Str) (hp : trimSpace p = p) :
    p <+: trimSpace (p ++ y) := by
  by_cases hne : p = []
  · rw [hne]; exact List.nil_prefix
  · obtain ⟨hd, hr⟩ := (trimSpace_eq_self_iff p).mp hp
    unfold trimSpace
    rw [dropWhile_append_of_ne_nil isSpace p y (by rw [hd]; exact hne), hd]
    exact prefix_rdropWhile_append isSpace p y hr

theorem prefix_addWip (x : Branch) (cfg : Configuration)
    (hp : trimSpace cfg.WipBranchPrefix = cfg.WipBranchPrefix) :
    cfg.WipBranchPrefix <+: ((x.addWipPrefix cfg).addWipQualifier cfg).Name := by
  have h1 : cfg.WipBranchPrefix <+: (x.addWipPrefix cfg).Name :=
    prefix_trimSpace_append _ _ hp
  obtain ⟨z, hz⟩ := h1
  unfold Branch.addWipQualifier addSuffix newBranch
  split
  · split
    · simp only
      rw [← hz, List.append_assoc]
      exact prefix_trimSpace_append _ _ hp
    · simp only
      rw [← hz, List.append_assoc]
      exact prefix_trimSpace_append _ _ hp
  · exact ⟨z, hz⟩

theorem getWipBranch_isWipBranch (c : Branch) (cfg : Configuration)
    (hp : trimSpace cfg.WipBranchPrefix = cfg.WipBranchPrefix) :
    (getWipBranch c cfg).IsWipBranch cfg = true := by
  unfold getWipBranch
  split
  · assumption
  · exact isWipBranch_intro _ _ (prefix_addWip _ cfg hp)

/-- C22: the active-session test agrees with the naming convention. For every
configuration whose wip branch prefix has no leading and no trailing white
space, every local branch list and every current branch other than `master`,
`determineBranches` returns a pair whose wip branch equals the current branch
if and only if the current branch satisfies `IsWipBranch`; and on every
repository that answers with this current branch and these local branches,
`isMobProgramming` returns the value of `IsWipBranch` on the current
branch. -/
theorem isMobProgramming_iff_isWipBranch (c : Branch) (L : List Str) (cfg : Configuration)
    (hp : trimSpace cfg.WipBranchPrefix = cfg.WipBranchPrefix)
    (hm : c.Name ≠ "master".toList) :
    ∃ base wip, determineBranches c L cfg = .ok (base, wip) ∧
      (wip = c ↔ c.IsWipBranch cfg = true) ∧
      ∀ (repo : Repo) (t : List Cmd), repo.OnBranch c → repo.LocalBranches L →
        isMobProgramming cfg repo t =
          (t ++ [currentBranchQuery] ++ [branchesQuery], .ok (c.IsWipBranch cfg)) := by
  have key : ∃ base wip, determineBranches c L cfg = .ok (base, wip) ∧
      (wip = c ↔ c.IsWipBranch cfg = true) := by
    by_cases hs : c.Name = "mob-session".toList
    · refine ⟨_, _, determineBranches_of_legacy c L cfg (Or.inl hs), ?_⟩
      have hw : c.IsWipBranch cfg = true := (isWipBranch_iff c cfg).mpr (Or.inl hs)
      exact ⟨fun _ => hw, fun _ => Branch.ext_name hs.symm⟩
    · have hleg : ¬ (c.Name = "mob-session".toList ∨
          (c.Name = "master".toList ∧ cfg.customWipBranchQualifierConfigured = false)) := by
        rintro (h | ⟨h, _⟩)
        · exact hs h
        · exact hm h
      obtain ⟨base0, hb0⟩ := getBaseBranch_ok c L cfg
      by_cases hw : c.IsWipBranch cfg = true
      · have hg := getWipBranch_of_wip c cfg hw
        have hd := determineBranches_of_general c base0 L cfg hleg hb0 (Or.inr (Or.inl hg.symm))
        rw [hg] at hd
        exact ⟨base0, c, hd, fun _ => hw, fun _ => rfl⟩
      · have hw0 : c.IsWipBranch cfg = false := by simpa using hw
        have hon : c = base0 ∨ c = getWipBranch c cfg ∨
            cfg.customFixedBaseBranchConfigured = true := by
          by_cases hf : cfg.customFixedBaseBranchConfigured = true
          · exact Or.inr (Or.inr hf)
          · have hf0 : cfg.customFixedBaseBranchConfigured = false := by simpa using hf
            rw [getBaseBranch_of_not_wip c L cfg hf0 hw0] at hb0
            exact Or.inl (Except.ok.inj hb0)
        have hd := determineBranches_of_general c base0 L cfg hleg hb0 hon
        refine ⟨base0, getWipBranch c cfg, hd, fun h => ?_, fun h => absurd h hw⟩
        have := getWipBranch_isWipBranch c cfg hp
        rw [h] at this
        exact this
  obtain ⟨base, wip, hd, hiff⟩ := key
  refine ⟨base, wip, hd, hiff, ?_⟩
  intro repo t hc hL
  rw [isMobProgramming_of cfg repo c base wip L hc hL hd t]
  have hb : decide (wip = c) = c.IsWipBranch cfg := by
    rw [Bool.eq_iff_iff, decide_eq_true_iff]
    exact hiff
  rw [hb]

/-- C22 (witness): with the prefix `mob/`, on the base branch `main` the wip
branch `mob/main` differs from the current branch and `main` is no wip branch;
on the wip branch `mob/main` both hold. -/
theorem isMobProgramming_iff_isWipBranch_witness :
    determineBranches ⟨"main".toList⟩ ["main".toList, "mob/main".toList] scenarioConfiguration =
        .ok (⟨"main".toList⟩, ⟨"mob/main".toList⟩) ∧
      (⟨"main".toList⟩ : Branch).IsWipBranch scenarioConfiguration = false ∧
      (isMobProgramming scenarioConfiguration (sessionRepo [] (fun _ => false)) []).2 =
        .ok true ∧
      ∃ base wip, determineBranches ⟨"mob/main".toList⟩ ["main".toList, "mob/main".toList]
          scenarioConfiguration = .ok (base, wip) ∧
        (wip = ⟨"mob/main".toList⟩ ↔
          (⟨"mob/main".toList⟩ : Branch).IsWipBranch scenarioConfiguration = true) ∧
        ∀ (repo : Repo) (t : List Cmd), repo.OnBranch ⟨"mob/main".toList⟩ →
          repo.LocalBranches ["main".toList, "mob/main".toList] →
          isMobProgramming scenarioConfiguration repo t =
            (t ++ [currentBranchQuery] ++ [branchesQuery],
              .ok ((⟨"mob/main".toList⟩ : Branch).IsWipBranch scenarioConfiguration)) :=
  ⟨by decide, by decide, by decide,
    isMobProgramming_iff_isWipBranch ⟨"mob/main".toList⟩ ["main".toList, "mob/main".toList]
      scenarioConfiguration (by decide) (by decide)⟩

end Mob
